import Mathlib

/-!
# Unscented Kalman filter: `src/ukf.cpp`

A shallow embedding of the class `UKF` (constructor, `ProcessMeasurement`, `Prediction`,
`UpdateLidar`, `UpdateRadar`) and the properties of it that the specification states.

Conventions of the embedding.

* `double` is idealised as a linear ordered field `K` (exact arithmetic, no rounding, no
  NaN or infinity; `x / 0 = 0` as in every Lean field).  All definitions that embed the code
  are computable for a computable `K` such as `ℚ`.
* The functions of `<cmath>` used by the code (`cos`, `sin`, `sqrt`, `atan2`) and the
  Cholesky factorisation of Eigen (`P_aug.llt().matrixL()`) are not part of `ukf.cpp`.  They
  are the fields of a record `Numerics K` that the embedded functions take as a parameter, so
  a theorem quantified over `m : Numerics K` holds whatever these library functions return.
  `realNumerics` is the instance over the real numbers that closed statements are stated at.
* `M_PI` is the decimal literal of `<cmath>`.
* `Eigen::VectorXd` of size `n` is `Fin n → K`, `Eigen::MatrixXd` of size `r × c` is
  `Matrix (Fin r) (Fin c) K`.  The dimensions `n_x_ = 5`, `n_aug_ = 7` and `2 * n_aug_ + 1 = 15`
  are fixed by the constructor and never change; they are fixed in the types.
* `long long` time stamps are `Int`; the difference of two time stamps is assumed not to
  overflow.
* A `while` loop is a recursive function with a fuel argument that returns `none` when the
  fuel runs out: `fuel` bounds the number of times the loop condition is evaluated.  Every
  function that contains such a loop returns an `Option`; that it returns is proved for an
  Archimedean `K`, where subtracting `2 * M_PI` repeatedly brings every value below `M_PI`.
* Two properties of the code depend on what the field `K` leaves out, and are stated on a
  second embedding each.  The normalization loops are embedded once more over the doubles
  themselves (`roundDouble`, `whileAboveF`, `whileBelowF`, `normalizeAngleF`: rational numbers,
  every result rounded to the nearest `double`), where subtracting `2. * M_PI` from a large
  value gives the value back.  `UpdateRadar` is embedded once more over `Dbl K`, the numbers
  of `K` and the value NaN (`radarZsigD`, `UpdateRadarD`), where a quotient by zero is NaN
  and not 0.
-/

namespace Ukf

open Matrix

/-! ## Library functions and constants -/

/-- The library functions `ukf.cpp` calls: `cos`, `sin`, `sqrt`, `atan2` of `<cmath>` and
Eigen's `llt().matrixL()` on a `7 × 7` matrix. -/
structure Numerics (K : Type) where
  /-- Is `cos` of `<cmath>`. -/
  cos : K → K
  /-- Is `sin` of `<cmath>`. -/
  sin : K → K
  /-- Is `sqrt` of `<cmath>`. -/
  sqrt : K → K
  /-- Is `atan2 y x` of `<cmath>`. -/
  atan2 : K → K → K
  /-- Is `A.llt().matrixL()` of Eigen. -/
  llt : Matrix (Fin 7) (Fin 7) K → Matrix (Fin 7) (Fin 7) K

section Defs

variable {K : Type} [LinearOrderedField K]

/-- The constant `M_PI` of `<cmath>`: `# define M_PI 3.14159265358979323846`. -/
def M_PI : K := 3.14159265358979323846

/-- Modelled from the spec: the matrix inverse (Eigen's `S.inverse()`, whose source is not
part of `ukf.cpp`), "the inverse of the predicted measurement covariance", as the adjugate
divided by the determinant. -/
def inverse {n : Nat} (S : Matrix (Fin n) (Fin n) K) : Matrix (Fin n) (Fin n) K :=
  (S.det)⁻¹ • S.adjugate

/-- Column `i` of a matrix (`X.col(i)`). -/
def colOf {r c : Nat} (X : Matrix (Fin r) (Fin c) K) (i : Fin c) : Fin r → K :=
  fun k => X k i

/-! ## Data model -/

/-- The enumeration `MeasurementPackage::SensorType`. -/
inductive SensorType where
  | LASER
  | RADAR
  deriving DecidableEq, Repr

/-- The class `MeasurementPackage`: a time stamp in microseconds, the sensor tag and the raw
measurement vector: `(rho, phi, rho_dot)` for a radar; for a laser the vector has the two
entries `(x, y)`, kept in entries 0 and 1 (entry 2 is never read for a laser). -/
structure MeasurementPackage (K : Type) where
  timestamp_ : Int
  sensor_type_ : SensorType
  raw_measurements_ : Fin 3 → K

/-- The data members of the class `UKF` that `ukf.cpp` reads or writes. -/
structure UKF (K : Type) where
  is_initialized_ : Bool
  use_laser_ : Bool
  use_radar_ : Bool
  x_ : Fin 5 → K
  P_ : Matrix (Fin 5) (Fin 5) K
  Xsig_pred_ : Matrix (Fin 5) (Fin 15) K
  time_us_ : Int
  std_a_ : K
  std_yawdd_ : K
  std_laspx_ : K
  std_laspy_ : K
  std_radr_ : K
  std_radphi_ : K
  std_radrd_ : K
  weights_ : Fin 15 → K
  lambda_ : K
  NIS_radar_ : K
  NIS_laser_ : K

/-- The constructor `UKF::UKF()`.  The argument is the object before construction: the
constructor allocates `x_`, `P_`, `Xsig_pred_` and `weights_` without writing their entries
and does not touch `time_us_`, so these keep whatever value they had. -/
def UKF.construct (u : UKF K) : UKF K :=
  { u with
    use_laser_ := true
    use_radar_ := true
    std_a_ := 0.5
    std_yawdd_ := 0.725
    std_laspx_ := 0.15
    std_laspy_ := 0.15
    std_radr_ := 0.3
    std_radphi_ := 0.03
    std_radrd_ := 0.3
    is_initialized_ := false
    lambda_ := 3 - 5
    NIS_laser_ := 0.0
    NIS_radar_ := 0.0 }

/-! ## Loops -/

/-- The loop `for (int i = 0; i < 2 * n_aug_ + 1; i++)` around a body that updates an
accumulator. -/
def forSigma {σ : Type} (body : Fin 15 → σ → σ) (init : σ) : σ :=
  (List.finRange 15).foldl (fun acc i => body i acc) init

/-- The same `for` loop around a body that contains `while` loops. -/
def forSigmaM {σ : Type} (body : Fin 15 → σ → Option σ) (init : σ) : Option σ :=
  (List.finRange 15).foldlM (fun acc i => body i acc) init

/-- The loop `while (a > M_PI) a -= 2. * M_PI;`, in the exact arithmetic of `K`.  The same
loop with every difference rounded to a `double` is `whileAboveF`. -/
def whileAbove : Nat → K → Option K
  | 0, _ => none
  | fuel + 1, a => if a > M_PI then whileAbove fuel (a - 2 * M_PI) else some a

/-- The loop `while (a < -M_PI) a += 2. * M_PI;`, in the exact arithmetic of `K`.  The same
loop with every sum rounded to a `double` is `whileBelowF`. -/
def whileBelow : Nat → K → Option K
  | 0, _ => none
  | fuel + 1, a => if a < -M_PI then whileBelow fuel (a + 2 * M_PI) else some a

/-- The two lines under each `//angle normalization` comment, applied to a scalar. -/
def normalizeAngle (fuel : Nat) (a : K) : Option K :=
  (whileAbove fuel a).bind (whileBelow fuel)

/-- Angle normalization of entry `k` of a vector (`x_diff(3)`, `z_diff(1)`). -/
def normalizeEntry {n : Nat} (fuel : Nat) (k : Fin n) (v : Fin n → K) : Option (Fin n → K) :=
  (normalizeAngle fuel (v k)).map (fun a => Function.update v k a)

/-! ## `UKF::Prediction` -/

/-- Lines 137-140: `x_aug.head(5) = x_; x_aug(5) = 0; x_aug(6) = 0;`. -/
def augmentedMean (x : Fin 5 → K) : Fin 7 → K :=
  fun i => if h : i.val < 5 then x ⟨i.val, h⟩ else 0

/-- Lines 142-146: `P_aug` is zero except for `P_` in the top left corner and the two noise
variances on the diagonal. -/
def augmentedCovariance (P : Matrix (Fin 5) (Fin 5) K) (std_a std_yawdd : K) :
    Matrix (Fin 7) (Fin 7) K :=
  fun i j =>
    if h : i.val < 5 ∧ j.val < 5 then P ⟨i.val, h.1⟩ ⟨j.val, h.2⟩
    else if i.val = 5 ∧ j.val = 5 then std_a * std_a
    else if i.val = 6 ∧ j.val = 6 then std_yawdd * std_yawdd
    else 0

/-- Lines 151-157: column 0 is `x_aug`, column `i + 1` is `x_aug + sqrt(lambda_ + n_aug_) *
L.col(i)` and column `i + 1 + n_aug_` is `x_aug - sqrt(lambda_ + n_aug_) * L.col(i)`. -/
def augmentedSigmaPoints (m : Numerics K) (lambda : K) (x_aug : Fin 7 → K)
    (L : Matrix (Fin 7) (Fin 7) K) : Matrix (Fin 7) (Fin 15) K :=
  fun k c =>
    if c.val = 0 then x_aug k
    else if h : c.val < 8 then
      x_aug k + m.sqrt (lambda + 7) * L k ⟨c.val - 1, by omega⟩
    else
      x_aug k - m.sqrt (lambda + 7) * L k ⟨c.val - 8, by omega⟩

/-- Lines 162-201: the body of the loop that predicts one sigma point. -/
def predictSigmaPoint (m : Numerics K) (delta_t : K) (c : Fin 7 → K) : Fin 5 → K :=
  let p_x := c 0
  let p_y := c 1
  let v := c 2
  let yaw := c 3
  let yawd := c 4
  let nu_a := c 5
  let nu_yawdd := c 6
  let px_p :=
    if |yawd| > 0.001 then p_x + v / yawd * (m.sin (yaw + yawd * delta_t) - m.sin yaw)
    else p_x + v * delta_t * m.cos yaw
  let py_p :=
    if |yawd| > 0.001 then p_y + v / yawd * (m.cos yaw - m.cos (yaw + yawd * delta_t))
    else p_y + v * delta_t * m.sin yaw
  let v_p := v
  let yaw_p := yaw + yawd * delta_t
  let yawd_p := yawd
  let px_p := px_p + 0.5 * nu_a * delta_t * delta_t * m.cos yaw
  let py_p := py_p + 0.5 * nu_a * delta_t * delta_t * m.sin yaw
  let v_p := v_p + nu_a * delta_t
  let yaw_p := yaw_p + 0.5 * nu_yawdd * delta_t * delta_t
  let yawd_p := yawd_p + nu_yawdd * delta_t
  ![px_p, py_p, v_p, yaw_p, yawd_p]

/-- Lines 159-202: every column of `Xsig_pred_` is the prediction of the same column of
`Xsig_aug`. -/
def predictSigmaPoints (m : Numerics K) (delta_t : K) (Xsig_aug : Matrix (Fin 7) (Fin 15) K) :
    Matrix (Fin 5) (Fin 15) K :=
  fun k i => predictSigmaPoint m delta_t (colOf Xsig_aug i) k

/-- Lines 204-210: `weights_(0) = lambda_ / (lambda_ + n_aug_)` and, for `i = 1 .. 14`,
`weights_(i) = 0.5 / (n_aug_ + lambda_)`. -/
def setWeights (lambda : K) : Fin 15 → K :=
  fun i => if i.val = 0 then lambda / (lambda + 7) else 0.5 / (7 + lambda)

/-- The weighted sum of the columns of a sigma-point matrix, as computed by the loops
`x_.fill(0); for (...) x_ = x_ + Xsig_pred_.col(i) * weights_(i);` (lines 212-216) and
`z_pred.fill(0.0); for (...) z_pred = z_pred + weights_(i) * Zsig.col(i);`. -/
def weightedMean {n : Nat} (w : Fin 15 → K) (X : Matrix (Fin n) (Fin 15) K) : Fin n → K :=
  forSigma (fun i acc => acc + w i • colOf X i) 0

/-- Lines 218-226: the predicted state covariance. -/
def predictCovariance (fuel : Nat) (w : Fin 15 → K) (X : Matrix (Fin 5) (Fin 15) K)
    (x : Fin 5 → K) : Option (Matrix (Fin 5) (Fin 5) K) :=
  forSigmaM (fun i P => do
    let x_diff ← normalizeEntry fuel 3 (colOf X i - x)
    pure (P + w i • vecMulVec x_diff x_diff)) 0

/-- The function `UKF::Prediction(double delta_t)`. -/
def Prediction (m : Numerics K) (fuel : Nat) (s : UKF K) (delta_t : K) : Option (UKF K) :=
  let x_aug := augmentedMean s.x_
  let P_aug := augmentedCovariance s.P_ s.std_a_ s.std_yawdd_
  let L := m.llt P_aug
  let Xsig_aug := augmentedSigmaPoints m s.lambda_ x_aug L
  let Xsig_pred := predictSigmaPoints m delta_t Xsig_aug
  let weights := setWeights s.lambda_
  let x := weightedMean weights Xsig_pred
  (predictCovariance fuel weights Xsig_pred x).map fun P =>
    { s with Xsig_pred_ := Xsig_pred, weights_ := weights, x_ := x, P_ := P }

/-! ## The two measurement updates -/

/-- The loop that sums `weights_(i) * z_diff * z_diff.transpose()` over the sigma points, where
`z_diff = Zsig.col(i) - z_pred` with entry 1 angle-normalized (lines 252-262 and 349-360). -/
def measurementCovariance {n : Nat} (fuel : Nat) (k : Fin n) (w : Fin 15 → K)
    (Zsig : Matrix (Fin n) (Fin 15) K) (z_pred : Fin n → K) : Option (Matrix (Fin n) (Fin n) K) :=
  forSigmaM (fun i S => do
    let z_diff ← normalizeEntry fuel k (colOf Zsig i - z_pred)
    pure (S + w i • vecMulVec z_diff z_diff)) 0

/-- The loop that sums `weights_(i) * x_diff * z_diff.transpose()` over the sigma points, with
`z_diff(1)` and `x_diff(3)` angle-normalized (lines 275-290 and 376-393). -/
def crossCorrelation {n : Nat} (fuel : Nat) (k : Fin n) (w : Fin 15 → K)
    (Xsig_pred : Matrix (Fin 5) (Fin 15) K) (x : Fin 5 → K)
    (Zsig : Matrix (Fin n) (Fin 15) K) (z_pred : Fin n → K) : Option (Matrix (Fin 5) (Fin n) K) :=
  forSigmaM (fun i Tc => do
    let z_diff ← normalizeEntry fuel k (colOf Zsig i - z_pred)
    let x_diff ← normalizeEntry fuel 3 (colOf Xsig_pred i - x)
    pure (Tc + w i • vecMulVec x_diff z_diff)) 0

/-- Lines 233-243: the laser measurement model, `Zsig(0, i) = p_x; Zsig(1, i) = p_y`. -/
def lidarZsig (Xsig_pred : Matrix (Fin 5) (Fin 15) K) : Matrix (Fin 2) (Fin 15) K :=
  fun k i =>
    let p_x := Xsig_pred 0 i
    let p_y := Xsig_pred 1 i
    ![p_x, p_y] k

/-- The predicted measurement mean `z_pred` of `UKF::UpdateLidar` (lines 245-250). -/
def lidarZpred (s : UKF K) : Fin 2 → K :=
  weightedMean s.weights_ (lidarZsig s.Xsig_pred_)

/-- The laser noise matrix `R` (lines 265-267). -/
def lidarR (s : UKF K) : Matrix (Fin 2) (Fin 2) K :=
  !![s.std_laspx_ * s.std_laspx_, 0;
     0, s.std_laspy_ * s.std_laspy_]

/-- The matrix `S` of `UKF::UpdateLidar` after `S = S + R` (lines 252-268). -/
def lidarS (fuel : Nat) (s : UKF K) : Option (Matrix (Fin 2) (Fin 2) K) :=
  (measurementCovariance fuel 1 s.weights_ (lidarZsig s.Xsig_pred_) (lidarZpred s)).map
    fun S => S + lidarR s

/-- The matrix `Tc` of `UKF::UpdateLidar` (lines 275-290). -/
def lidarTc (fuel : Nat) (s : UKF K) : Option (Matrix (Fin 5) (Fin 2) K) :=
  crossCorrelation fuel 1 s.weights_ s.Xsig_pred_ s.x_ (lidarZsig s.Xsig_pred_) (lidarZpred s)

/-- The vector `z` of `UKF::UpdateLidar`: the two entries of a laser measurement. -/
def lidarZ (meas_package : MeasurementPackage K) : Fin 2 → K :=
  fun k => meas_package.raw_measurements_ (Fin.castSucc k)

/-- The function `UKF::UpdateLidar(MeasurementPackage meas_package)`. -/
def UpdateLidar (fuel : Nat) (s : UKF K) (meas_package : MeasurementPackage K) :
    Option (UKF K) := do
  let z_pred := lidarZpred s
  let S ← lidarS fuel s
  let z := lidarZ meas_package
  let y := z - z_pred
  let NIS_laser := y ⬝ᵥ (inverse S).mulVec y
  let Tc ← lidarTc fuel s
  let K := Tc * inverse S
  let z_diff ← normalizeEntry fuel 1 (z - z_pred)
  pure { s with
    NIS_laser_ := NIS_laser
    x_ := s.x_ + K.mulVec z_diff
    P_ := s.P_ - K * S * Kᵀ }

/-- Lines 325-341: the radar measurement model.  For a sigma point with `p_x = 0` and
`p_y = 0` the quotient of line 340 is 0 in the field `K`, where the code computes NaN; that
case is the subject of `radarZsigD`. -/
def radarZsig (m : Numerics K) (Xsig_pred : Matrix (Fin 5) (Fin 15) K) :
    Matrix (Fin 3) (Fin 15) K :=
  fun k i =>
    let p_x := Xsig_pred 0 i
    let p_y := Xsig_pred 1 i
    let v := Xsig_pred 2 i
    let yaw := Xsig_pred 3 i
    let v1 := m.cos yaw * v
    let v2 := m.sin yaw * v
    ![m.sqrt (p_x * p_x + p_y * p_y),
      m.atan2 p_y p_x,
      (p_x * v1 + p_y * v2) / m.sqrt (p_x * p_x + p_y * p_y)] k

/-- The predicted measurement mean `z_pred` of `UKF::UpdateRadar` (lines 343-347). -/
def radarZpred (m : Numerics K) (s : UKF K) : Fin 3 → K :=
  weightedMean s.weights_ (radarZsig m s.Xsig_pred_)

/-- The radar noise matrix `R` (lines 362-366). -/
def radarR (s : UKF K) : Matrix (Fin 3) (Fin 3) K :=
  !![s.std_radr_ * s.std_radr_, 0, 0;
     0, s.std_radphi_ * s.std_radphi_, 0;
     0, 0, s.std_radrd_ * s.std_radrd_]

/-- The matrix `S` of `UKF::UpdateRadar` after `S = S + R` (lines 349-367). -/
def radarS (m : Numerics K) (fuel : Nat) (s : UKF K) : Option (Matrix (Fin 3) (Fin 3) K) :=
  (measurementCovariance fuel 1 s.weights_ (radarZsig m s.Xsig_pred_) (radarZpred m s)).map
    fun S => S + radarR s

/-- The matrix `Tc` of `UKF::UpdateRadar` (lines 376-393). -/
def radarTc (m : Numerics K) (fuel : Nat) (s : UKF K) : Option (Matrix (Fin 5) (Fin 3) K) :=
  crossCorrelation fuel 1 s.weights_ s.Xsig_pred_ s.x_ (radarZsig m s.Xsig_pred_)
    (radarZpred m s)

/-- The function `UKF::UpdateRadar(MeasurementPackage meas_package)`. -/
def UpdateRadar (m : Numerics K) (fuel : Nat) (s : UKF K) (meas_package : MeasurementPackage K) :
    Option (UKF K) := do
  let z_pred := radarZpred m s
  let S ← radarS m fuel s
  let z := meas_package.raw_measurements_
  let y := z - z_pred
  let NIS_radar := y ⬝ᵥ (inverse S).mulVec y
  let Tc ← radarTc m fuel s
  let K := Tc * inverse S
  let z_diff ← normalizeEntry fuel 1 (z - z_pred)
  pure { s with
    NIS_radar_ := NIS_radar
    x_ := s.x_ + K.mulVec z_diff
    P_ := s.P_ - K * S * Kᵀ }

/-! ## `UKF::ProcessMeasurement` -/

/-- Lines 93-99: the state covariance written at initialization. -/
def initialCovariance : Matrix (Fin 5) (Fin 5) K :=
  !![0.6, 0, 0, 0, 0;
     0, 0.6, 0, 0, 0;
     0, 0, 6, 0, 0;
     0, 0, 0, 7.5, 0;
     0, 0, 0, 0, 0]

/-- Lines 82-92: the state mean written at initialization. -/
def initialMean (m : Numerics K) (meas_package : MeasurementPackage K) : Fin 5 → K :=
  match meas_package.sensor_type_ with
  | SensorType.RADAR =>
    let rho := meas_package.raw_measurements_ 0
    let phi := meas_package.raw_measurements_ 1
    ![rho * m.cos phi, rho * m.sin phi, 0, 0, 0]
  | SensorType.LASER =>
    ![meas_package.raw_measurements_ 0, meas_package.raw_measurements_ 1, 0, 0, 0]

/-- Line 108: `double dt = (meas_package.timestamp_ - time_us_) / 1000000.0;`. -/
def elapsedSeconds (timestamp time_us : Int) : K :=
  ((timestamp - time_us : Int) : K) / 1000000.0

/-- The function `UKF::ProcessMeasurement(MeasurementPackage meas_package)`. -/
def ProcessMeasurement (m : Numerics K) (fuel : Nat) (s : UKF K)
    (meas_package : MeasurementPackage K) : Option (UKF K) :=
  if !s.is_initialized_ then
    some { s with
      x_ := initialMean m meas_package
      P_ := initialCovariance
      time_us_ := meas_package.timestamp_
      is_initialized_ := true }
  else
    let dt : K := elapsedSeconds meas_package.timestamp_ s.time_us_
    let s := { s with time_us_ := meas_package.timestamp_ }
    (Prediction m fuel s dt).bind fun s =>
      if meas_package.sensor_type_ = SensorType.RADAR then UpdateRadar m fuel s meas_package
      else UpdateLidar fuel s meas_package

/-! ## Names for the local variables of `Prediction` and `ProcessMeasurement` -/

/-- The value of the local variable `Xsig_aug` of `Prediction` in state `s`. -/
def sigmaPointsOf (m : Numerics K) (s : UKF K) : Matrix (Fin 7) (Fin 15) K :=
  augmentedSigmaPoints m s.lambda_ (augmentedMean s.x_)
    (m.llt (augmentedCovariance s.P_ s.std_a_ s.std_yawdd_))

/-- The matrix `Xsig_pred_` that `Prediction` computes in state `s`. -/
def predictedSigmaPoints (m : Numerics K) (s : UKF K) (delta_t : K) :
    Matrix (Fin 5) (Fin 15) K :=
  predictSigmaPoints m delta_t (sigmaPointsOf m s)

/-- The state mean `x_` that `Prediction` computes in state `s`. -/
def predictedMean (m : Numerics K) (s : UKF K) (delta_t : K) : Fin 5 → K :=
  weightedMean (setWeights s.lambda_) (predictedSigmaPoints m s delta_t)

/-- The correction step of `ProcessMeasurement` (lines 113-118): `UpdateRadar` for a radar
measurement, `UpdateLidar` otherwise. -/
def Update (m : Numerics K) (fuel : Nat) (s : UKF K) (meas_package : MeasurementPackage K) :
    Option (UKF K) :=
  if meas_package.sensor_type_ = SensorType.RADAR then UpdateRadar m fuel s meas_package
  else UpdateLidar fuel s meas_package

/-! ## Predicates used in the statements -/

/-- The relation between a vector `v` and the result `v1` of normalizing its entry `k`: the
other entries are kept, entry `k` lies in `[-M_PI, M_PI]` and differs from the entry of `v`
by an integer multiple of `2 * M_PI`, and nothing changes when it already was in that
interval. -/
def NormalizedAt {n : Nat} (k : Fin n) (v v1 : Fin n → K) : Prop :=
  (∀ j, j ≠ k → v1 j = v j) ∧ -M_PI ≤ v1 k ∧ v1 k ≤ M_PI ∧
    (∃ z : ℤ, v1 k = v k + z * (2 * M_PI)) ∧ (-M_PI ≤ v k → v k ≤ M_PI → v1 = v)

/-- A square matrix is positive semi-definite: its quadratic form takes no negative value. -/
def IsPosSemidef {n : Nat} (S : Matrix (Fin n) (Fin n) K) : Prop :=
  ∀ v : Fin n → K, 0 ≤ v ⬝ᵥ S.mulVec v

/-- A square matrix is positive definite: it is symmetric and its quadratic form is positive
on every vector other than zero. -/
def IsPosDef {n : Nat} (S : Matrix (Fin n) (Fin n) K) : Prop :=
  S.IsSymm ∧ ∀ v : Fin n → K, v ≠ 0 → 0 < v ⬝ᵥ S.mulVec v

/-! ## A Cholesky factorisation, for the instance of the library over the real numbers -/

/-- One column of the Cholesky recurrence: the diagonal entry `L j j` is the square root of
`A j j - ∑ k < j, L j k ^ 2`, the entries below it are
`(A i j - ∑ k < j, L i k * L j k) / L j j`. -/
def choleskyColumn (sqrt : K → K) (A L : Matrix (Fin 7) (Fin 7) K) (j : Fin 7) :
    Matrix (Fin 7) (Fin 7) K :=
  let d := sqrt (A j j - ∑ k ∈ Finset.univ.filter (fun k => k < j), L j k * L j k)
  fun i c =>
    if c = j then
      if i = j then d
      else if j < i then
        (A i j - ∑ k ∈ Finset.univ.filter (fun k => k < j), L i k * L j k) / d
      else 0
    else L i c

/-- Modelled from the spec: the "matrix square root (lower-triangular Cholesky factor) of the
augmented covariance" that Eigen's `llt().matrixL()` returns (Eigen's source is not part of
`ukf.cpp`), computed column by column from a square-root function.  The recurrence is total:
on a matrix that is not positive definite it goes on with the square root of the pivot it
finds, where a library may stop.  It is used for `realNumerics` only; the theorems that
quantify over `m : Numerics K` do not depend on it. -/
def cholesky (sqrt : K → K) (A : Matrix (Fin 7) (Fin 7) K) : Matrix (Fin 7) (Fin 7) K :=
  (List.finRange 7).foldl (choleskyColumn sqrt A) 0

/-! ## Example filters and measurements -/

/-- An object of class `UKF` before its constructor has run, with zero-filled memory. -/
def UKF.blank : UKF K where
  is_initialized_ := false
  use_laser_ := false
  use_radar_ := false
  x_ := 0
  P_ := 0
  Xsig_pred_ := 0
  time_us_ := 0
  std_a_ := 0
  std_yawdd_ := 0
  std_laspx_ := 0
  std_laspy_ := 0
  std_radr_ := 0
  std_radphi_ := 0
  std_radrd_ := 0
  weights_ := 0
  lambda_ := 0
  NIS_radar_ := 0
  NIS_laser_ := 0

/-- A freshly constructed filter. -/
def UKF.fresh : UKF K := UKF.construct UKF.blank

/-- A filter in the state Tracking: the state mean `(1, 2, 0, 0, 0)` and the covariance
written by the initialization, at time 1 s, with the members set by the constructor. -/
def UKF.tracking : UKF K :=
  { (UKF.fresh : UKF K) with
    x_ := ![1, 2, 0, 0, 0]
    P_ := initialCovariance
    time_us_ := 1000000
    is_initialized_ := true }

/-- A tracking filter with the covariance written by the initialization and a state mean
`(1, 2, 0, 0, 1)` whose heading rate is 1 rad/s. -/
def UKF.turning : UKF K :=
  { (UKF.tracking : UKF K) with x_ := ![1, 2, 0, 0, 1] }

/-- The filter `UKF.tracking` after the caller has switched the laser off. -/
def UKF.laserOff : UKF K :=
  { (UKF.tracking : UKF K) with use_laser_ := false }

/-- A tracking filter whose predicted sigma points all equal the state mean `(1, 2, 0, 0, 0)`,
with the weights of the constructor's `lambda_`. -/
def UKF.predicted : UKF K :=
  { (UKF.tracking : UKF K) with
    weights_ := setWeights (3 - 5)
    Xsig_pred_ := fun k _ => ![1, 2, 0, 0, 0] k }

/-- A tracking filter with the weights of the constructor's `lambda_` whose central predicted
sigma point is `(1, 0, 0, 0, 0)` while the 14 others are `(0, 0, 0, 0, 0)`; its mean is the
weighted mean `(-2/5, 0, 0, 0, 0)` of these points and its covariance is the one written
by the initialization. -/
def UKF.skewed : UKF K :=
  { (UKF.tracking : UKF K) with
    weights_ := setWeights (3 - 5)
    Xsig_pred_ := fun k i => if k.val = 0 ∧ i.val = 0 then 1 else 0
    x_ := ![-2 / 5, 0, 0, 0, 0] }

/-- A laser measurement `(1.1, 2.05)` at time 1.1 s. -/
def laserNext : MeasurementPackage K where
  timestamp_ := 1100000
  sensor_type_ := SensorType.LASER
  raw_measurements_ := ![1.1, 2.05, 0]

/-- A laser measurement `(1.1, 2.05)` whose time stamp, 0.9 s, is earlier than the time
1 s of the filter `UKF.tracking`. -/
def laserEarlier : MeasurementPackage K where
  timestamp_ := 900000
  sensor_type_ := SensorType.LASER
  raw_measurements_ := ![1.1, 2.05, 0]

/-- The laser measurement at time `t` that equals the predicted measurement mean of `s`. -/
def matchingLaser (s : UKF K) (t : Int) : MeasurementPackage K where
  timestamp_ := t
  sensor_type_ := SensorType.LASER
  raw_measurements_ := ![lidarZpred s 0, lidarZpred s 1, 0]

/-- The radar measurement at time `t` that equals the predicted measurement mean of `s`. -/
def matchingRadar (m : Numerics K) (s : UKF K) (t : Int) : MeasurementPackage K where
  timestamp_ := t
  sensor_type_ := SensorType.RADAR
  raw_measurements_ := radarZpred m s

/-- A tracking filter whose covariance is the identity matrix (symmetric positive definite),
with the state mean `(1, 2, 0, 0, 0)` and the members set by the constructor. -/
def UKF.unit : UKF K :=
  { (UKF.tracking : UKF K) with P_ := 1 }

/-- Modelled from the spec: the measurement matrix `H = [I2 0]` of the linear Kalman update
with which the laser correction is compared; it selects the two position entries of the
state. -/
def lidarH : Matrix (Fin 2) (Fin 5) K :=
  !![1, 0, 0, 0, 0;
     0, 1, 0, 0, 0]

/-- A tracking filter with the weights of the constructor's `lambda_` whose predicted sigma
points all equal the state mean `(1, 2, 0, 0, 0)` except for the points 2 and 9, which are
`(1, 3, 0, 0, 0)` and `(1, 1, 0, 0, 0)`; the weighted mean of the 15 points is the state
mean. -/
def UKF.spread : UKF K :=
  { (UKF.tracking : UKF K) with
    weights_ := setWeights (3 - 5)
    Xsig_pred_ := fun k i =>
      if k = 1 ∧ i.val = 2 then 3
      else if k = 1 ∧ i.val = 9 then 1
      else ![1, 2, 0, 0, 0] k }

/-- A laser measurement `(1, 6)` at time 1.1 s. -/
def laserFar : MeasurementPackage K where
  timestamp_ := 1100000
  sensor_type_ := SensorType.LASER
  raw_measurements_ := ![1, 6, 0]

/-- A tracking filter with the weights of the constructor's `lambda_` whose predicted sigma
points and state mean all equal `(-1, 0, 0, 0, 0)`: an object at rest one metre behind the
sensor, at the bearing `atan2(0, -1)`. -/
def UKF.behind : UKF K :=
  { (UKF.tracking : UKF K) with
    weights_ := setWeights (3 - 5)
    Xsig_pred_ := fun k _ => ![-1, 0, 0, 0, 0] k
    x_ := ![-1, 0, 0, 0, 0] }

/-- A radar measurement `(rho, phi, rho_dot) = (1, -3, 0)` at time 1.1 s. -/
def radarBehind : MeasurementPackage K where
  timestamp_ := 1100000
  sensor_type_ := SensorType.RADAR
  raw_measurements_ := ![1, -3, 0]

/-- A tracking filter with the weights of the constructor's `lambda_` whose central predicted
sigma point is the origin `(0, 0, 0, 0, 0)`, of range zero, while the 14 others are
`(1/4, 0, 0, 0, 0)`; its mean is the weighted mean `(7/20, 0, 0, 0, 0)` of these points and
its covariance is the one written by the initialization. -/
def UKF.atOrigin : UKF K :=
  { (UKF.tracking : UKF K) with
    weights_ := setWeights (3 - 5)
    Xsig_pred_ := fun k i => if k = 0 ∧ i.val ≠ 0 then 1 / 4 else 0
    x_ := ![7 / 20, 0, 0, 0, 0] }

/-- Lines 176-177: the position `(px_p, py_p)` given by the turning branch of the motion
model, the branch taken when `fabs(yawd) > 0.001`. -/
def turningBranch (m : Numerics K) (p_x p_y v yaw yawd delta_t : K) : K × K :=
  (p_x + v / yawd * (m.sin (yaw + yawd * delta_t) - m.sin yaw),
   p_y + v / yawd * (m.cos yaw - m.cos (yaw + yawd * delta_t)))

/-- Lines 180-181: the position `(px_p, py_p)` given by the straight-line branch of the motion
model, the branch taken otherwise. -/
def straightBranch (m : Numerics K) (p_x p_y v yaw delta_t : K) : K × K :=
  (p_x + v * delta_t * m.cos yaw, p_y + v * delta_t * m.sin yaw)

/-! ## The normalization loops in `double` arithmetic -/

/-- Rounding of a rational number to the nearest integer, ties to the even one. -/
def roundEven (q : ℚ) : ℤ :=
  if q - ⌊q⌋ < 1 / 2 then ⌊q⌋
  else if 1 / 2 < q - ⌊q⌋ then ⌊q⌋ + 1
  else if ⌊q⌋ % 2 = 0 then ⌊q⌋ else ⌊q⌋ + 1

/-- Modelled from the IEEE 754 standard (the arithmetic of `double` is not part of `ukf.cpp`):
the `double` nearest to a rational number, ties to even.  A `double` other than 0 is an
integer of at most 53 bits times a power of two; for `2^e ≤ |x| < 2^(e+1)` the spacing of the
doubles around `x` is `2^(e-52)`.  Overflow and subnormal numbers are left out: the
statements concern magnitudes between `2^(-1000)` and `2^1000`. -/
def roundDouble (x : ℚ) : ℚ :=
  if x = 0 then 0
  else roundEven (x / 2 ^ (Int.log 2 |x| - 52)) * 2 ^ (Int.log 2 |x| - 52)

/-- The value of the constant `M_PI` as a `double`. -/
def M_PI_double : ℚ := roundDouble M_PI

/-- The loop `while (a > M_PI) a -= 2. * M_PI;` in `double` arithmetic: the product
`2. * M_PI` and every difference are rounded to the nearest `double`. -/
def whileAboveF : Nat → ℚ → Option ℚ
  | 0, _ => none
  | fuel + 1, a =>
    if a > M_PI_double then whileAboveF fuel (roundDouble (a - roundDouble (2 * M_PI_double)))
    else some a

/-- The loop `while (a < -M_PI) a += 2. * M_PI;` in `double` arithmetic. -/
def whileBelowF : Nat → ℚ → Option ℚ
  | 0, _ => none
  | fuel + 1, a =>
    if a < -M_PI_double then whileBelowF fuel (roundDouble (a + roundDouble (2 * M_PI_double)))
    else some a

/-- The two lines under each `//angle normalization` comment in `double` arithmetic. -/
def normalizeAngleF (fuel : Nat) (a : ℚ) : Option ℚ :=
  (whileAboveF fuel a).bind (whileBelowF fuel)

/-! ## `UpdateRadar` in arithmetic with the value NaN -/

/-- A `double` that is a number of `K` or the value NaN of IEEE arithmetic, which no element
of a field represents. -/
inductive Dbl (K : Type) where
  | fin (x : K)
  | nan

/-- The sum `a + b`: NaN when an operand is NaN. -/
def Dbl.add : Dbl K → Dbl K → Dbl K
  | Dbl.fin a, Dbl.fin b => Dbl.fin (a + b)
  | _, _ => Dbl.nan

/-- The difference `a - b`: NaN when an operand is NaN. -/
def Dbl.sub : Dbl K → Dbl K → Dbl K
  | Dbl.fin a, Dbl.fin b => Dbl.fin (a - b)
  | _, _ => Dbl.nan

/-- The product `a * b`: NaN when an operand is NaN (also when the other operand is 0). -/
def Dbl.mul : Dbl K → Dbl K → Dbl K
  | Dbl.fin a, Dbl.fin b => Dbl.fin (a * b)
  | _, _ => Dbl.nan

/-- The quotient `a / b`: NaN when an operand is NaN, and NaN for `0 / 0`.  A quotient `a / 0`
with `a ≠ 0` is an infinity in IEEE arithmetic; this type has no value for it and gives NaN,
which is what an infinity becomes when it is added to or multiplied by a NaN, as it is in
every statement below. -/
def Dbl.div : Dbl K → Dbl K → Dbl K
  | Dbl.fin a, Dbl.fin b => if b = 0 then Dbl.nan else Dbl.fin (a / b)
  | _, _ => Dbl.nan

instance : Zero (Dbl K) := ⟨Dbl.fin 0⟩

instance : Add (Dbl K) := ⟨Dbl.add⟩

instance : Sub (Dbl K) := ⟨Dbl.sub⟩

instance : Mul (Dbl K) := ⟨Dbl.mul⟩

instance : Div (Dbl K) := ⟨Dbl.div⟩

instance : AddCommMonoid (Dbl K) where
  nsmul := nsmulRec
  add_assoc := by
    intro a b c
    cases a <;> cases b <;> cases c <;>
      first
      | rfl
      | exact congrArg Dbl.fin (add_assoc _ _ _)
  zero_add := by
    intro a
    cases a
    · exact congrArg Dbl.fin (zero_add _)
    · rfl
  add_zero := by
    intro a
    cases a
    · exact congrArg Dbl.fin (add_zero _)
    · rfl
  add_comm := by
    intro a b
    cases a <;> cases b <;>
      first
      | rfl
      | exact congrArg Dbl.fin (add_comm _ _)

/-- Lines 325-341 with the quotient of line 340 in arithmetic with NaN: the range rate of a
sigma point is `(p_x * v1 + p_y * v2) / sqrt(p_x * p_x + p_y * p_y)`, which is NaN when the
range is zero. -/
def radarZsigD (m : Numerics K) (Xsig_pred : Matrix (Fin 5) (Fin 15) K) :
    Matrix (Fin 3) (Fin 15) (Dbl K) :=
  fun k i =>
    let p_x := Xsig_pred 0 i
    let p_y := Xsig_pred 1 i
    let v := Xsig_pred 2 i
    let yaw := Xsig_pred 3 i
    let v1 := m.cos yaw * v
    let v2 := m.sin yaw * v
    ![Dbl.fin (m.sqrt (p_x * p_x + p_y * p_y)),
      Dbl.fin (m.atan2 p_y p_x),
      Dbl.fin (p_x * v1 + p_y * v2) / Dbl.fin (m.sqrt (p_x * p_x + p_y * p_y))] k

/-- Lines 343-347 in arithmetic with NaN:
`for (...) z_pred = z_pred + weights_(i) * Zsig.col(i);`. -/
def weightedMeanD {n : Nat} (w : Fin 15 → K) (Z : Matrix (Fin n) (Fin 15) (Dbl K)) :
    Fin n → Dbl K :=
  forSigma (fun i acc => acc + fun k => Dbl.fin (w i) * Z k i) 0

/-- The loop `while (a > M_PI) a -= 2. * M_PI;` in arithmetic with NaN: the comparison of a NaN
with `M_PI` is false, so that the loop is left at once. -/
def whileAboveD : Nat → Dbl K → Option (Dbl K)
  | 0, _ => none
  | _ + 1, Dbl.nan => some Dbl.nan
  | fuel + 1, Dbl.fin a =>
    if a > M_PI then whileAboveD fuel (Dbl.fin a - Dbl.fin (2 * M_PI)) else some (Dbl.fin a)

/-- The loop `while (a < -M_PI) a += 2. * M_PI;` in arithmetic with NaN. -/
def whileBelowD : Nat → Dbl K → Option (Dbl K)
  | 0, _ => none
  | _ + 1, Dbl.nan => some Dbl.nan
  | fuel + 1, Dbl.fin a =>
    if a < -M_PI then whileBelowD fuel (Dbl.fin a + Dbl.fin (2 * M_PI)) else some (Dbl.fin a)

/-- The two lines under each `//angle normalization` comment in arithmetic with NaN. -/
def normalizeAngleD (fuel : Nat) (a : Dbl K) : Option (Dbl K) :=
  (whileAboveD fuel a).bind (whileBelowD fuel)

/-- Angle normalization of entry `k` of a vector in arithmetic with NaN. -/
def normalizeEntryD {n : Nat} (fuel : Nat) (k : Fin n) (v : Fin n → Dbl K) :
    Option (Fin n → Dbl K) :=
  (normalizeAngleD fuel (v k)).map (fun a => Function.update v k a)

/-- Lines 349-360 in arithmetic with NaN. -/
def measurementCovarianceD {n : Nat} (fuel : Nat) (k : Fin n) (w : Fin 15 → K)
    (Zsig : Matrix (Fin n) (Fin 15) (Dbl K)) (z_pred : Fin n → Dbl K) :
    Option (Matrix (Fin n) (Fin n) (Dbl K)) :=
  forSigmaM (fun i S => do
    let z_diff ← normalizeEntryD fuel k (fun r => Zsig r i - z_pred r)
    pure (S + Dbl.fin (w i) • vecMulVec z_diff z_diff)) 0

/-- Lines 376-393 in arithmetic with NaN. -/
def crossCorrelationD {n : Nat} (fuel : Nat) (k : Fin n) (w : Fin 15 → K)
    (Xsig_pred : Matrix (Fin 5) (Fin 15) K) (x : Fin 5 → K)
    (Zsig : Matrix (Fin n) (Fin 15) (Dbl K)) (z_pred : Fin n → Dbl K) :
    Option (Matrix (Fin 5) (Fin n) (Dbl K)) :=
  forSigmaM (fun i Tc => do
    let z_diff ← normalizeEntryD fuel k (fun r => Zsig r i - z_pred r)
    let x_diff ← normalizeEntryD fuel 3 (fun r => Dbl.fin (Xsig_pred r i) - Dbl.fin (x r))
    pure (Tc + Dbl.fin (w i) • vecMulVec x_diff z_diff)) 0

/-- The radar noise matrix `R` (lines 362-366), whose entries are numbers. -/
def radarRD (s : UKF K) : Matrix (Fin 3) (Fin 3) (Dbl K) :=
  fun a b => Dbl.fin (radarR s a b)

/-- The members that `UpdateRadar` writes, as values that may be NaN. -/
structure RadarWrites (K : Type) where
  NIS_radar_ : Dbl K
  x_ : Fin 5 → Dbl K
  P_ : Matrix (Fin 5) (Fin 5) (Dbl K)

/-- The function `UKF::UpdateRadar(MeasurementPackage meas_package)` in arithmetic with NaN,
on a state and a measurement whose entries are numbers.  The argument `inv` is
`S.inverse()` of Eigen, whatever it returns for a matrix with a NaN entry. -/
def UpdateRadarD (m : Numerics K)
    (inv : Matrix (Fin 3) (Fin 3) (Dbl K) → Matrix (Fin 3) (Fin 3) (Dbl K))
    (fuel : Nat) (s : UKF K) (meas_package : MeasurementPackage K) :
    Option (RadarWrites K) := do
  let Zsig := radarZsigD m s.Xsig_pred_
  let z_pred := weightedMeanD s.weights_ Zsig
  let S0 ← measurementCovarianceD fuel 1 s.weights_ Zsig z_pred
  let S := S0 + radarRD s
  let z : Fin 3 → Dbl K := fun k => Dbl.fin (meas_package.raw_measurements_ k)
  let y : Fin 3 → Dbl K := fun k => z k - z_pred k
  let NIS_radar := y ⬝ᵥ fun r => inv S r ⬝ᵥ y
  let Tc ← crossCorrelationD fuel 1 s.weights_ s.Xsig_pred_ s.x_ Zsig z_pred
  let K := Tc * inv S
  let z_diff ← normalizeEntryD fuel 1 (fun k => z k - z_pred k)
  pure {
    NIS_radar_ := NIS_radar
    x_ := fun k => Dbl.fin (s.x_ k) + K k ⬝ᵥ z_diff
    P_ := fun a b => Dbl.fin (s.P_ a b) - (K * S * Kᵀ) a b }

end Defs

/-- The library functions over the real numbers: the real cosine, sine and square root, the
argument of `x + y i` for `atan2 y x`, and the Cholesky recurrence for `llt`. -/
noncomputable def realNumerics : Numerics ℝ where
  cos := Real.cos
  sin := Real.sin
  sqrt := Real.sqrt
  atan2 := fun y x => Complex.arg ⟨x, y⟩
  llt := cholesky Real.sqrt

/-- The first measurement of the end-to-end scenario of the specification: a radar
measurement `(rho, phi, rho_dot) = (5.0, 0.0, 0.0)` at time 0. -/
def radarFirst : MeasurementPackage ℝ where
  timestamp_ := 0
  sensor_type_ := SensorType.RADAR
  raw_measurements_ := ![5.0, 0.0, 0.0]

/-! ## Lemmas on the loops -/

section Loops

variable {K : Type} [LinearOrderedField K]

theorem M_PI_pos : (0 : K) < M_PI := by
  unfold M_PI; norm_num

theorem foldl_add_eq {σ ι : Type} [AddCommMonoid σ] (f : ι → σ) (l : List ι) (init : σ) :
    l.foldl (fun acc i => acc + f i) init = init + (l.map f).sum := by
  induction l generalizing init with
  | nil => simp
  | cons a l ih => simp [ih, add_assoc]

theorem forSigma_add {σ : Type} [AddCommMonoid σ] (f : Fin 15 → σ) (init : σ) :
    forSigma (fun i acc => acc + f i) init = init + ∑ i, f i := by
  unfold forSigma
  rw [foldl_add_eq, Fin.sum_univ_def]

theorem foldlM_add_eq {σ ι : Type} [AddCommMonoid σ] (body : σ → ι → Option σ)
    (f : ι → σ) (l : List ι) (hbody : ∀ i ∈ l, ∀ acc, body acc i = some (acc + f i))
    (init : σ) :
    l.foldlM body init = some (init + (l.map f).sum) := by
  induction l generalizing init with
  | nil => simp
  | cons a l ih =>
    have hl : ∀ i ∈ l, ∀ acc, body acc i = some (acc + f i) :=
      fun i hi => hbody i (List.mem_cons_of_mem a hi)
    rw [List.foldlM_cons, hbody a (List.mem_cons_self a l)]
    show List.foldlM _ (init + f a) l = _
    rw [ih hl, List.map_cons, List.sum_cons, add_assoc]

/-- A `for` loop over the sigma points whose body adds a term `f i` to the accumulator
computes `init + ∑ i, f i`. -/
theorem forSigmaM_add {σ : Type} [AddCommMonoid σ] (body : Fin 15 → σ → Option σ)
    (f : Fin 15 → σ) (hbody : ∀ i acc, body i acc = some (acc + f i)) (init : σ) :
    forSigmaM body init = some (init + ∑ i, f i) := by
  unfold forSigmaM
  rw [foldlM_add_eq _ f _ (fun i _ acc => hbody i acc), Fin.sum_univ_def]

theorem whileAbove_spec (n : ℕ) : ∀ (a : K), a - n * (2 * M_PI) ≤ M_PI →
    ∃ k : ℕ, (∀ fuel, n + 1 ≤ fuel → whileAbove fuel a = some (a - k * (2 * M_PI))) ∧
      a - k * (2 * M_PI) ≤ M_PI ∧ (a ≤ M_PI → k = 0) ∧
      (M_PI < a → -M_PI < a - k * (2 * M_PI)) := by
  have hpi : (0 : K) < M_PI := M_PI_pos
  induction n with
  | zero =>
    intro a ha
    have ha' : a ≤ M_PI := by simpa using ha
    refine ⟨0, ?_, ?_, ?_, ?_⟩
    · intro fuel hf
      obtain ⟨f, rfl⟩ : ∃ f, fuel = f + 1 := ⟨fuel - 1, by omega⟩
      simp [whileAbove, not_lt.mpr ha']
    · simpa using ha
    · intro _; rfl
    · intro h; exact absurd h (not_lt.mpr ha')
  | succ n ih =>
    intro a ha
    by_cases hgt : a > M_PI
    · have ha' : (a - 2 * M_PI) - n * (2 * M_PI) ≤ M_PI := by
        push_cast at ha; linarith
      obtain ⟨k, hk, hle, hz, hlt⟩ := ih (a - 2 * M_PI) ha'
      refine ⟨k + 1, ?_, ?_, ?_, ?_⟩
      · intro fuel hf
        obtain ⟨f, rfl⟩ : ∃ f, fuel = f + 1 := ⟨fuel - 1, by omega⟩
        simp only [whileAbove, hgt, if_true, hk f (by omega)]
        congr 1; push_cast; ring
      · push_cast; linarith
      · intro h; exact absurd hgt (not_lt.mpr h)
      · intro _
        by_cases hc : a - 2 * M_PI ≤ M_PI
        · have := hz hc; subst this; push_cast; simp; linarith
        · have := hlt (not_le.mp hc); push_cast; linarith
    · refine ⟨0, ?_, ?_, ?_, ?_⟩
      · intro fuel hf
        obtain ⟨f, rfl⟩ : ∃ f, fuel = f + 1 := ⟨fuel - 1, by omega⟩
        simp [whileAbove, hgt]
      · simpa using not_lt.mp hgt
      · intro _; rfl
      · intro h; exact absurd h hgt

theorem whileBelow_spec (n : ℕ) : ∀ (a : K), -M_PI ≤ a + n * (2 * M_PI) →
    ∃ k : ℕ, (∀ fuel, n + 1 ≤ fuel → whileBelow fuel a = some (a + k * (2 * M_PI))) ∧
      -M_PI ≤ a + k * (2 * M_PI) ∧ (-M_PI ≤ a → k = 0) ∧
      (a < -M_PI → a + k * (2 * M_PI) < M_PI) := by
  have hpi : (0 : K) < M_PI := M_PI_pos
  induction n with
  | zero =>
    intro a ha
    have ha' : -M_PI ≤ a := by simpa using ha
    refine ⟨0, ?_, ?_, ?_, ?_⟩
    · intro fuel hf
      obtain ⟨f, rfl⟩ : ∃ f, fuel = f + 1 := ⟨fuel - 1, by omega⟩
      simp [whileBelow, not_lt.mpr ha']
    · simpa using ha
    · intro _; rfl
    · intro h; exact absurd h (not_lt.mpr ha')
  | succ n ih =>
    intro a ha
    by_cases hgt : a < -M_PI
    · have ha' : -M_PI ≤ (a + 2 * M_PI) + n * (2 * M_PI) := by
        push_cast at ha; linarith
      obtain ⟨k, hk, hle, hz, hlt⟩ := ih (a + 2 * M_PI) ha'
      refine ⟨k + 1, ?_, ?_, ?_, ?_⟩
      · intro fuel hf
        obtain ⟨f, rfl⟩ : ∃ f, fuel = f + 1 := ⟨fuel - 1, by omega⟩
        simp only [whileBelow, hgt, if_true, hk f (by omega)]
        congr 1; push_cast; ring
      · push_cast; linarith
      · intro h; exact absurd hgt (not_lt.mpr h)
      · intro _
        by_cases hc : -M_PI ≤ a + 2 * M_PI
        · have := hz hc; subst this; push_cast; simp; linarith
        · have := hlt (not_le.mp hc); push_cast; linarith
    · refine ⟨0, ?_, ?_, ?_, ?_⟩
      · intro fuel hf
        obtain ⟨f, rfl⟩ : ∃ f, fuel = f + 1 := ⟨fuel - 1, by omega⟩
        simp [whileBelow, hgt]
      · simpa using not_lt.mp hgt
      · intro _; rfl
      · intro h; exact absurd h hgt

/-- The angle normalization of a value that already lies in `[-M_PI, M_PI]` returns it
unchanged as soon as each loop may test its condition once. -/
theorem normalizeAngle_of_mem (a : K) (h1 : -M_PI ≤ a) (h2 : a ≤ M_PI) (fuel : ℕ)
    (hf : 1 ≤ fuel) : normalizeAngle fuel a = some a := by
  obtain ⟨f, rfl⟩ : ∃ f, fuel = f + 1 := ⟨fuel - 1, by omega⟩
  simp [normalizeAngle, whileAbove, whileBelow, not_lt.mpr h1, not_lt.mpr h2]

/-- Both loops of the angle normalization terminate: with enough fuel the result is a value
of `[-M_PI, M_PI]` that differs from the input by an integer multiple of `2 * M_PI`. -/
theorem normalizeAngle_spec [Archimedean K] (a : K) :
    ∃ (N : ℕ) (b : K), (∀ fuel, N ≤ fuel → normalizeAngle fuel a = some b) ∧
      -M_PI ≤ b ∧ b ≤ M_PI ∧ (∃ k : ℤ, b = a + k * (2 * M_PI)) ∧
      (-M_PI ≤ a → a ≤ M_PI → b = a) := by
  have hpi : (0 : K) < M_PI := M_PI_pos
  obtain ⟨n, hn⟩ := exists_nat_ge ((a - M_PI) / (2 * M_PI))
  have hn' : a - n * (2 * M_PI) ≤ M_PI := by
    rw [div_le_iff₀ (by linarith)] at hn; linarith
  obtain ⟨k, hk, hle, hz, hlt⟩ := whileAbove_spec n a hn'
  obtain ⟨n2, hn2⟩ := exists_nat_ge ((-M_PI - (a - k * (2 * M_PI))) / (2 * M_PI))
  have hn2' : -M_PI ≤ (a - k * (2 * M_PI)) + n2 * (2 * M_PI) := by
    rw [div_le_iff₀ (by linarith)] at hn2; linarith
  obtain ⟨k2, hk2, hle2, hz2, hlt2⟩ := whileBelow_spec n2 (a - k * (2 * M_PI)) hn2'
  refine ⟨max (n + 1) (n2 + 1), a - k * (2 * M_PI) + k2 * (2 * M_PI), ?_, hle2, ?_, ?_, ?_⟩
  · intro fuel hf
    simp [normalizeAngle, hk fuel (le_trans (le_max_left _ _) hf),
      hk2 fuel (le_trans (le_max_right _ _) hf)]
  · by_cases hc : -M_PI ≤ a - k * (2 * M_PI)
    · have := hz2 hc; subst this; simpa using hle
    · exact le_of_lt (hlt2 (not_le.mp hc))
  · exact ⟨(k2 : ℤ) - k, by push_cast; ring⟩
  · intro h1 h2
    have hk0 := hz h2
    subst hk0
    have hk20 := hz2 (by simpa using h1)
    subst hk20
    simp

/-- Normalizing one entry of a vector terminates, with a result related to the vector by
`NormalizedAt`. -/
theorem normalizeEntry_spec [Archimedean K] {n : Nat} (k : Fin n) (v : Fin n → K) :
    ∃ (N : ℕ) (v1 : Fin n → K),
      (∀ fuel, N ≤ fuel → normalizeEntry fuel k v = some v1) ∧
      NormalizedAt k v v1 := by
  obtain ⟨N, b, hN, h1, h2, hz, hid⟩ := normalizeAngle_spec (v k)
  refine ⟨N, Function.update v k b, ?_, ?_, ?_, ?_, ?_, ?_⟩
  · intro fuel hf
    simp [normalizeEntry, hN fuel hf]
  · intro j hj
    simp [Function.update_noteq hj]
  · simpa using h1
  · simpa using h2
  · simpa using hz
  · intro h1 h2
    rw [hid h1 h2]
    simp

/-- The loop of `measurementCovariance` terminates and returns the weighted sum of the outer
products of the normalized residuals. -/
theorem measurementCovariance_spec [Archimedean K] {n : Nat} (k : Fin n) (w : Fin 15 → K)
    (Zsig : Matrix (Fin n) (Fin 15) K) (z_pred : Fin n → K) :
    ∃ (N : ℕ) (d : Fin 15 → Fin n → K),
      (∀ fuel, N ≤ fuel → measurementCovariance fuel k w Zsig z_pred
        = some (∑ i, w i • vecMulVec (d i) (d i))) ∧
      ∀ i, NormalizedAt k (colOf Zsig i - z_pred) (d i) := by
  choose N d hN hd using fun i => normalizeEntry_spec k (colOf Zsig i - z_pred)
  refine ⟨Finset.univ.sup N, d, ?_, hd⟩
  intro fuel hf
  have hfi : ∀ i, N i ≤ fuel := fun i => le_trans (Finset.le_sup (Finset.mem_univ i)) hf
  unfold measurementCovariance
  rw [forSigmaM_add _ (fun i => w i • vecMulVec (d i) (d i)), zero_add]
  intro i acc
  simp [hN i fuel (hfi i)]

/-- The loop of `predictCovariance` is the loop of `measurementCovariance` on the predicted
sigma points, with the heading residual normalized. -/
theorem predictCovariance_eq (fuel : Nat) (w : Fin 15 → K) (X : Matrix (Fin 5) (Fin 15) K)
    (x : Fin 5 → K) : predictCovariance fuel w X x = measurementCovariance fuel 3 w X x :=
  rfl

/-- The loop of `crossCorrelation` terminates and returns the weighted sum of the outer
products of the normalized state and measurement residuals. -/
theorem crossCorrelation_spec [Archimedean K] {n : Nat} (k : Fin n) (w : Fin 15 → K)
    (Xsig_pred : Matrix (Fin 5) (Fin 15) K) (x : Fin 5 → K)
    (Zsig : Matrix (Fin n) (Fin 15) K) (z_pred : Fin n → K) :
    ∃ (N : ℕ) (dx : Fin 15 → Fin 5 → K) (dz : Fin 15 → Fin n → K),
      (∀ fuel, N ≤ fuel → crossCorrelation fuel k w Xsig_pred x Zsig z_pred
        = some (∑ i, w i • vecMulVec (dx i) (dz i))) ∧
      ∀ i, NormalizedAt 3 (colOf Xsig_pred i - x) (dx i) ∧
        NormalizedAt k (colOf Zsig i - z_pred) (dz i) := by
  choose N dz hN hdz using fun i => normalizeEntry_spec k (colOf Zsig i - z_pred)
  choose M dx hM hdx using fun i => normalizeEntry_spec 3 (colOf Xsig_pred i - x)
  refine ⟨max (Finset.univ.sup N) (Finset.univ.sup M), dx, dz, ?_, fun i => ⟨hdx i, hdz i⟩⟩
  intro fuel hf
  have hfN : ∀ i, N i ≤ fuel := fun i =>
    le_trans (Finset.le_sup (Finset.mem_univ i)) (le_trans (le_max_left _ _) hf)
  have hfM : ∀ i, M i ≤ fuel := fun i =>
    le_trans (Finset.le_sup (Finset.mem_univ i)) (le_trans (le_max_right _ _) hf)
  unfold crossCorrelation
  rw [forSigmaM_add _ (fun i => w i • vecMulVec (dx i) (dz i)), zero_add]
  intro i acc
  simp [hN i fuel (hfN i), hM i fuel (hfM i)]

/-! ## What the loops return, for any amount of fuel -/

/-- Whenever the loop `while (a > M_PI) a -= 2. * M_PI;` returns, the result is at most `M_PI`
and is the input minus a multiple of `2 * M_PI`; an input that is at most `M_PI` is returned
unchanged and a larger one ends above `-M_PI`. -/
theorem whileAbove_sound (fuel : ℕ) : ∀ (a b : K), whileAbove fuel a = some b →
    b ≤ M_PI ∧ (∃ k : ℕ, b = a - k * (2 * M_PI)) ∧ (a ≤ M_PI → b = a) ∧
      (M_PI < a → -M_PI < b) := by
  have hpi : (0 : K) < M_PI := M_PI_pos
  induction fuel with
  | zero => intro a b h; simp [whileAbove] at h
  | succ f ih =>
    intro a b h
    by_cases hgt : a > M_PI
    · simp only [whileAbove, hgt, if_true] at h
      obtain ⟨h1, ⟨k, hk⟩, h3, h4⟩ := ih _ _ h
      refine ⟨h1, ⟨k + 1, by rw [hk]; push_cast; ring⟩,
        fun hle => absurd hgt (not_lt.mpr hle), fun _ => ?_⟩
      by_cases hc : a - 2 * M_PI ≤ M_PI
      · rw [h3 hc]; linarith
      · exact h4 (not_le.mp hc)
    · simp only [whileAbove, hgt, if_false, Option.some.injEq] at h
      subst h
      exact ⟨not_lt.mp hgt, ⟨0, by simp⟩, fun _ => rfl, fun h => absurd h hgt⟩

/-- Whenever the loop `while (a < -M_PI) a += 2. * M_PI;` returns, the result is at least
`-M_PI` and is the input plus a multiple of `2 * M_PI`; an input that is at least `-M_PI` is
returned unchanged and a smaller one ends below `M_PI`. -/
theorem whileBelow_sound (fuel : ℕ) : ∀ (a b : K), whileBelow fuel a = some b →
    -M_PI ≤ b ∧ (∃ k : ℕ, b = a + k * (2 * M_PI)) ∧ (-M_PI ≤ a → b = a) ∧
      (a < -M_PI → b < M_PI) := by
  have hpi : (0 : K) < M_PI := M_PI_pos
  induction fuel with
  | zero => intro a b h; simp [whileBelow] at h
  | succ f ih =>
    intro a b h
    by_cases hlt : a < -M_PI
    · simp only [whileBelow, hlt, if_true] at h
      obtain ⟨h1, ⟨k, hk⟩, h3, h4⟩ := ih _ _ h
      refine ⟨h1, ⟨k + 1, by rw [hk]; push_cast; ring⟩,
        fun hle => absurd hlt (not_lt.mpr hle), fun _ => ?_⟩
      by_cases hc : -M_PI ≤ a + 2 * M_PI
      · rw [h3 hc]; linarith
      · exact h4 (not_le.mp hc)
    · simp only [whileBelow, hlt, if_false, Option.some.injEq] at h
      subst h
      exact ⟨not_lt.mp hlt, ⟨0, by simp⟩, fun _ => rfl, fun h => absurd h hlt⟩

/-- Whenever the angle normalization returns, the result lies in `[-M_PI, M_PI]`, differs
from the input by an integer multiple of `2 * M_PI`, and is the input when that already lies
in the interval. -/
theorem normalizeAngle_sound (fuel : ℕ) (a b : K) (h : normalizeAngle fuel a = some b) :
    -M_PI ≤ b ∧ b ≤ M_PI ∧ (∃ k : ℤ, b = a + k * (2 * M_PI)) ∧
      (-M_PI ≤ a → a ≤ M_PI → b = a) := by
  have hpi : (0 : K) < M_PI := M_PI_pos
  simp only [normalizeAngle, Option.bind_eq_some] at h
  obtain ⟨c, hc, hb⟩ := h
  obtain ⟨c1, ⟨k, hk⟩, c3, c4⟩ := whileAbove_sound fuel a c hc
  obtain ⟨b1, ⟨j, hj⟩, b3, b4⟩ := whileBelow_sound fuel c b hb
  refine ⟨b1, ?_, ⟨(j : ℤ) - k, by rw [hj, hk]; push_cast; ring⟩, fun h1 h2 => ?_⟩
  · by_cases hc' : -M_PI ≤ c
    · rw [b3 hc']; exact c1
    · exact le_of_lt (b4 (not_le.mp hc'))
  · have hca : c = a := c3 h2
    rw [b3 (by rw [hca]; exact h1), hca]

/-- Whenever the normalization of an entry of a vector returns, the result is related to the
vector by `NormalizedAt`. -/
theorem normalizeEntry_sound {n : Nat} (fuel : ℕ) (k : Fin n) (v v1 : Fin n → K)
    (h : normalizeEntry fuel k v = some v1) : NormalizedAt k v v1 := by
  simp only [normalizeEntry, Option.map_eq_some'] at h
  obtain ⟨b, hb, rfl⟩ := h
  obtain ⟨h1, h2, hz, hid⟩ := normalizeAngle_sound fuel (v k) b hb
  refine ⟨fun j hj => by simp [Function.update_noteq hj], by simpa using h1, by simpa using h2,
    by simpa using hz, fun h1 h2 => ?_⟩
  rw [hid h1 h2]
  simp

/-- When a loop whose body first computes `g i` and then adds `h i e` to the accumulator
returns, every `g i` has returned. -/
theorem foldlM_bind_some {σ ι α : Type} [AddCommMonoid σ] (g : ι → Option α)
    (h : ι → α → σ) (l : List ι) (init S : σ)
    (hS : l.foldlM (fun acc i => (g i).bind fun e => some (acc + h i e)) init = some S) :
    ∀ i ∈ l, ∃ e, g i = some e := by
  induction l generalizing init with
  | nil => intro i hi; simp at hi
  | cons a l ih =>
    rw [List.foldlM_cons] at hS
    simp only [Option.bind_eq_bind, Option.bind_eq_some] at hS
    obtain ⟨r, ⟨e, he, -⟩, hS⟩ := hS
    intro i hi
    rcases List.mem_cons.mp hi with rfl | hi
    · exact ⟨e, he⟩
    · exact ih r hS i hi

/-- When a `for` loop over the sigma points whose body first computes `g i` and then adds
`h i e` to the accumulator returns, every `g i` has returned, with a value `d i`, and the
result is `init + ∑ i, h i (d i)`. -/
theorem forSigmaM_bind_inv {σ α : Type} [AddCommMonoid σ] (g : Fin 15 → Option α)
    (h : Fin 15 → α → σ) (init S : σ)
    (hS : forSigmaM (fun i acc => (g i).bind fun e => some (acc + h i e)) init = some S) :
    ∃ d : Fin 15 → α, (∀ i, g i = some (d i)) ∧ S = init + ∑ i, h i (d i) := by
  have hall : ∀ i, ∃ e, g i = some e := fun i =>
    foldlM_bind_some g h (List.finRange 15) init S hS i (List.mem_finRange i)
  choose d hd using hall
  refine ⟨d, hd, ?_⟩
  have e := forSigmaM_add (fun i acc => (g i).bind fun e => some (acc + h i e))
    (fun i => h i (d i)) (fun i acc => by simp [hd i]) init
  rw [e] at hS
  exact (Option.some.inj hS).symm

/-- Whenever the loop of `measurementCovariance` returns, the result is the weighted sum of
the outer products of the normalized residuals. -/
theorem measurementCovariance_eq_some {n : Nat} (fuel : Nat) (k : Fin n) (w : Fin 15 → K)
    (Zsig : Matrix (Fin n) (Fin 15) K) (z_pred : Fin n → K) (S : Matrix (Fin n) (Fin n) K)
    (h : measurementCovariance fuel k w Zsig z_pred = some S) :
    ∃ d : Fin 15 → Fin n → K,
      S = ∑ i, w i • vecMulVec (d i) (d i) ∧
      (∀ i, normalizeEntry fuel k (colOf Zsig i - z_pred) = some (d i)) ∧
      ∀ i, NormalizedAt k (colOf Zsig i - z_pred) (d i) := by
  obtain ⟨d, hd, hS⟩ := forSigmaM_bind_inv
    (fun i => normalizeEntry fuel k (colOf Zsig i - z_pred))
    (fun i e => w i • vecMulVec e e) 0 S h
  exact ⟨d, by rw [hS, zero_add], hd, fun i => normalizeEntry_sound fuel k _ _ (hd i)⟩

/-- Whenever the loop of `crossCorrelation` returns, the result is the weighted sum of the
outer products of the normalized state and measurement residuals. -/
theorem crossCorrelation_eq_some {n : Nat} (fuel : Nat) (k : Fin n) (w : Fin 15 → K)
    (Xsig_pred : Matrix (Fin 5) (Fin 15) K) (x : Fin 5 → K)
    (Zsig : Matrix (Fin n) (Fin 15) K) (z_pred : Fin n → K) (Tc : Matrix (Fin 5) (Fin n) K)
    (h : crossCorrelation fuel k w Xsig_pred x Zsig z_pred = some Tc) :
    ∃ (dx : Fin 15 → Fin 5 → K) (dz : Fin 15 → Fin n → K),
      Tc = ∑ i, w i • vecMulVec (dx i) (dz i) ∧
      (∀ i, normalizeEntry fuel 3 (colOf Xsig_pred i - x) = some (dx i) ∧
        normalizeEntry fuel k (colOf Zsig i - z_pred) = some (dz i)) ∧
      ∀ i, NormalizedAt 3 (colOf Xsig_pred i - x) (dx i) ∧
        NormalizedAt k (colOf Zsig i - z_pred) (dz i) := by
  have hbody : (fun (i : Fin 15) (acc : Matrix (Fin 5) (Fin n) K) => do
        let z_diff ← normalizeEntry fuel k (colOf Zsig i - z_pred)
        let x_diff ← normalizeEntry fuel 3 (colOf Xsig_pred i - x)
        pure (acc + w i • vecMulVec x_diff z_diff))
      = fun i acc =>
        ((normalizeEntry fuel k (colOf Zsig i - z_pred)).bind fun z_diff =>
          (normalizeEntry fuel 3 (colOf Xsig_pred i - x)).map fun x_diff =>
            (x_diff, z_diff)).bind fun e => some (acc + w i • vecMulVec e.1 e.2) := by
    funext i acc
    cases normalizeEntry fuel k (colOf Zsig i - z_pred) with
    | none => rfl
    | some z_diff =>
      cases normalizeEntry fuel 3 (colOf Xsig_pred i - x) with
      | none => rfl
      | some x_diff => rfl
  unfold crossCorrelation at h
  rw [hbody] at h
  obtain ⟨d, hd, hS⟩ := forSigmaM_bind_inv _ (fun i (e : (Fin 5 → K) × (Fin n → K)) =>
    w i • vecMulVec e.1 e.2) 0 Tc h
  have hd2 : ∀ i, normalizeEntry fuel 3 (colOf Xsig_pred i - x) = some (d i).1 ∧
      normalizeEntry fuel k (colOf Zsig i - z_pred) = some (d i).2 := by
    intro i
    have := hd i
    simp only [Option.bind_eq_some, Option.map_eq_some'] at this
    obtain ⟨z_diff, hz, x_diff, hx, he⟩ := this
    rw [← he]
    exact ⟨hx, hz⟩
  exact ⟨fun i => (d i).1, fun i => (d i).2, by rw [hS, zero_add], hd2, fun i =>
    ⟨normalizeEntry_sound fuel 3 _ _ (hd2 i).1, normalizeEntry_sound fuel k _ _ (hd2 i).2⟩⟩

/-! ## Lemmas on `Prediction` -/

/-- Entry `k` of a weighted mean is the weighted sum of row `k`. -/
theorem weightedMean_apply {n : Nat} (w : Fin 15 → K) (X : Matrix (Fin n) (Fin 15) K)
    (k : Fin n) : weightedMean w X k = ∑ i, w i * X k i := by
  unfold weightedMean
  rw [forSigma_add, zero_add, Finset.sum_apply]
  rfl

/-- The weights of `setWeights` sum to one. -/
theorem setWeights_sum (lambda : K) (h : lambda + 7 ≠ 0) : ∑ i, setWeights lambda i = 1 := by
  have h2 : (7 : K) + lambda ≠ 0 := by rwa [add_comm]
  simp only [Fin.sum_univ_succ, setWeights]
  simp
  field_simp
  ring

/-- Row `k` of the augmented sigma points, weighted by `setWeights`, sums to `x_aug k`. -/
theorem augmentedSigmaPoints_sum (m : Numerics K) (lambda : K) (x_aug : Fin 7 → K)
    (L : Matrix (Fin 7) (Fin 7) K) (h : lambda + 7 ≠ 0) (k : Fin 7) :
    ∑ i, setWeights lambda i * augmentedSigmaPoints m lambda x_aug L k i = x_aug k := by
  have h2 : (7 : K) + lambda ≠ 0 := by rwa [add_comm]
  simp only [Fin.sum_univ_succ, setWeights, augmentedSigmaPoints]
  simp
  field_simp
  ring

/-- What `Prediction` returns when it returns: the predicted sigma points, the weights, the
predicted mean and the covariance computed by the loop of `predictCovariance`; the other
members are not written. -/
theorem Prediction_eq_some_iff (m : Numerics K) (fuel : Nat) (s s1 : UKF K) (delta_t : K) :
    Prediction m fuel s delta_t = some s1 ↔
      ∃ P, predictCovariance fuel (setWeights s.lambda_) (predictedSigmaPoints m s delta_t)
          (predictedMean m s delta_t) = some P ∧
        s1 = { s with
          Xsig_pred_ := predictedSigmaPoints m s delta_t
          weights_ := setWeights s.lambda_
          x_ := predictedMean m s delta_t
          P_ := P } := by
  unfold Prediction
  simp only [Option.map_eq_some']
  constructor
  · rintro ⟨P, hP, rfl⟩
    exact ⟨P, hP, rfl⟩
  · rintro ⟨P, hP, rfl⟩
    exact ⟨P, hP, rfl⟩

/-- The function `Prediction` terminates: with enough fuel it returns, and the covariance it
stores is the weighted sum of the outer products of the normalized residuals. -/
theorem Prediction_terminates [Archimedean K] (m : Numerics K) (s : UKF K) (delta_t : K) :
    ∃ (N : ℕ) (d : Fin 15 → Fin 5 → K),
      (∀ fuel, N ≤ fuel → Prediction m fuel s delta_t = some { s with
          Xsig_pred_ := predictedSigmaPoints m s delta_t
          weights_ := setWeights s.lambda_
          x_ := predictedMean m s delta_t
          P_ := ∑ i, setWeights s.lambda_ i • vecMulVec (d i) (d i) }) ∧
      ∀ i, NormalizedAt 3
        (colOf (predictedSigmaPoints m s delta_t) i - predictedMean m s delta_t) (d i) := by
  obtain ⟨N, d, hN, hd⟩ := measurementCovariance_spec 3 (setWeights s.lambda_)
    (predictedSigmaPoints m s delta_t) (predictedMean m s delta_t)
  refine ⟨N, d, fun fuel hf => ?_, hd⟩
  rw [Prediction_eq_some_iff]
  exact ⟨_, by rw [predictCovariance_eq]; exact hN fuel hf, rfl⟩

/-- The straight part of the motion model: speed, heading and heading rate of a predicted
sigma point. -/
theorem predictSigmaPoint_linear (m : Numerics K) (delta_t : K) (c : Fin 7 → K) :
    predictSigmaPoint m delta_t c 2 = c 2 + c 5 * delta_t ∧
    predictSigmaPoint m delta_t c 3
      = c 3 + c 4 * delta_t + 0.5 * c 6 * delta_t * delta_t ∧
    predictSigmaPoint m delta_t c 4 = c 4 + c 6 * delta_t := by
  simp [predictSigmaPoint]

/-- With `delta_t = 0` a sigma point is predicted to its own first five entries, in the
turning and in the straight-line branch. -/
theorem predictSigmaPoint_zero (m : Numerics K) (c : Fin 7 → K) (k : Fin 5) :
    predictSigmaPoint m 0 c k = c (Fin.castLE (by omega) k) := by
  fin_cases k <;> simp [predictSigmaPoint] <;> rfl

/-- A weighted sum over the augmented sigma points of a linear combination of their entries is
that linear combination of the entries of `x_aug`. -/
theorem augmentedSigmaPoints_sum_linear (m : Numerics K) (lambda : K) (x_aug : Fin 7 → K)
    (L : Matrix (Fin 7) (Fin 7) K) (h : lambda + 7 ≠ 0) (a : Fin 7 → K) :
    ∑ i, setWeights lambda i * ∑ k, a k * augmentedSigmaPoints m lambda x_aug L k i
      = ∑ k, a k * x_aug k := by
  simp_rw [Finset.mul_sum]
  rw [Finset.sum_comm]
  refine Finset.sum_congr rfl fun k _ => ?_
  rw [← augmentedSigmaPoints_sum m lambda x_aug L h k, Finset.mul_sum]
  refine Finset.sum_congr rfl fun i _ => ?_
  ring

/-- With `delta_t = 0` the predicted mean is the state mean. -/
theorem predictedMean_zero (m : Numerics K) (s : UKF K) (h : s.lambda_ + 7 ≠ 0) :
    predictedMean m s 0 = s.x_ := by
  funext k
  rw [predictedMean, weightedMean_apply]
  have hrow : ∀ i, predictedSigmaPoints m s 0 k i
      = sigmaPointsOf m s (Fin.castLE (by omega) k) i := fun i => by
    simp only [predictedSigmaPoints, predictSigmaPoints]
    rw [predictSigmaPoint_zero]
    rfl
  simp_rw [hrow]
  rw [sigmaPointsOf, augmentedSigmaPoints_sum m _ _ _ h]
  simp [augmentedMean]

/-- The speed, heading and heading-rate entries of the predicted mean, whatever the library
functions return: the speed and the heading rate are kept and the heading advances by
`x_(4) * delta_t`. -/
theorem predictedMean_linear (m : Numerics K) (s : UKF K) (delta_t : K)
    (h : s.lambda_ + 7 ≠ 0) :
    predictedMean m s delta_t 2 = s.x_ 2 ∧
    predictedMean m s delta_t 3 = s.x_ 3 + s.x_ 4 * delta_t ∧
    predictedMean m s delta_t 4 = s.x_ 4 := by
  have hsum : ∀ k : Fin 7, ∑ i, setWeights s.lambda_ i * sigmaPointsOf m s k i
      = augmentedMean s.x_ k := fun k => augmentedSigmaPoints_sum m _ _ _ h k
  have h2 : augmentedMean s.x_ 2 = s.x_ 2 := rfl
  have h3 : augmentedMean s.x_ 3 = s.x_ 3 := rfl
  have h4 : augmentedMean s.x_ 4 = s.x_ 4 := rfl
  have h5 : augmentedMean s.x_ 5 = 0 := rfl
  have h6 : augmentedMean s.x_ 6 = 0 := rfl
  refine ⟨?_, ?_, ?_⟩
  · rw [predictedMean, weightedMean_apply]
    have e : ∀ i, setWeights s.lambda_ i * predictedSigmaPoints m s delta_t 2 i
        = setWeights s.lambda_ i * sigmaPointsOf m s 2 i
          + setWeights s.lambda_ i * sigmaPointsOf m s 5 i * delta_t := fun i => by
      simp only [predictedSigmaPoints, predictSigmaPoints,
        (predictSigmaPoint_linear m delta_t _).1, colOf]
      ring
    simp_rw [e, Finset.sum_add_distrib, ← Finset.sum_mul, hsum, h2, h5]
    ring
  · rw [predictedMean, weightedMean_apply]
    have e : ∀ i, setWeights s.lambda_ i * predictedSigmaPoints m s delta_t 3 i
        = setWeights s.lambda_ i * sigmaPointsOf m s 3 i
          + setWeights s.lambda_ i * sigmaPointsOf m s 4 i * delta_t
          + setWeights s.lambda_ i * sigmaPointsOf m s 6 i * (0.5 * delta_t * delta_t) :=
      fun i => by
        simp only [predictedSigmaPoints, predictSigmaPoints,
          (predictSigmaPoint_linear m delta_t _).2.1, colOf]
        ring
    simp_rw [e, Finset.sum_add_distrib, ← Finset.sum_mul, hsum, h3, h4, h6]
    ring
  · rw [predictedMean, weightedMean_apply]
    have e : ∀ i, setWeights s.lambda_ i * predictedSigmaPoints m s delta_t 4 i
        = setWeights s.lambda_ i * sigmaPointsOf m s 4 i
          + setWeights s.lambda_ i * sigmaPointsOf m s 6 i * delta_t := fun i => by
      simp only [predictedSigmaPoints, predictSigmaPoints,
        (predictSigmaPoint_linear m delta_t _).2.2, colOf]
      ring
    simp_rw [e, Finset.sum_add_distrib, ← Finset.sum_mul, hsum, h4, h6]
    ring

/-- The function `Prediction` returns a state, the same for every amount of fuel above a
bound. -/
theorem Prediction_returns_fixed [Archimedean K] (m : Numerics K) (s : UKF K) (delta_t : K) :
    ∃ N s1, ∀ fuel, N ≤ fuel → Prediction m fuel s delta_t = some s1 := by
  obtain ⟨N, d, hN, -⟩ := Prediction_terminates m s delta_t
  exact ⟨N, _, hN⟩

/-- The function `Prediction` returns a state as soon as the fuel exceeds a bound. -/
theorem Prediction_returns [Archimedean K] (m : Numerics K) (s : UKF K) (delta_t : K) :
    ∃ N, ∀ fuel, N ≤ fuel → ∃ s1, Prediction m fuel s delta_t = some s1 := by
  obtain ⟨N, s1, hN⟩ := Prediction_returns_fixed m s delta_t
  exact ⟨N, fun fuel hf => ⟨s1, hN fuel hf⟩⟩

/-- Whenever `Prediction` returns, the covariance it stores is the weighted sum of the outer
products of the heading-normalized residuals of the predicted sigma points. -/
theorem Prediction_eq_some_form (m : Numerics K) (fuel : Nat) (s s1 : UKF K) (delta_t : K)
    (h : Prediction m fuel s delta_t = some s1) :
    ∃ d : Fin 15 → Fin 5 → K,
      (∀ i, NormalizedAt 3
        (colOf (predictedSigmaPoints m s delta_t) i - predictedMean m s delta_t) (d i)) ∧
      s1 = { s with
        Xsig_pred_ := predictedSigmaPoints m s delta_t
        weights_ := setWeights s.lambda_
        x_ := predictedMean m s delta_t
        P_ := ∑ i, setWeights s.lambda_ i • vecMulVec (d i) (d i) } := by
  obtain ⟨P, hP, rfl⟩ := (Prediction_eq_some_iff m fuel s s1 delta_t).mp h
  rw [predictCovariance_eq] at hP
  obtain ⟨d, rfl, -, hd⟩ := measurementCovariance_eq_some fuel 3 _ _ _ P hP
  exact ⟨d, hd, rfl⟩

/-! ## Lemmas on the measurement updates -/

/-- What `UpdateLidar` returns when it returns. -/
theorem UpdateLidar_eq_some_iff (fuel : Nat) (s s2 : UKF K)
    (meas_package : MeasurementPackage K) :
    UpdateLidar fuel s meas_package = some s2 ↔
      ∃ S Tc z_diff, lidarS fuel s = some S ∧ lidarTc fuel s = some Tc ∧
        normalizeEntry fuel 1 (lidarZ meas_package - lidarZpred s) = some z_diff ∧
        s2 = { s with
          NIS_laser_ := (lidarZ meas_package - lidarZpred s) ⬝ᵥ
            (inverse S).mulVec (lidarZ meas_package - lidarZpred s)
          x_ := s.x_ + (Tc * inverse S).mulVec z_diff
          P_ := s.P_ - Tc * inverse S * S * (Tc * inverse S)ᵀ } := by
  have e : UpdateLidar fuel s meas_package = (lidarS fuel s).bind fun S =>
      (lidarTc fuel s).bind fun Tc =>
      (normalizeEntry fuel 1 (lidarZ meas_package - lidarZpred s)).bind fun z_diff =>
        some { s with
          NIS_laser_ := (lidarZ meas_package - lidarZpred s) ⬝ᵥ
            (inverse S).mulVec (lidarZ meas_package - lidarZpred s)
          x_ := s.x_ + (Tc * inverse S).mulVec z_diff
          P_ := s.P_ - Tc * inverse S * S * (Tc * inverse S)ᵀ } := rfl
  rw [e]
  simp only [Option.bind_eq_some]
  constructor
  · rintro ⟨S, hS, Tc, hT, z_diff, hz, h⟩
    exact ⟨S, Tc, z_diff, hS, hT, hz, (Option.some.inj h).symm⟩
  · rintro ⟨S, Tc, z_diff, hS, hT, hz, rfl⟩
    exact ⟨S, hS, Tc, hT, z_diff, hz, rfl⟩

/-- What `UpdateRadar` returns when it returns. -/
theorem UpdateRadar_eq_some_iff (m : Numerics K) (fuel : Nat) (s s2 : UKF K)
    (meas_package : MeasurementPackage K) :
    UpdateRadar m fuel s meas_package = some s2 ↔
      ∃ S Tc z_diff, radarS m fuel s = some S ∧ radarTc m fuel s = some Tc ∧
        normalizeEntry fuel 1 (meas_package.raw_measurements_ - radarZpred m s)
          = some z_diff ∧
        s2 = { s with
          NIS_radar_ := (meas_package.raw_measurements_ - radarZpred m s) ⬝ᵥ
            (inverse S).mulVec (meas_package.raw_measurements_ - radarZpred m s)
          x_ := s.x_ + (Tc * inverse S).mulVec z_diff
          P_ := s.P_ - Tc * inverse S * S * (Tc * inverse S)ᵀ } := by
  have e : UpdateRadar m fuel s meas_package = (radarS m fuel s).bind fun S =>
      (radarTc m fuel s).bind fun Tc =>
      (normalizeEntry fuel 1 (meas_package.raw_measurements_ - radarZpred m s)).bind fun z_diff =>
        some { s with
          NIS_radar_ := (meas_package.raw_measurements_ - radarZpred m s) ⬝ᵥ
            (inverse S).mulVec (meas_package.raw_measurements_ - radarZpred m s)
          x_ := s.x_ + (Tc * inverse S).mulVec z_diff
          P_ := s.P_ - Tc * inverse S * S * (Tc * inverse S)ᵀ } := rfl
  rw [e]
  simp only [Option.bind_eq_some]
  constructor
  · rintro ⟨S, hS, Tc, hT, z_diff, hz, h⟩
    exact ⟨S, Tc, z_diff, hS, hT, hz, (Option.some.inj h).symm⟩
  · rintro ⟨S, Tc, z_diff, hS, hT, hz, rfl⟩
    exact ⟨S, hS, Tc, hT, z_diff, hz, rfl⟩

/-- The loops of `UpdateLidar` terminate: with enough fuel `S`, `Tc` and the normalized
innovation are computed, with values that do not depend on the fuel: `S` and `Tc` are the
weighted sums of the outer products of the normalized residuals. -/
theorem UpdateLidar_terminates_form [Archimedean K] (s : UKF K)
    (meas_package : MeasurementPackage K) :
    ∃ (N : ℕ) (dz : Fin 15 → Fin 2 → K) (dx : Fin 15 → Fin 5 → K)
      (dz1 : Fin 15 → Fin 2 → K) (z_diff : Fin 2 → K),
      (∀ fuel, N ≤ fuel →
        lidarS fuel s = some ((∑ i, s.weights_ i • vecMulVec (dz i) (dz i)) + lidarR s) ∧
        lidarTc fuel s = some (∑ i, s.weights_ i • vecMulVec (dx i) (dz1 i)) ∧
        normalizeEntry fuel 1 (lidarZ meas_package - lidarZpred s) = some z_diff) ∧
      (∀ i, NormalizedAt 1 (colOf (lidarZsig s.Xsig_pred_) i - lidarZpred s) (dz i)) ∧
      (∀ i, NormalizedAt 3 (colOf s.Xsig_pred_ i - s.x_) (dx i) ∧
        NormalizedAt 1 (colOf (lidarZsig s.Xsig_pred_) i - lidarZpred s) (dz1 i)) ∧
      NormalizedAt 1 (lidarZ meas_package - lidarZpred s) z_diff := by
  obtain ⟨N1, dz, hS, hdz⟩ := measurementCovariance_spec 1 s.weights_
    (lidarZsig s.Xsig_pred_) (lidarZpred s)
  obtain ⟨N2, dx, dz1, hT, hd⟩ := crossCorrelation_spec 1 s.weights_ s.Xsig_pred_ s.x_
    (lidarZsig s.Xsig_pred_) (lidarZpred s)
  obtain ⟨N3, z_diff, hz, hn⟩ := normalizeEntry_spec 1 (lidarZ meas_package - lidarZpred s)
  refine ⟨max N1 (max N2 N3), dz, dx, dz1, z_diff, fun fuel hf => ⟨?_, ?_, ?_⟩, hdz, hd, hn⟩
  · rw [lidarS, hS fuel (le_trans (le_max_left _ _) hf)]
    rfl
  · exact hT fuel (le_trans (le_trans (le_max_left _ _) (le_max_right _ _)) hf)
  · exact hz fuel (le_trans (le_trans (le_max_right _ _) (le_max_right _ _)) hf)

/-- The loops of `UpdateLidar` terminate, with values that do not depend on the fuel. -/
theorem UpdateLidar_terminates [Archimedean K] (s : UKF K)
    (meas_package : MeasurementPackage K) :
    ∃ (N : ℕ) (S : Matrix (Fin 2) (Fin 2) K) (Tc : Matrix (Fin 5) (Fin 2) K)
      (z_diff : Fin 2 → K),
      (∀ fuel, N ≤ fuel → lidarS fuel s = some S ∧ lidarTc fuel s = some Tc ∧
        normalizeEntry fuel 1 (lidarZ meas_package - lidarZpred s) = some z_diff) ∧
      NormalizedAt 1 (lidarZ meas_package - lidarZpred s) z_diff := by
  obtain ⟨N, dz, dx, dz1, z_diff, h, -, -, hn⟩ := UpdateLidar_terminates_form s meas_package
  exact ⟨N, _, _, z_diff, h, hn⟩

/-- The loops of `UpdateRadar` terminate: with enough fuel `S`, `Tc` and the normalized
innovation are computed, with values that do not depend on the fuel: `S` and `Tc` are the
weighted sums of the outer products of the normalized residuals. -/
theorem UpdateRadar_terminates_form [Archimedean K] (m : Numerics K) (s : UKF K)
    (meas_package : MeasurementPackage K) :
    ∃ (N : ℕ) (dz : Fin 15 → Fin 3 → K) (dx : Fin 15 → Fin 5 → K)
      (dz1 : Fin 15 → Fin 3 → K) (z_diff : Fin 3 → K),
      (∀ fuel, N ≤ fuel →
        radarS m fuel s = some ((∑ i, s.weights_ i • vecMulVec (dz i) (dz i)) + radarR s) ∧
        radarTc m fuel s = some (∑ i, s.weights_ i • vecMulVec (dx i) (dz1 i)) ∧
        normalizeEntry fuel 1 (meas_package.raw_measurements_ - radarZpred m s)
          = some z_diff) ∧
      (∀ i, NormalizedAt 1 (colOf (radarZsig m s.Xsig_pred_) i - radarZpred m s) (dz i)) ∧
      (∀ i, NormalizedAt 3 (colOf s.Xsig_pred_ i - s.x_) (dx i) ∧
        NormalizedAt 1 (colOf (radarZsig m s.Xsig_pred_) i - radarZpred m s) (dz1 i)) ∧
      NormalizedAt 1 (meas_package.raw_measurements_ - radarZpred m s) z_diff := by
  obtain ⟨N1, dz, hS, hdz⟩ := measurementCovariance_spec 1 s.weights_
    (radarZsig m s.Xsig_pred_) (radarZpred m s)
  obtain ⟨N2, dx, dz1, hT, hd⟩ := crossCorrelation_spec 1 s.weights_ s.Xsig_pred_ s.x_
    (radarZsig m s.Xsig_pred_) (radarZpred m s)
  obtain ⟨N3, z_diff, hz, hn⟩ :=
    normalizeEntry_spec 1 (meas_package.raw_measurements_ - radarZpred m s)
  refine ⟨max N1 (max N2 N3), dz, dx, dz1, z_diff, fun fuel hf => ⟨?_, ?_, ?_⟩, hdz, hd, hn⟩
  · rw [radarS, hS fuel (le_trans (le_max_left _ _) hf)]
    rfl
  · exact hT fuel (le_trans (le_trans (le_max_left _ _) (le_max_right _ _)) hf)
  · exact hz fuel (le_trans (le_trans (le_max_right _ _) (le_max_right _ _)) hf)

/-- The loops of `UpdateRadar` terminate, with values that do not depend on the fuel. -/
theorem UpdateRadar_terminates [Archimedean K] (m : Numerics K) (s : UKF K)
    (meas_package : MeasurementPackage K) :
    ∃ (N : ℕ) (S : Matrix (Fin 3) (Fin 3) K) (Tc : Matrix (Fin 5) (Fin 3) K)
      (z_diff : Fin 3 → K),
      (∀ fuel, N ≤ fuel → radarS m fuel s = some S ∧ radarTc m fuel s = some Tc ∧
        normalizeEntry fuel 1 (meas_package.raw_measurements_ - radarZpred m s)
          = some z_diff) ∧
      NormalizedAt 1 (meas_package.raw_measurements_ - radarZpred m s) z_diff := by
  obtain ⟨N, dz, dx, dz1, z_diff, h, -, -, hn⟩ := UpdateRadar_terminates_form m s meas_package
  exact ⟨N, _, _, z_diff, h, hn⟩

/-- The function `UpdateLidar` returns a state, the same for every amount of fuel above a
bound. -/
theorem UpdateLidar_returns [Archimedean K] (s : UKF K) (meas_package : MeasurementPackage K) :
    ∃ N s2, ∀ fuel, N ≤ fuel → UpdateLidar fuel s meas_package = some s2 := by
  obtain ⟨N, S, Tc, z_diff, h, -⟩ := UpdateLidar_terminates s meas_package
  refine ⟨N, { s with
    NIS_laser_ := (lidarZ meas_package - lidarZpred s) ⬝ᵥ
      (inverse S).mulVec (lidarZ meas_package - lidarZpred s)
    x_ := s.x_ + (Tc * inverse S).mulVec z_diff
    P_ := s.P_ - Tc * inverse S * S * (Tc * inverse S)ᵀ }, fun fuel hf => ?_⟩
  rw [UpdateLidar_eq_some_iff]
  exact ⟨S, Tc, z_diff, (h fuel hf).1, (h fuel hf).2.1, (h fuel hf).2.2, rfl⟩

/-- The function `UpdateRadar` returns a state, the same for every amount of fuel above a
bound. -/
theorem UpdateRadar_returns [Archimedean K] (m : Numerics K) (s : UKF K)
    (meas_package : MeasurementPackage K) :
    ∃ N s2, ∀ fuel, N ≤ fuel → UpdateRadar m fuel s meas_package = some s2 := by
  obtain ⟨N, S, Tc, z_diff, h, -⟩ := UpdateRadar_terminates m s meas_package
  refine ⟨N, { s with
    NIS_radar_ := (meas_package.raw_measurements_ - radarZpred m s) ⬝ᵥ
      (inverse S).mulVec (meas_package.raw_measurements_ - radarZpred m s)
    x_ := s.x_ + (Tc * inverse S).mulVec z_diff
    P_ := s.P_ - Tc * inverse S * S * (Tc * inverse S)ᵀ }, fun fuel hf => ?_⟩
  rw [UpdateRadar_eq_some_iff]
  exact ⟨S, Tc, z_diff, (h fuel hf).1, (h fuel hf).2.1, (h fuel hf).2.2, rfl⟩

/-! ## Lemmas on `ProcessMeasurement` -/

/-- The member `time_us_` is not read by `Prediction`. -/
theorem Prediction_time (m : Numerics K) (fuel : Nat) (s : UKF K) (delta_t : K) (t : Int) :
    Prediction m fuel { s with time_us_ := t } delta_t
      = (Prediction m fuel s delta_t).map fun s1 => { s1 with time_us_ := t } := by
  unfold Prediction
  simp only [Option.map_map]
  rfl

/-- The member `time_us_` is not read by `UpdateLidar`. -/
theorem UpdateLidar_time (fuel : Nat) (s : UKF K) (meas_package : MeasurementPackage K)
    (t : Int) :
    UpdateLidar fuel { s with time_us_ := t } meas_package
      = (UpdateLidar fuel s meas_package).map fun s1 => { s1 with time_us_ := t } := by
  ext s2
  simp only [Option.mem_def, Option.map_eq_some', UpdateLidar_eq_some_iff]
  constructor
  · rintro ⟨S, Tc, z_diff, hS, hT, hz, rfl⟩
    exact ⟨_, ⟨S, Tc, z_diff, hS, hT, hz, rfl⟩, rfl⟩
  · rintro ⟨s1, ⟨S, Tc, z_diff, hS, hT, hz, rfl⟩, rfl⟩
    exact ⟨S, Tc, z_diff, hS, hT, hz, rfl⟩

/-- The member `time_us_` is not read by `UpdateRadar`. -/
theorem UpdateRadar_time (m : Numerics K) (fuel : Nat) (s : UKF K)
    (meas_package : MeasurementPackage K) (t : Int) :
    UpdateRadar m fuel { s with time_us_ := t } meas_package
      = (UpdateRadar m fuel s meas_package).map fun s1 => { s1 with time_us_ := t } := by
  ext s2
  simp only [Option.mem_def, Option.map_eq_some', UpdateRadar_eq_some_iff]
  constructor
  · rintro ⟨S, Tc, z_diff, hS, hT, hz, rfl⟩
    exact ⟨_, ⟨S, Tc, z_diff, hS, hT, hz, rfl⟩, rfl⟩
  · rintro ⟨s1, ⟨S, Tc, z_diff, hS, hT, hz, rfl⟩, rfl⟩
    exact ⟨S, Tc, z_diff, hS, hT, hz, rfl⟩

/-- The member `time_us_` is not read by the correction step. -/
theorem Update_time (m : Numerics K) (fuel : Nat) (s : UKF K)
    (meas_package : MeasurementPackage K) (t : Int) :
    Update m fuel { s with time_us_ := t } meas_package
      = (Update m fuel s meas_package).map fun s1 => { s1 with time_us_ := t } := by
  unfold Update
  split
  · exact UpdateRadar_time m fuel s meas_package t
  · exact UpdateLidar_time fuel s meas_package t

/-- The correction step returns a state, the same for every amount of fuel above a bound. -/
theorem Update_returns [Archimedean K] (m : Numerics K) (s : UKF K)
    (meas_package : MeasurementPackage K) :
    ∃ N s2, ∀ fuel, N ≤ fuel → Update m fuel s meas_package = some s2 := by
  unfold Update
  split
  · exact UpdateRadar_returns m s meas_package
  · exact UpdateLidar_returns s meas_package

/-- On an initialized filter `ProcessMeasurement` is `Prediction` over the elapsed time
followed by the correction step, with `time_us_` set to the time stamp of the measurement. -/
theorem ProcessMeasurement_tracking (m : Numerics K) (fuel : Nat) (s : UKF K)
    (meas_package : MeasurementPackage K) (hs : s.is_initialized_ = true) :
    ProcessMeasurement m fuel s meas_package
      = ((Prediction m fuel s (elapsedSeconds meas_package.timestamp_ s.time_us_)).bind
          fun s1 => Update m fuel s1 meas_package).map
        fun s2 => { s2 with time_us_ := meas_package.timestamp_ } := by
  unfold ProcessMeasurement
  rw [if_neg (by simp [hs])]
  show (Prediction m fuel { s with time_us_ := meas_package.timestamp_ }
    (elapsedSeconds meas_package.timestamp_ s.time_us_)).bind
      (fun s1 => Update m fuel s1 meas_package) = _
  rw [Prediction_time m fuel s _ meas_package.timestamp_]
  cases hp : Prediction m fuel s (elapsedSeconds meas_package.timestamp_ s.time_us_) with
  | none => rfl
  | some s1 =>
    simp only [Option.map_some', Option.some_bind]
    exact Update_time m fuel s1 meas_package meas_package.timestamp_

/-- On an initialized filter `ProcessMeasurement` returns a state, the same for every amount
of fuel above a bound. -/
theorem ProcessMeasurement_returns [Archimedean K] (m : Numerics K) (s : UKF K)
    (meas_package : MeasurementPackage K) (hs : s.is_initialized_ = true) :
    ∃ N s1 s2, ∀ fuel, N ≤ fuel →
      Prediction m fuel s (elapsedSeconds meas_package.timestamp_ s.time_us_) = some s1 ∧
      Update m fuel s1 meas_package = some s2 ∧
      ProcessMeasurement m fuel s meas_package
        = some { s2 with time_us_ := meas_package.timestamp_ } := by
  obtain ⟨N1, s1, h1⟩ :=
    Prediction_returns_fixed m s (elapsedSeconds meas_package.timestamp_ s.time_us_)
  obtain ⟨N2, s2, h2⟩ := Update_returns m s1 meas_package
  refine ⟨max N1 N2, s1, s2, fun fuel hf => ?_⟩
  have e1 := h1 fuel (le_trans (le_max_left _ _) hf)
  have e2 := h2 fuel (le_trans (le_max_right _ _) hf)
  refine ⟨e1, e2, ?_⟩
  rw [ProcessMeasurement_tracking m fuel s meas_package hs, e1]
  simp only [Option.some_bind, e2, Option.map_some']

/-- Angle normalization of an entry of the zero vector returns the zero vector. -/
theorem normalizeEntry_zero {n : Nat} (fuel : Nat) (k : Fin n) (v : Fin n → K)
    (h : normalizeEntry fuel k (0 : Fin n → K) = some v) : v = 0 := by
  have hpi : (0 : K) < M_PI := M_PI_pos
  cases fuel with
  | zero => simp [normalizeEntry, normalizeAngle, whileAbove] at h
  | succ f =>
    have h0 : normalizeAngle (f + 1) (0 : K) = some 0 :=
      normalizeAngle_of_mem 0 (by linarith) (by linarith) (f + 1) (by omega)
    simp only [normalizeEntry, Pi.zero_apply, h0, Option.map_some', Option.some.injEq] at h
    rw [← h]
    funext j
    by_cases hj : j = k
    · subst hj; simp
    · simp [Function.update_noteq hj]

/-- The trace of `K * S * Kᵀ` is not negative when `S` is positive semi-definite: it is the sum
of the values of the quadratic form of `S` on the rows of `K`. -/
theorem trace_mul_mul_transpose_nonneg {r n : Nat} (G : Matrix (Fin r) (Fin n) K)
    (S : Matrix (Fin n) (Fin n) K) (hS : IsPosSemidef S) : 0 ≤ trace (G * S * Gᵀ) := by
  unfold Matrix.trace
  refine Finset.sum_nonneg fun j _ => ?_
  have e : (G * S * Gᵀ).diag j = (fun a => G j a) ⬝ᵥ S.mulVec (fun a => G j a) := by
    simp only [Matrix.diag, Matrix.mul_apply, Matrix.transpose_apply, Matrix.dotProduct,
      Matrix.mulVec, Finset.sum_mul, Finset.mul_sum]
    rw [Finset.sum_comm]
    refine Finset.sum_congr rfl fun a _ => Finset.sum_congr rfl fun b _ => ?_
    ring
  rw [e]
  exact hS _

/-- Angle normalization of an entry that lies in `[-M_PI, M_PI]` returns the vector. -/
theorem normalizeEntry_of_mem {n : Nat} (fuel : Nat) (hf : 1 ≤ fuel) (k : Fin n)
    (v : Fin n → K) (h1 : -M_PI ≤ v k) (h2 : v k ≤ M_PI) :
    normalizeEntry fuel k v = some v := by
  simp [normalizeEntry, normalizeAngle_of_mem (v k) h1 h2 fuel hf]

/-- When entry `k` of every residual lies in `[-M_PI, M_PI]`, the loop of
`measurementCovariance` returns the weighted sum of the outer products of the residuals. -/
theorem measurementCovariance_of_mem {n : Nat} (fuel : Nat) (hf : 1 ≤ fuel) (k : Fin n)
    (w : Fin 15 → K) (Zsig : Matrix (Fin n) (Fin 15) K) (z_pred : Fin n → K)
    (h : ∀ i, -M_PI ≤ (colOf Zsig i - z_pred) k ∧ (colOf Zsig i - z_pred) k ≤ M_PI) :
    measurementCovariance fuel k w Zsig z_pred
      = some (∑ i, w i • vecMulVec (colOf Zsig i - z_pred) (colOf Zsig i - z_pred)) := by
  unfold measurementCovariance
  rw [forSigmaM_add _ (fun i => w i • vecMulVec (colOf Zsig i - z_pred) (colOf Zsig i - z_pred)),
    zero_add]
  intro i acc
  simp [normalizeEntry_of_mem fuel hf k _ (h i).1 (h i).2]

/-- When the normalized entries of all residuals lie in `[-M_PI, M_PI]`, the loop of
`crossCorrelation` returns the weighted sum of the outer products of the state and
measurement residuals. -/
theorem crossCorrelation_of_mem {n : Nat} (fuel : Nat) (hf : 1 ≤ fuel) (k : Fin n)
    (w : Fin 15 → K) (Xsig_pred : Matrix (Fin 5) (Fin 15) K) (x : Fin 5 → K)
    (Zsig : Matrix (Fin n) (Fin 15) K) (z_pred : Fin n → K)
    (hz : ∀ i, -M_PI ≤ (colOf Zsig i - z_pred) k ∧ (colOf Zsig i - z_pred) k ≤ M_PI)
    (hx : ∀ i, -M_PI ≤ (colOf Xsig_pred i - x) 3 ∧ (colOf Xsig_pred i - x) 3 ≤ M_PI) :
    crossCorrelation fuel k w Xsig_pred x Zsig z_pred
      = some (∑ i, w i • vecMulVec (colOf Xsig_pred i - x) (colOf Zsig i - z_pred)) := by
  unfold crossCorrelation
  rw [forSigmaM_add _
    (fun i => w i • vecMulVec (colOf Xsig_pred i - x) (colOf Zsig i - z_pred)), zero_add]
  intro i acc
  simp [normalizeEntry_of_mem fuel hf k _ (hz i).1 (hz i).2,
    normalizeEntry_of_mem fuel hf 3 _ (hx i).1 (hx i).2]

/-! ## The example states -/

/-- The laser measurement built from the predicted measurement mean equals it. -/
theorem lidarZ_matchingLaser (s : UKF K) (t : Int) :
    lidarZ (matchingLaser s t) = lidarZpred s := by
  funext k
  fin_cases k <;> rfl

/-- The constructor's spread parameter satisfies `lambda_ + n_aug_ ≠ 0`. -/
theorem lambda_construct_ne : ((3 : K) - 5) + 7 ≠ 0 := by norm_num

/-- In the state `UKF.predicted` the predicted laser measurement mean is `(1, 2)`. -/
theorem predicted_zpred : lidarZpred (UKF.predicted : UKF K) = ![1, 2] := by
  funext k
  rw [lidarZpred, weightedMean_apply]
  have hw : ∑ i, setWeights ((3 : K) - 5) i = 1 := setWeights_sum _ lambda_construct_ne
  fin_cases k
  · simpa [UKF.predicted, lidarZsig] using hw
  · simp only [UKF.predicted, lidarZsig]
    rw [← Finset.sum_mul, hw]
    simp

/-- In the state `UKF.predicted` every laser measurement residual is zero. -/
theorem predicted_residual (i : Fin 15) :
    colOf (lidarZsig (UKF.predicted : UKF K).Xsig_pred_) i - lidarZpred UKF.predicted = 0 := by
  rw [predicted_zpred]
  funext k
  fin_cases k <;> simp [colOf, lidarZsig, UKF.predicted]

/-- In the state `UKF.predicted` the matrix `S` of the laser update is the noise matrix `R`. -/
theorem predicted_S (fuel : Nat) (hf : 1 ≤ fuel) :
    lidarS fuel (UKF.predicted : UKF K) = some (lidarR UKF.predicted) := by
  have hpi : (0 : K) < M_PI := M_PI_pos
  have hv : vecMulVec (0 : Fin 2 → K) (0 : Fin 2 → K) = 0 := by
    ext a b
    simp [vecMulVec]
  rw [lidarS, measurementCovariance_of_mem fuel hf]
  · simp [predicted_residual, hv]
  · intro i
    rw [predicted_residual]
    constructor <;> simp <;> linarith

/-- The noise matrix `R` of the laser update is positive semi-definite. -/
theorem lidarR_posSemidef (s : UKF K) : IsPosSemidef (lidarR s) := by
  intro v
  have e : v ⬝ᵥ (lidarR s).mulVec v
      = (s.std_laspx_ * v 0) ^ 2 + (s.std_laspy_ * v 1) ^ 2 := by
    simp [lidarR, Matrix.dotProduct, Matrix.mulVec, Fin.sum_univ_two]
    ring
  rw [e]
  positivity

/-- The predicted measurement mean of the laser update in the state `UKF.skewed`. -/
theorem skewed_zpred : lidarZpred (UKF.skewed : UKF ℚ) = ![-2/5, 0] := by
  funext k
  rw [lidarZpred, weightedMean_apply]
  fin_cases k
  · simp [Fin.sum_univ_succ, UKF.skewed, setWeights, lidarZsig]
    norm_num
  · simp [Fin.sum_univ_succ, UKF.skewed, setWeights, lidarZsig]

/-- The matrix `S` of the laser update in the state `UKF.skewed`: its first diagonal entry is
negative. -/
theorem skewed_S : lidarS 1 (UKF.skewed : UKF ℚ) = some !![-43/80, 0; 0, 9/400] := by
  have hpi : (0 : ℚ) < M_PI := M_PI_pos
  rw [lidarS, measurementCovariance_of_mem 1 le_rfl]
  · simp only [Option.map_some', Option.some.injEq, skewed_zpred]
    ext a b
    fin_cases a <;> fin_cases b <;>
      simp [Fin.sum_univ_succ, UKF.skewed, UKF.tracking, UKF.fresh, UKF.construct, setWeights,
        lidarZsig, lidarR, colOf, vecMulVec] <;> norm_num
  · intro i
    have : (colOf (lidarZsig (UKF.skewed : UKF ℚ).Xsig_pred_) i - lidarZpred UKF.skewed
        : Fin 2 → ℚ) 1 = 0 := by
      rw [skewed_zpred]
      simp [colOf, lidarZsig, UKF.skewed]
    rw [this]
    constructor <;> linarith

/-- The matrix `Tc` of the laser update in the state `UKF.skewed`. -/
theorem skewed_Tc : lidarTc 1 (UKF.skewed : UKF ℚ)
    = some (Matrix.of fun k j => if k.val = 0 ∧ j.val = 0 then -14/25 else 0) := by
  have hpi : (0 : ℚ) < M_PI := M_PI_pos
  rw [lidarTc, crossCorrelation_of_mem 1 le_rfl]
  · simp only [Option.some.injEq, skewed_zpred]
    ext a b
    fin_cases a <;> fin_cases b <;>
      simp [Fin.sum_univ_succ, UKF.skewed, UKF.tracking, UKF.fresh, UKF.construct, setWeights,
        lidarZsig, colOf, vecMulVec] <;> norm_num
  · intro i
    have : (colOf (lidarZsig (UKF.skewed : UKF ℚ).Xsig_pred_) i - lidarZpred UKF.skewed
        : Fin 2 → ℚ) 1 = 0 := by
      rw [skewed_zpred]
      simp [colOf, lidarZsig, UKF.skewed]
    rw [this]
    constructor <;> linarith
  · intro i
    have : (colOf (UKF.skewed : UKF ℚ).Xsig_pred_ i - (UKF.skewed : UKF ℚ).x_
        : Fin 5 → ℚ) 3 = 0 := by
      simp [colOf, UKF.skewed]
      intro h
      exact absurd h (by decide)
    rw [this]
    constructor <;> linarith


/-- The augmented covariance built from the covariance of the initialization is not positive
definite: its entry `(4, 4)` is zero. -/
theorem augmentedCovariance_initial_not_posDef (a b : K) :
    ¬ IsPosDef (augmentedCovariance (initialCovariance : Matrix (Fin 5) (Fin 5) K) a b) := by
  rintro ⟨-, h⟩
  have h4 := h (Pi.single 4 1) (by
    intro h0
    have := congrFun h0 4
    simp at this)
  have e : (Pi.single 4 1 : Fin 7 → K) ⬝ᵥ
      (augmentedCovariance (initialCovariance : Matrix (Fin 5) (Fin 5) K) a b).mulVec
        (Pi.single 4 1) = 0 := by
    simp only [Matrix.single_dotProduct, Matrix.mulVec_single, one_mul, mul_one]
    rfl
  rw [e] at h4
  exact lt_irrefl _ h4

/-- The members `use_laser_` and `use_radar_` are not read by `Prediction`. -/
theorem Prediction_flags (m : Numerics K) (fuel : Nat) (s : UKF K) (delta_t : K)
    (bl br : Bool) :
    Prediction m fuel { s with use_laser_ := bl, use_radar_ := br } delta_t
      = (Prediction m fuel s delta_t).map
        fun s1 => { s1 with use_laser_ := bl, use_radar_ := br } := by
  unfold Prediction
  simp only [Option.map_map]
  rfl

/-- The members `use_laser_` and `use_radar_` are not read by `UpdateLidar`. -/
theorem UpdateLidar_flags (fuel : Nat) (s : UKF K) (meas_package : MeasurementPackage K)
    (bl br : Bool) :
    UpdateLidar fuel { s with use_laser_ := bl, use_radar_ := br } meas_package
      = (UpdateLidar fuel s meas_package).map
        fun s1 => { s1 with use_laser_ := bl, use_radar_ := br } := by
  ext s2
  simp only [Option.mem_def, Option.map_eq_some', UpdateLidar_eq_some_iff]
  constructor
  · rintro ⟨S, Tc, z_diff, hS, hT, hz, rfl⟩
    exact ⟨_, ⟨S, Tc, z_diff, hS, hT, hz, rfl⟩, rfl⟩
  · rintro ⟨s1, ⟨S, Tc, z_diff, hS, hT, hz, rfl⟩, rfl⟩
    exact ⟨S, Tc, z_diff, hS, hT, hz, rfl⟩

/-- The members `use_laser_` and `use_radar_` are not read by `UpdateRadar`. -/
theorem UpdateRadar_flags (m : Numerics K) (fuel : Nat) (s : UKF K)
    (meas_package : MeasurementPackage K) (bl br : Bool) :
    UpdateRadar m fuel { s with use_laser_ := bl, use_radar_ := br } meas_package
      = (UpdateRadar m fuel s meas_package).map
        fun s1 => { s1 with use_laser_ := bl, use_radar_ := br } := by
  ext s2
  simp only [Option.mem_def, Option.map_eq_some', UpdateRadar_eq_some_iff]
  constructor
  · rintro ⟨S, Tc, z_diff, hS, hT, hz, rfl⟩
    exact ⟨_, ⟨S, Tc, z_diff, hS, hT, hz, rfl⟩, rfl⟩
  · rintro ⟨s1, ⟨S, Tc, z_diff, hS, hT, hz, rfl⟩, rfl⟩
    exact ⟨S, Tc, z_diff, hS, hT, hz, rfl⟩

/-- The members `use_laser_` and `use_radar_` are not read by the correction step. -/
theorem Update_flags (m : Numerics K) (fuel : Nat) (s : UKF K)
    (meas_package : MeasurementPackage K) (bl br : Bool) :
    Update m fuel { s with use_laser_ := bl, use_radar_ := br } meas_package
      = (Update m fuel s meas_package).map
        fun s1 => { s1 with use_laser_ := bl, use_radar_ := br } := by
  unfold Update
  split
  · exact UpdateRadar_flags m fuel s meas_package bl br
  · exact UpdateLidar_flags fuel s meas_package bl br

/-- The members `use_laser_` and `use_radar_` are not read by `ProcessMeasurement`: whatever
their values, the measurement is processed and only the two flags are carried along. -/
theorem ProcessMeasurement_flags (m : Numerics K) (fuel : Nat) (s : UKF K)
    (meas_package : MeasurementPackage K) (bl br : Bool) :
    ProcessMeasurement m fuel { s with use_laser_ := bl, use_radar_ := br } meas_package
      = (ProcessMeasurement m fuel s meas_package).map
        fun s1 => { s1 with use_laser_ := bl, use_radar_ := br } := by
  by_cases hi : s.is_initialized_ = true
  · have hi1 : ({ s with use_laser_ := bl, use_radar_ := br } : UKF K).is_initialized_ = true :=
      hi
    rw [ProcessMeasurement_tracking m fuel _ meas_package hi1,
      ProcessMeasurement_tracking m fuel s meas_package hi]
    show ((Prediction m fuel { s with use_laser_ := bl, use_radar_ := br }
      (elapsedSeconds meas_package.timestamp_ s.time_us_)).bind _).map _ = _
    rw [Prediction_flags m fuel s _ bl br]
    cases hp : Prediction m fuel s (elapsedSeconds meas_package.timestamp_ s.time_us_) with
    | none => rfl
    | some s1 =>
      simp only [Option.map_some', Option.some_bind]
      rw [Update_flags m fuel s1 meas_package bl br]
      cases Update m fuel s1 meas_package <;> rfl
  · have hi0 : s.is_initialized_ = false := by simpa using hi
    have hi1 : ({ s with use_laser_ := bl, use_radar_ := br } : UKF K).is_initialized_ = false :=
      hi0
    unfold ProcessMeasurement
    rw [if_pos (by simp [hi0]), if_pos (by simp [hi0])]
    rfl

/-! ## One laser cycle on a straight state -/

/-- The algebra of the laser update when `S` is diagonal and row 0 of `Tc` is `(X, 0)`: entry
`(0, 0)` of `P_ - K * S * Kᵀ` is `X - X² / (X + r)`, which is below the noise variance `r`. -/
theorem lidar_P00_core (X Y r : K) (S : Matrix (Fin 2) (Fin 2) K)
    (Tc : Matrix (Fin 5) (Fin 2) K) (hS : S = !![X + r, 0; 0, Y]) (hT0 : Tc 0 0 = X)
    (hT1 : Tc 0 1 = 0) (hX : 0 ≤ X) (hr : 0 < r) (hY : 0 < Y) :
    X - (Tc * inverse S * S * (Tc * inverse S)ᵀ) 0 0 < r := by
  have hXr : 0 < X + r := by linarith
  have e : (Tc * inverse S * S * (Tc * inverse S)ᵀ) 0 0 = X * X / (X + r) := by
    subst hS
    simp [Matrix.mul_apply, Fin.sum_univ_two, inverse, Matrix.det_fin_two,
      Matrix.adjugate_fin_two, hT0, hT1]
    field_simp
    ring
  rw [e, sub_lt_iff_lt_add, ← sub_lt_iff_lt_add', lt_div_iff₀ hXr]
  nlinarith

/-- For a state mean with zero speed, heading and heading rate and a diagonal factor `L`, no
predicted sigma point deviates from the mean in both position entries. -/
theorem straight_rows (m : Numerics K) (s : UKF K) (dt : K) (l : Fin 7 → K)
    (hx2 : s.x_ 2 = 0) (hx3 : s.x_ 3 = 0) (hx4 : s.x_ 4 = 0)
    (hL : m.llt (augmentedCovariance s.P_ s.std_a_ s.std_yawdd_) = Matrix.diagonal l)
    (hc : m.cos 0 = 1) (hs : m.sin 0 = 0) (i : Fin 15) :
    (predictedSigmaPoints m s dt 0 i - s.x_ 0)
      * (predictedSigmaPoints m s dt 1 i - s.x_ 1) = 0 := by
  have a0 : augmentedMean s.x_ 0 = s.x_ 0 := rfl
  have a1 : augmentedMean s.x_ 1 = s.x_ 1 := rfl
  have a2 : augmentedMean s.x_ 2 = 0 := hx2
  have a3 : augmentedMean s.x_ 3 = 0 := hx3
  have a4 : augmentedMean s.x_ 4 = 0 := hx4
  have a5 : augmentedMean s.x_ 5 = 0 := rfl
  have a6 : augmentedMean s.x_ 6 = 0 := rfl
  fin_cases i <;>
    simp [predictedSigmaPoints, predictSigmaPoints, predictSigmaPoint, sigmaPointsOf,
      augmentedSigmaPoints, colOf, hL, Matrix.diagonal, a0, a1, a2, a3, a4, a5, a6, hc, hs]

/-- The weights of the constructor's `lambda_` other than the first are positive. -/
theorem setWeights_pos (i : Fin 15) (hi : i ≠ 0) : (0 : K) < setWeights (3 - 5) i := by
  have : i.val ≠ 0 := fun h => hi (Fin.ext h)
  simp only [setWeights, this, if_false]
  norm_num

/-- A weighted sum of squares whose first term vanishes is not negative, although the first
weight is. -/
theorem sum_weighted_sq_nonneg (e : Fin 15 → K) (h0 : e 0 = 0) :
    0 ≤ ∑ i, setWeights ((3 : K) - 5) i * (e i * e i) := by
  refine Finset.sum_nonneg fun i _ => ?_
  by_cases hi : i = 0
  · subst hi; simp [h0]
  · exact mul_nonneg (setWeights_pos i hi).le (mul_self_nonneg _)

/-- The laser update of a state whose sigma points deviate from the mean in at most one
position entry each: entry `(0, 0)` of the corrected covariance is below the laser noise
variance `std_laspx_ ^ 2`. -/
theorem UpdateLidar_P00_lt [Archimedean K] (s1 : UKF K) (meas_package : MeasurementPackage K)
    (hw : s1.weights_ = setWeights (3 - 5))
    (hm0 : lidarZpred s1 0 = s1.x_ 0) (hm1 : lidarZpred s1 1 = s1.x_ 1)
    (hc0 : s1.Xsig_pred_ 0 0 = s1.x_ 0) (hc1 : s1.Xsig_pred_ 1 0 = s1.x_ 1)
    (horth : ∀ i, (s1.Xsig_pred_ 0 i - s1.x_ 0) * (s1.Xsig_pred_ 1 i - s1.x_ 1) = 0)
    (hP : s1.P_ 0 0 = ∑ i, s1.weights_ i *
      ((s1.Xsig_pred_ 0 i - s1.x_ 0) * (s1.Xsig_pred_ 0 i - s1.x_ 0)))
    (hrx : s1.std_laspx_ ≠ 0) (hry : s1.std_laspy_ ≠ 0) :
    ∃ N s2, ∀ fuel, N ≤ fuel → UpdateLidar fuel s1 meas_package = some s2 ∧
      s2.P_ 0 0 < s1.std_laspx_ * s1.std_laspx_ := by
  have hpi : (0 : K) < M_PI := M_PI_pos
  obtain ⟨N, dz, dx, dz1, z_diff, h, hdz, hd, -⟩ := UpdateLidar_terminates_form s1 meas_package
  -- the residuals
  have hres0 : ∀ i, (colOf (lidarZsig s1.Xsig_pred_) i - lidarZpred s1) 0
      = s1.Xsig_pred_ 0 i - s1.x_ 0 := fun i => by
    simp [colOf, lidarZsig, hm0]
  have hres1 : ∀ i, (colOf (lidarZsig s1.Xsig_pred_) i - lidarZpred s1) 1
      = s1.Xsig_pred_ 1 i - s1.x_ 1 := fun i => by
    simp [colOf, lidarZsig, hm1]
  have key : ∀ (d : Fin 15 → Fin 2 → K),
      (∀ i, NormalizedAt 1 (colOf (lidarZsig s1.Xsig_pred_) i - lidarZpred s1) (d i)) →
      (∀ i, d i 0 = s1.Xsig_pred_ 0 i - s1.x_ 0) ∧ (∀ i, d i 0 * d i 1 = 0) ∧
        d 0 1 = 0 := by
    intro d hd
    have h0 : ∀ i, d i 0 = s1.Xsig_pred_ 0 i - s1.x_ 0 := fun i => by
      rw [(hd i).1 0 (by decide), hres0]
    have hz : ∀ i, s1.Xsig_pred_ 1 i - s1.x_ 1 = 0 → d i 1 = 0 := fun i hi => by
      have e := (hd i).2.2.2.2 (by rw [hres1, hi]; linarith) (by rw [hres1, hi]; linarith)
      rw [e, hres1, hi]
    refine ⟨h0, fun i => ?_, hz 0 (by rw [hc1, sub_self])⟩
    rcases mul_eq_zero.mp (horth i) with h1 | h1
    · rw [h0, h1, zero_mul]
    · rw [hz i h1, mul_zero]
  obtain ⟨hz0, hzo, hz01⟩ := key dz hdz
  obtain ⟨hy0, hyo, hy01⟩ := key dz1 (fun i => (hd i).2)
  have hx0 : ∀ i, dx i 0 = s1.Xsig_pred_ 0 i - s1.x_ 0 := fun i => by
    rw [(hd i).1.1 0 (by decide)]; rfl
  set X : K := ∑ i, s1.weights_ i *
      ((s1.Xsig_pred_ 0 i - s1.x_ 0) * (s1.Xsig_pred_ 0 i - s1.x_ 0)) with hXdef
  set Y : K := (∑ i, s1.weights_ i * (dz i 1 * dz i 1)) + s1.std_laspy_ * s1.std_laspy_
    with hYdef
  have hX : 0 ≤ X := by
    rw [hXdef, hw]
    exact sum_weighted_sq_nonneg _ (by rw [hc0, sub_self])
  have hY : 0 < Y := by
    have h1 : 0 ≤ ∑ i, s1.weights_ i * (dz i 1 * dz i 1) := by
      rw [hw]; exact sum_weighted_sq_nonneg _ hz01
    have h2 : 0 < s1.std_laspy_ * s1.std_laspy_ := mul_self_pos.mpr hry
    linarith
  have hr : 0 < s1.std_laspx_ * s1.std_laspx_ := mul_self_pos.mpr hrx
  have hS : (∑ i, s1.weights_ i • vecMulVec (dz i) (dz i)) + lidarR s1
      = !![X + s1.std_laspx_ * s1.std_laspx_, 0; 0, Y] := by
    ext a b
    fin_cases a <;> fin_cases b
    · simp [Matrix.sum_apply, vecMulVec, lidarR, hz0, hXdef]
    · simp [Matrix.sum_apply, vecMulVec, lidarR]
      exact Finset.sum_eq_zero fun i _ => by rw [hzo i, mul_zero]
    · simp [Matrix.sum_apply, vecMulVec, lidarR]
      exact Finset.sum_eq_zero fun i _ => by rw [mul_comm (dz i 1), hzo i, mul_zero]
    · simp [Matrix.sum_apply, vecMulVec, lidarR, hYdef]
  have hT0 : (∑ i, s1.weights_ i • vecMulVec (dx i) (dz1 i)) 0 0 = X := by
    simp [Matrix.sum_apply, vecMulVec, hx0, hy0, hXdef]
  have hT1 : (∑ i, s1.weights_ i • vecMulVec (dx i) (dz1 i)) 0 1 = 0 := by
    simp only [Matrix.sum_apply, Matrix.smul_apply, vecMulVec, Matrix.of_apply, smul_eq_mul]
    refine Finset.sum_eq_zero fun i _ => ?_
    rw [hx0, ← hy0, hyo i, mul_zero]
  refine ⟨N, _, fun fuel hf => ⟨(UpdateLidar_eq_some_iff fuel s1 _ meas_package).mpr
    ⟨_, _, z_diff, (h fuel hf).1, (h fuel hf).2.1, (h fuel hf).2.2, rfl⟩, ?_⟩⟩
  show s1.P_ 0 0 - _ < _
  rw [hP]
  exact lidar_P00_core X Y _ _ _ hS hT0 hT1 hX hr hY


/-- A sum over the 15 sigma points, split into the central point and the 7 pairs. -/
theorem sum_fin15_pairs {M : Type} [AddCommMonoid M] (f : Fin 15 → M) :
    ∑ i, f i
      = f 0 + ∑ j : Fin 7, (f ⟨j.val + 1, by omega⟩ + f ⟨j.val + 8, by omega⟩) := by
  rw [Fin.sum_univ_succ]
  congr 1
  have e := Fin.sum_univ_add (fun i : Fin (7 + 7) => f i.succ)
  rw [show (∑ i : Fin 14, f i.succ) = ∑ i : Fin (7 + 7), f i.succ from rfl, e,
    ← Finset.sum_add_distrib]
  refine Finset.sum_congr rfl fun j _ => ?_
  congr 2
  exact Fin.ext (by simp)

/-- For a state mean with zero speed, heading and heading rate and a diagonal factor `L`, the
position entries of the central predicted sigma point are those of the mean, and those of each
pair of predicted sigma points are symmetric about the mean. -/
theorem straight_pairs (m : Numerics K) (s : UKF K) (dt : K) (l : Fin 7 → K)
    (hx2 : s.x_ 2 = 0) (hx3 : s.x_ 3 = 0) (hx4 : s.x_ 4 = 0)
    (hL : m.llt (augmentedCovariance s.P_ s.std_a_ s.std_yawdd_) = Matrix.diagonal l)
    (hc : m.cos 0 = 1) (hs : m.sin 0 = 0) :
    (predictedSigmaPoints m s dt 0 0 = s.x_ 0 ∧ predictedSigmaPoints m s dt 1 0 = s.x_ 1) ∧
    ∀ j : Fin 7,
      predictedSigmaPoints m s dt 0 ⟨j.val + 1, by omega⟩
        + predictedSigmaPoints m s dt 0 ⟨j.val + 8, by omega⟩ = 2 * s.x_ 0 ∧
      predictedSigmaPoints m s dt 1 ⟨j.val + 1, by omega⟩
        + predictedSigmaPoints m s dt 1 ⟨j.val + 8, by omega⟩ = 2 * s.x_ 1 := by
  have a0 : augmentedMean s.x_ 0 = s.x_ 0 := rfl
  have a1 : augmentedMean s.x_ 1 = s.x_ 1 := rfl
  have a2 : augmentedMean s.x_ 2 = 0 := hx2
  have a3 : augmentedMean s.x_ 3 = 0 := hx3
  have a4 : augmentedMean s.x_ 4 = 0 := hx4
  have a5 : augmentedMean s.x_ 5 = 0 := rfl
  have a6 : augmentedMean s.x_ 6 = 0 := rfl
  refine ⟨⟨?_, ?_⟩, fun j => ?_⟩
  · simp [predictedSigmaPoints, predictSigmaPoints, predictSigmaPoint, sigmaPointsOf,
      augmentedSigmaPoints, colOf, a0, a1, a2, a3, a4, a5, a6, hc, hs]
  · simp [predictedSigmaPoints, predictSigmaPoints, predictSigmaPoint, sigmaPointsOf,
      augmentedSigmaPoints, colOf, a0, a1, a2, a3, a4, a5, a6, hc, hs]
  · fin_cases j <;>
    · constructor <;>
      · simp [predictedSigmaPoints, predictSigmaPoints, predictSigmaPoint, sigmaPointsOf,
          augmentedSigmaPoints, colOf, hL, Matrix.diagonal, a0, a1, a2, a3, a4, a5, a6, hc, hs]
        try norm_num
        try ring

/-- One cycle of `ProcessMeasurement` with a laser measurement on a tracking filter with zero
speed, heading and heading rate, for library functions with `cos 0 = 1`, `sin 0 = 0` and a
diagonal factor `L`: the cycle returns and entry `(0, 0)` of the new covariance is below the
laser noise variance. -/
theorem straight_cycle_P00 [Archimedean K] (m : Numerics K) (s : UKF K)
    (meas_package : MeasurementPackage K) (l : Fin 7 → K)
    (hi : s.is_initialized_ = true) (hlas : meas_package.sensor_type_ = SensorType.LASER)
    (hl : s.lambda_ = 3 - 5)
    (hx2 : s.x_ 2 = 0) (hx3 : s.x_ 3 = 0) (hx4 : s.x_ 4 = 0)
    (hL : m.llt (augmentedCovariance s.P_ s.std_a_ s.std_yawdd_) = Matrix.diagonal l)
    (hc : m.cos 0 = 1) (hs : m.sin 0 = 0)
    (hrx : s.std_laspx_ ≠ 0) (hry : s.std_laspy_ ≠ 0) :
    ∃ N s3, ∀ fuel, N ≤ fuel → ProcessMeasurement m fuel s meas_package = some s3 ∧
      s3.P_ 0 0 < s.std_laspx_ * s.std_laspx_ := by
  set dt : K := elapsedSeconds meas_package.timestamp_ s.time_us_ with hdt
  obtain ⟨N1, d, hN1, hd⟩ := Prediction_terminates m s dt
  obtain ⟨⟨hc0, hc1⟩, hpair⟩ := straight_pairs m s dt l hx2 hx3 hx4 hL hc hs
  have hw15 : ∀ j : Fin 7, setWeights s.lambda_ ⟨j.val + 1, by omega⟩ = 1 / 10 ∧
      setWeights s.lambda_ ⟨j.val + 8, by omega⟩ = 1 / 10 := fun j => by
    constructor <;> simp [setWeights, hl] <;> norm_num
  have hw0 : setWeights s.lambda_ 0 = -2 / 5 := by
    simp [setWeights, hl]; norm_num
  have hmean : ∀ k : Fin 5, (k = 0 ∨ k = 1) → predictedMean m s dt k = s.x_ k := by
    intro k hk
    rw [predictedMean, weightedMean_apply, sum_fin15_pairs]
    have : ∀ j : Fin 7,
        setWeights s.lambda_ ⟨j.val + 1, by omega⟩
            * predictedSigmaPoints m s dt k ⟨j.val + 1, by omega⟩
          + setWeights s.lambda_ ⟨j.val + 8, by omega⟩
            * predictedSigmaPoints m s dt k ⟨j.val + 8, by omega⟩
          = 1 / 5 * s.x_ k := fun j => by
      rw [(hw15 j).1, (hw15 j).2, ← mul_add]
      rcases hk with rfl | rfl
      · rw [(hpair j).1]; ring
      · rw [(hpair j).2]; ring
    simp_rw [this]
    rw [hw0]
    rcases hk with rfl | rfl
    · rw [hc0]; simp; ring
    · rw [hc1]; simp; ring
  have hm0 := hmean 0 (Or.inl rfl)
  have hm1 := hmean 1 (Or.inr rfl)
  -- the state after the prediction
  obtain ⟨N2, s2, hN2⟩ := UpdateLidar_P00_lt
    ({ s with
        Xsig_pred_ := predictedSigmaPoints m s dt
        weights_ := setWeights s.lambda_
        x_ := predictedMean m s dt
        P_ := ∑ i, setWeights s.lambda_ i • vecMulVec (d i) (d i) } : UKF K) meas_package
    (by rw [hl])
    (by simp only [lidarZpred, predictedMean]
        rw [weightedMean_apply, weightedMean_apply]; rfl)
    (by simp only [lidarZpred, predictedMean]
        rw [weightedMean_apply, weightedMean_apply]; rfl)
    (hc0.trans hm0.symm)
    (hc1.trans hm1.symm)
    (fun i => by
      show (predictedSigmaPoints m s dt 0 i - predictedMean m s dt 0)
        * (predictedSigmaPoints m s dt 1 i - predictedMean m s dt 1) = 0
      rw [hm0, hm1]
      exact straight_rows m s dt l hx2 hx3 hx4 hL hc hs i)
    (by
      simp only [Matrix.sum_apply, Matrix.smul_apply, vecMulVec, Matrix.of_apply, smul_eq_mul]
      refine Finset.sum_congr rfl fun i _ => ?_
      rw [(hd i).1 0 (by decide)]
      rfl)
    hrx hry
  refine ⟨max N1 N2, { s2 with time_us_ := meas_package.timestamp_ }, fun fuel hf => ?_⟩
  have e1 := hN1 fuel (le_trans (le_max_left _ _) hf)
  have e2 := hN2 fuel (le_trans (le_max_right _ _) hf)
  refine ⟨?_, e2.2⟩
  rw [ProcessMeasurement_tracking m fuel s meas_package hi, ← hdt, e1]
  simp only [Option.some_bind, Update, hlas]
  rw [if_neg (by decide), e2.1]
  rfl

/-! ## The Cholesky recurrence on a diagonal matrix -/

/-- One step of the Cholesky recurrence on a diagonal matrix: when the first `n` columns are
the diagonal of square roots, so are the first `n + 1`. -/
theorem choleskyColumn_diagonal (sqrt : K → K) (a : Fin 7 → K) (n : Nat) (hn : n < 7) :
    choleskyColumn sqrt (Matrix.diagonal a)
        (fun i c => if c.val < n ∧ i = c then sqrt (a c) else 0) ⟨n, hn⟩
      = fun i c => if c.val < n + 1 ∧ i = c then sqrt (a c) else 0 := by
  have hsum : ∀ i : Fin 7, ∑ k ∈ Finset.univ.filter (fun k => k < (⟨n, hn⟩ : Fin 7)),
      (if k.val < n ∧ i = k then sqrt (a k) else 0)
        * (if k.val < n ∧ (⟨n, hn⟩ : Fin 7) = k then sqrt (a k) else 0) = 0 := by
    intro i
    refine Finset.sum_eq_zero fun k hk => ?_
    have hkn : k < (⟨n, hn⟩ : Fin 7) := (Finset.mem_filter.mp hk).2
    have : ¬ (k.val < n ∧ (⟨n, hn⟩ : Fin 7) = k) := fun h => absurd h.2 (ne_of_gt hkn)
    rw [if_neg this, mul_zero]
  funext i c
  simp only [choleskyColumn, hsum, sub_zero, Matrix.diagonal_apply_eq]
  by_cases hc : c = ⟨n, hn⟩
  · subst hc
    by_cases hi : i = ⟨n, hn⟩
    · subst hi; simp
    · have hic : ¬ (n < n + 1 ∧ i = ⟨n, hn⟩) := fun h => hi h.2
      simp [hi, hic, Matrix.diagonal_apply_ne _ hi]
  · have hcv : c.val ≠ n := fun h => hc (Fin.ext h)
    simp only [hc, if_false]
    by_cases h1 : c.val < n
    · have : c.val < n + 1 := by omega
      simp [h1, this]
    · have : ¬ c.val < n + 1 := by omega
      simp [h1, this]

/-- The Cholesky recurrence maps a diagonal matrix to the diagonal matrix of the square roots
of its entries. -/
theorem cholesky_diagonal (sqrt : K → K) (a : Fin 7 → K) :
    cholesky sqrt (Matrix.diagonal a) = Matrix.diagonal fun i => sqrt (a i) := by
  have h0 : (0 : Matrix (Fin 7) (Fin 7) K)
      = fun i c => if c.val < 0 ∧ i = c then sqrt (a c) else 0 := by
    funext i c; simp
  have hlist : List.finRange 7 = [0, 1, 2, 3, 4, 5, 6] := by decide
  have e0 := choleskyColumn_diagonal sqrt a 0 (by omega)
  have e1 := choleskyColumn_diagonal sqrt a 1 (by omega)
  have e2 := choleskyColumn_diagonal sqrt a 2 (by omega)
  have e3 := choleskyColumn_diagonal sqrt a 3 (by omega)
  have e4 := choleskyColumn_diagonal sqrt a 4 (by omega)
  have e5 := choleskyColumn_diagonal sqrt a 5 (by omega)
  have e6 := choleskyColumn_diagonal sqrt a 6 (by omega)
  rw [cholesky, hlist]
  simp only [List.foldl_cons, List.foldl_nil]
  rw [h0]
  erw [e0, e1, e2, e3, e4, e5, e6]
  funext i c
  have : c.val < 6 + 1 := c.isLt
  simp only [this, true_and, Matrix.diagonal_apply]
  by_cases h : i = c
  · subst h; simp
  · simp [h]

/-- The augmented covariance built from the covariance of the initialization is diagonal. -/
theorem augmentedCovariance_initial (a b : K) :
    augmentedCovariance (initialCovariance : Matrix (Fin 5) (Fin 5) K) a b
      = Matrix.diagonal ![0.6, 0.6, 6, 7.5, 0, a * a, b * b] := by
  funext i j
  fin_cases i <;> fin_cases j <;>
    simp [augmentedCovariance, initialCovariance, Matrix.diagonal, Matrix.vecHead,
      Matrix.vecTail] <;> rfl

/-! ## The normalization does not depend on the fuel and is an odd function -/

/-- A result of the first loop is still its result with more fuel. -/
theorem whileAbove_mono (f : ℕ) : ∀ (g : ℕ) (a b : K), f ≤ g →
    whileAbove f a = some b → whileAbove g a = some b := by
  induction f with
  | zero => intro g a b _ h; simp [whileAbove] at h
  | succ f ih =>
    intro g a b hg h
    obtain ⟨g, rfl⟩ : ∃ g1, g = g1 + 1 := ⟨g - 1, by omega⟩
    simp only [whileAbove] at h ⊢
    by_cases ha : a > M_PI
    · rw [if_pos ha] at h ⊢; exact ih g _ b (by omega) h
    · rw [if_neg ha] at h ⊢; exact h

/-- A result of the second loop is still its result with more fuel. -/
theorem whileBelow_mono (f : ℕ) : ∀ (g : ℕ) (a b : K), f ≤ g →
    whileBelow f a = some b → whileBelow g a = some b := by
  induction f with
  | zero => intro g a b _ h; simp [whileBelow] at h
  | succ f ih =>
    intro g a b hg h
    obtain ⟨g, rfl⟩ : ∃ g1, g = g1 + 1 := ⟨g - 1, by omega⟩
    simp only [whileBelow] at h ⊢
    by_cases ha : a < -M_PI
    · rw [if_pos ha] at h ⊢; exact ih g _ b (by omega) h
    · rw [if_neg ha] at h ⊢; exact h

/-- A result of the angle normalization is still its result with more fuel. -/
theorem normalizeAngle_mono (f g : ℕ) (a b : K) (hfg : f ≤ g)
    (h : normalizeAngle f a = some b) : normalizeAngle g a = some b := by
  simp only [normalizeAngle, Option.bind_eq_some] at h ⊢
  obtain ⟨c, hc, hb⟩ := h
  exact ⟨c, whileAbove_mono f g a c hfg hc, whileBelow_mono f g c b hfg hb⟩

/-- The result of the angle normalization does not depend on the fuel. -/
theorem normalizeAngle_det (f g : ℕ) (a b c : K) (hb : normalizeAngle f a = some b)
    (hc : normalizeAngle g a = some c) : b = c := by
  have h1 := normalizeAngle_mono f (max f g) a b (le_max_left _ _) hb
  have h2 := normalizeAngle_mono g (max f g) a c (le_max_right _ _) hc
  rw [h1] at h2
  exact Option.some.inj h2

/-- The result of normalizing an entry of a vector does not depend on the fuel. -/
theorem normalizeEntry_det {n : Nat} (f g : ℕ) (k : Fin n) (v b c : Fin n → K)
    (hb : normalizeEntry f k v = some b) (hc : normalizeEntry g k v = some c) : b = c := by
  simp only [normalizeEntry, Option.map_eq_some'] at hb hc
  obtain ⟨x, hx, rfl⟩ := hb
  obtain ⟨y, hy, rfl⟩ := hc
  rw [normalizeAngle_det f g (v k) x y hx hy]

/-- The second loop on `-a` mirrors the first loop on `a`. -/
theorem whileBelow_neg (fuel : ℕ) : ∀ a : K,
    whileBelow fuel (-a) = (whileAbove fuel a).map fun b => -b := by
  induction fuel with
  | zero => intro a; simp [whileBelow, whileAbove]
  | succ f ih =>
    intro a
    simp only [whileBelow, whileAbove]
    by_cases ha : a > M_PI
    · rw [if_pos ha, if_pos (by linarith), ← ih]
      congr 1; ring
    · rw [if_neg ha, if_neg (by linarith)]; rfl

/-- The first loop on `-a` mirrors the second loop on `a`. -/
theorem whileAbove_neg (fuel : ℕ) : ∀ a : K,
    whileAbove fuel (-a) = (whileBelow fuel a).map fun b => -b := by
  induction fuel with
  | zero => intro a; simp [whileBelow, whileAbove]
  | succ f ih =>
    intro a
    simp only [whileBelow, whileAbove]
    by_cases ha : a < -M_PI
    · rw [if_pos ha, if_pos (by linarith), ← ih]
      congr 1; ring
    · rw [if_neg ha, if_neg (by linarith)]; rfl

/-- The first loop returns a value that is at most `M_PI` unchanged. -/
theorem whileAbove_of_le (fuel : ℕ) (hf : 1 ≤ fuel) (a : K) (h : a ≤ M_PI) :
    whileAbove fuel a = some a := by
  obtain ⟨f, rfl⟩ : ∃ f, fuel = f + 1 := ⟨fuel - 1, by omega⟩
  simp [whileAbove, not_lt.mpr h]

/-- The second loop returns a value that is at least `-M_PI` unchanged. -/
theorem whileBelow_of_le (fuel : ℕ) (hf : 1 ≤ fuel) (a : K) (h : -M_PI ≤ a) :
    whileBelow fuel a = some a := by
  obtain ⟨f, rfl⟩ : ∃ f, fuel = f + 1 := ⟨fuel - 1, by omega⟩
  simp [whileBelow, not_lt.mpr h]

/-- The angle normalization is an odd function: the two loops mirror each other. -/
theorem normalizeAngle_neg (fuel : ℕ) (a b : K) (h : normalizeAngle fuel a = some b) :
    normalizeAngle fuel (-a) = some (-b) := by
  have hpi : (0 : K) < M_PI := M_PI_pos
  have hf : 1 ≤ fuel := by
    rcases fuel with _ | f
    · simp [normalizeAngle, whileAbove] at h
    · omega
  simp only [normalizeAngle, Option.bind_eq_some] at h ⊢
  obtain ⟨c, hc, hb⟩ := h
  obtain ⟨hc1, -, hc3, hc4⟩ := whileAbove_sound fuel a c hc
  obtain ⟨hb1, -, hb3, hb4⟩ := whileBelow_sound fuel c b hb
  by_cases ha : M_PI < a
  · have hcb : b = c := hb3 (le_of_lt (hc4 ha))
    subst hcb
    refine ⟨-a, whileAbove_of_le fuel hf _ (by linarith), ?_⟩
    rw [whileBelow_neg, hc]; rfl
  · have hca : c = a := hc3 (not_lt.mp ha)
    subst hca
    by_cases ha2 : c < -M_PI
    · refine ⟨-b, ?_, whileBelow_of_le fuel hf _ (by linarith [hb4 ha2])⟩
      rw [whileAbove_neg, hb]; rfl
    · have hbc : b = c := hb3 (not_lt.mp ha2)
      subst hbc
      exact ⟨-b, whileAbove_of_le fuel hf _ (by linarith [not_lt.mp ha2]),
        whileBelow_of_le fuel hf _ (by linarith [not_lt.mp ha])⟩

/-! ## Symmetry of the covariance -/

/-- A weighted sum of outer products of vectors with themselves is a symmetric matrix. -/
theorem sum_vecMulVec_isSymm {n : Nat} (w : Fin 15 → K) (d : Fin 15 → Fin n → K) :
    (∑ i, w i • vecMulVec (d i) (d i)).IsSymm := by
  ext a b
  simp only [Matrix.transpose_apply, Matrix.sum_apply, Matrix.smul_apply, vecMulVec_apply,
    smul_eq_mul]
  exact Finset.sum_congr rfl fun i _ => by ring

/-- The covariance update `P - G * S * Gᵀ` keeps `P` symmetric when `S` is symmetric. -/
theorem update_isSymm {n : Nat} (P : Matrix (Fin 5) (Fin 5) K) (G : Matrix (Fin 5) (Fin n) K)
    (S : Matrix (Fin n) (Fin n) K) (hP : P.IsSymm) (hS : S.IsSymm) :
    (P - G * S * Gᵀ).IsSymm := by
  unfold Matrix.IsSymm at *
  rw [transpose_sub, transpose_mul, transpose_mul, transpose_transpose, hP, hS, Matrix.mul_assoc]

/-- The laser noise matrix is symmetric. -/
theorem lidarR_isSymm (s : UKF K) : (lidarR s).IsSymm := by
  ext a b
  fin_cases a <;> fin_cases b <;> simp [lidarR, Matrix.vecHead, Matrix.vecTail]

/-- The radar noise matrix is symmetric. -/
theorem radarR_isSymm (s : UKF K) : (radarR s).IsSymm := by
  ext a b
  fin_cases a <;> fin_cases b <;> simp [radarR, Matrix.vecHead, Matrix.vecTail]

/-- The covariance written at initialization is symmetric. -/
theorem initialCovariance_isSymm : (initialCovariance : Matrix (Fin 5) (Fin 5) K).IsSymm := by
  ext a b
  fin_cases a <;> fin_cases b <;> simp [initialCovariance, Matrix.vecHead, Matrix.vecTail]

/-- The innovation covariance of `UpdateLidar` is symmetric. -/
theorem lidarS_isSymm (fuel : Nat) (s : UKF K) (S : Matrix (Fin 2) (Fin 2) K)
    (h : lidarS fuel s = some S) : S.IsSymm := by
  simp only [lidarS, Option.map_eq_some'] at h
  obtain ⟨S0, hS0, rfl⟩ := h
  obtain ⟨d, rfl, -, -⟩ := measurementCovariance_eq_some _ _ _ _ _ _ hS0
  exact Matrix.IsSymm.add (sum_vecMulVec_isSymm _ _) (lidarR_isSymm s)

/-- The innovation covariance of `UpdateRadar` is symmetric. -/
theorem radarS_isSymm (m : Numerics K) (fuel : Nat) (s : UKF K) (S : Matrix (Fin 3) (Fin 3) K)
    (h : radarS m fuel s = some S) : S.IsSymm := by
  simp only [radarS, Option.map_eq_some'] at h
  obtain ⟨S0, hS0, rfl⟩ := h
  obtain ⟨d, rfl, -, -⟩ := measurementCovariance_eq_some _ _ _ _ _ _ hS0
  exact Matrix.IsSymm.add (sum_vecMulVec_isSymm _ _) (radarR_isSymm s)

/-- The covariance stored by `Prediction` is symmetric. -/
theorem Prediction_isSymm (m : Numerics K) (fuel : Nat) (s s1 : UKF K) (delta_t : K)
    (h : Prediction m fuel s delta_t = some s1) : s1.P_.IsSymm := by
  obtain ⟨d, -, rfl⟩ := Prediction_eq_some_form m fuel s s1 delta_t h
  exact sum_vecMulVec_isSymm _ _

/-- The covariance update of `UpdateLidar` keeps `P_` symmetric. -/
theorem UpdateLidar_isSymm (fuel : Nat) (s s2 : UKF K) (meas_package : MeasurementPackage K)
    (hP : s.P_.IsSymm) (h : UpdateLidar fuel s meas_package = some s2) : s2.P_.IsSymm := by
  obtain ⟨S, Tc, z_diff, hS, -, -, rfl⟩ := (UpdateLidar_eq_some_iff fuel s s2 meas_package).mp h
  exact update_isSymm _ _ _ hP (lidarS_isSymm fuel s S hS)

/-- The covariance update of `UpdateRadar` keeps `P_` symmetric. -/
theorem UpdateRadar_isSymm (m : Numerics K) (fuel : Nat) (s s2 : UKF K)
    (meas_package : MeasurementPackage K)
    (hP : s.P_.IsSymm) (h : UpdateRadar m fuel s meas_package = some s2) : s2.P_.IsSymm := by
  obtain ⟨S, Tc, z_diff, hS, -, -, rfl⟩ :=
    (UpdateRadar_eq_some_iff m fuel s s2 meas_package).mp h
  exact update_isSymm _ _ _ hP (radarS_isSymm m fuel s S hS)

/-! ## Positive semi-definiteness of the predicted covariance -/

/-- A diagonal matrix with no negative entry is positive semi-definite. -/
theorem diagonal_posSemidef {n : Nat} (a : Fin n → K) (h : ∀ i, 0 ≤ a i) :
    IsPosSemidef (Matrix.diagonal a) := by
  intro v
  simp only [dotProduct, Matrix.mulVec_diagonal]
  exact Finset.sum_nonneg fun i _ => by nlinarith [h i, mul_self_nonneg (v i)]

/-- Two sigma points that share the five state entries of a third one, whose noise entries are
zero, and carry opposite noise entries are predicted to points that are symmetric about the
prediction of the third: the process model is affine in the two noise entries. -/
theorem predictSigmaPoint_noise_pair (m : Numerics K) (delta_t : K) (c0 c1 c2 : Fin 7 → K)
    (h1 : ∀ k : Fin 7, k.val < 5 → c1 k = c0 k) (h2 : ∀ k : Fin 7, k.val < 5 → c2 k = c0 k)
    (h5 : c0 5 = 0) (h6 : c0 6 = 0) (h15 : c2 5 = -c1 5) (h16 : c2 6 = -c1 6) (k : Fin 5) :
    predictSigmaPoint m delta_t c1 k + predictSigmaPoint m delta_t c2 k
      = 2 * predictSigmaPoint m delta_t c0 k := by
  have e10 : c1 0 = c0 0 := h1 0 (by decide)
  have e11 : c1 1 = c0 1 := h1 1 (by decide)
  have e12 : c1 2 = c0 2 := h1 2 (by decide)
  have e13 : c1 3 = c0 3 := h1 3 (by decide)
  have e14 : c1 4 = c0 4 := h1 4 (by decide)
  have e20 : c2 0 = c0 0 := h2 0 (by decide)
  have e21 : c2 1 = c0 1 := h2 1 (by decide)
  have e22 : c2 2 = c0 2 := h2 2 (by decide)
  have e23 : c2 3 = c0 3 := h2 3 (by decide)
  have e24 : c2 4 = c0 4 := h2 4 (by decide)
  fin_cases k <;>
    simp [predictSigmaPoint, e10, e11, e12, e13, e14, e20, e21, e22, e23, e24, h5, h6,
      h15, h16] <;>
    (try split_ifs) <;> ring

/-- The quadratic form of a weighted sum of outer products `d i * (d i)ᵀ` is the weighted sum
of the squares of the projections `v ⬝ᵥ d i`. -/
theorem quadForm_sum_vecMulVec {n : Nat} (w : Fin 15 → K) (d : Fin 15 → Fin n → K)
    (v : Fin n → K) :
    v ⬝ᵥ (∑ i, w i • vecMulVec (d i) (d i)).mulVec v
      = ∑ i, w i * ((v ⬝ᵥ d i) * (v ⬝ᵥ d i)) := by
  have hadd : ∀ t : Finset (Fin 15), v ⬝ᵥ (∑ i ∈ t, w i • vecMulVec (d i) (d i)).mulVec v
      = ∑ i ∈ t, v ⬝ᵥ (w i • vecMulVec (d i) (d i)).mulVec v := by
    intro t
    induction t using Finset.induction_on with
    | empty => simp
    | insert hi ih =>
      rw [Finset.sum_insert hi, Finset.sum_insert hi, Matrix.add_mulVec, Matrix.dotProduct_add, ih]
  rw [hadd]
  refine Finset.sum_congr rfl fun i _ => ?_
  have e : (vecMulVec (d i) (d i)).mulVec v = (v ⬝ᵥ d i) • d i := by
    funext a
    simp only [Matrix.mulVec, Matrix.dotProduct, vecMulVec_apply, Pi.smul_apply, smul_eq_mul,
      Finset.sum_mul]
    exact Finset.sum_congr rfl fun b _ => by ring
  rw [Matrix.smul_mulVec_assoc, e, Matrix.dotProduct_smul, Matrix.dotProduct_smul]
  simp only [smul_eq_mul]

/-- With the weights of the constructor's `lambda_` (`-2/5` for the central point, `1/10` for
the others) a weighted sum of squares is not negative when two of the seven pairs are
symmetric about the central value: these four squares outweigh the negative central term. -/
theorem sum_weighted_sq_pairs_nonneg (q : Fin 15 → K) (h5 : q 6 + q 13 = 2 * q 0)
    (h6 : q 7 + q 14 = 2 * q 0) : 0 ≤ ∑ i, setWeights ((3 : K) - 5) i * (q i * q i) := by
  have hw0 : setWeights ((3 : K) - 5) 0 = -(2 / 5) := by norm_num [setWeights]
  have hw : ∀ i : Fin 15, i ≠ 0 → setWeights ((3 : K) - 5) i = 1 / 10 := by
    intro i hi
    have : i.val ≠ 0 := fun h => hi (Fin.ext h)
    simp only [setWeights, this, if_false]
    norm_num
  have hsplit := Finset.sum_add_sum_compl ({0, 6, 13, 7, 14} : Finset (Fin 15))
    fun i => setWeights ((3 : K) - 5) i * (q i * q i)
  have hT : ∑ i ∈ ({0, 6, 13, 7, 14} : Finset (Fin 15)),
      setWeights ((3 : K) - 5) i * (q i * q i)
      = -(2 / 5) * (q 0 * q 0) + (1 / 10 * (q 6 * q 6) + (1 / 10 * (q 13 * q 13)
        + (1 / 10 * (q 7 * q 7) + 1 / 10 * (q 14 * q 14)))) := by
    rw [Finset.sum_insert (by decide), Finset.sum_insert (by decide),
      Finset.sum_insert (by decide), Finset.sum_insert (by decide), Finset.sum_singleton,
      hw0, hw 6 (by decide), hw 13 (by decide), hw 7 (by decide), hw 14 (by decide)]
  have hc : 0 ≤ ∑ i ∈ ({0, 6, 13, 7, 14} : Finset (Fin 15))ᶜ,
      setWeights ((3 : K) - 5) i * (q i * q i) := by
    refine Finset.sum_nonneg fun i hi => ?_
    have hi0 : i ≠ 0 := by
      rintro rfl
      exact (Finset.mem_compl.mp hi) (by decide)
    exact mul_nonneg (le_of_lt (setWeights_pos i hi0)) (mul_self_nonneg _)
  rw [← hsplit, hT]
  have e6 : q 6 = 2 * q 0 - q 13 := by linarith
  have e7 : q 7 = 2 * q 0 - q 14 := by linarith
  rw [e6, e7]
  have key : -(2 / 5) * (q 0 * q 0) + (1 / 10 * ((2 * q 0 - q 13) * (2 * q 0 - q 13))
      + (1 / 10 * (q 13 * q 13) + (1 / 10 * ((2 * q 0 - q 14) * (2 * q 0 - q 14))
      + 1 / 10 * (q 14 * q 14))))
      = 1 / 5 * ((q 0 - q 13) * (q 0 - q 13)) + 1 / 5 * ((q 0 - q 14) * (q 0 - q 14)) := by
    ring
  rw [key]
  exact add_nonneg (add_nonneg (mul_nonneg (by norm_num) (mul_self_nonneg _))
    (mul_nonneg (by norm_num) (mul_self_nonneg _))) hc

/-- Normalizing entry `k` of two vectors whose entries `k` are opposite gives opposite
entries `k`. -/
theorem normalizeEntry_neg_entry {n : Nat} (f g : ℕ) (k : Fin n) (v v1 a a1 : Fin n → K)
    (h : normalizeEntry f k v = some a) (h1 : normalizeEntry g k v1 = some a1)
    (hv : v1 k = -v k) : a1 k = -a k := by
  simp only [normalizeEntry, Option.map_eq_some'] at h h1
  obtain ⟨b, hb, rfl⟩ := h
  obtain ⟨b1, hb1, rfl⟩ := h1
  rw [hv] at hb1
  have := normalizeAngle_det g f (-v k) b1 (-b) hb1 (normalizeAngle_neg f (v k) b hb)
  simp [this]

/-- When the factor returned by `llt` is lower triangular, the two predicted sigma points of a
noise column (columns 5 and 6 of the factor) are symmetric about the central predicted sigma
point, in every entry. -/
theorem predictedSigmaPoints_noise_pair (m : Numerics K) (s : UKF K) (delta_t : K)
    (hL : ∀ i j : Fin 7, i < j →
      m.llt (augmentedCovariance s.P_ s.std_a_ s.std_yawdd_) i j = 0)
    (j : Fin 7) (hj : 5 ≤ j.val) (k : Fin 5) :
    predictedSigmaPoints m s delta_t k ⟨j.val + 1, by omega⟩
      + predictedSigmaPoints m s delta_t k ⟨j.val + 8, by omega⟩
      = 2 * predictedSigmaPoints m s delta_t k 0 := by
  have h1 : j.val + 1 ≠ 0 := by omega
  have h2 : j.val + 1 < 8 := by omega
  have h3 : j.val + 8 ≠ 0 := by omega
  have h4 : ¬ j.val + 8 < 8 := by omega
  simp only [predictedSigmaPoints, predictSigmaPoints]
  refine predictSigmaPoint_noise_pair m delta_t _ _ _ (fun k1 hk1 => ?_) (fun k1 hk1 => ?_)
    rfl rfl ?_ ?_ k
  · have hz := hL k1 j (Fin.lt_def.mpr (by omega))
    simp [colOf, sigmaPointsOf, augmentedSigmaPoints, h2, hz]
  · have hz := hL k1 j (Fin.lt_def.mpr (by omega))
    simp [colOf, sigmaPointsOf, augmentedSigmaPoints, hz]
  · have a5 : augmentedMean s.x_ 5 = 0 := rfl
    simp [colOf, sigmaPointsOf, augmentedSigmaPoints, h2, a5]
  · have a6 : augmentedMean s.x_ 6 = 0 := rfl
    simp [colOf, sigmaPointsOf, augmentedSigmaPoints, h2, a6]

/-- The heading entries of the two predicted sigma points of every column of the factor are
symmetric about the heading of the central predicted sigma point, and this heading is the
heading of the predicted mean. -/
theorem predictedSigmaPoints_yaw_pair (m : Numerics K) (s : UKF K) (delta_t : K)
    (h : s.lambda_ + 7 ≠ 0) :
    predictedSigmaPoints m s delta_t 3 0 = predictedMean m s delta_t 3 ∧
    ∀ j : Fin 7,
      predictedSigmaPoints m s delta_t 3 ⟨j.val + 1, by omega⟩
        + predictedSigmaPoints m s delta_t 3 ⟨j.val + 8, by omega⟩
        = 2 * predictedSigmaPoints m s delta_t 3 0 := by
  have a3 : augmentedMean s.x_ 3 = s.x_ 3 := rfl
  have a4 : augmentedMean s.x_ 4 = s.x_ 4 := rfl
  have a6 : augmentedMean s.x_ 6 = 0 := rfl
  refine ⟨?_, fun j => ?_⟩
  · rw [(predictedMean_linear m s delta_t h).2.1]
    simp [predictedSigmaPoints, predictSigmaPoints, (predictSigmaPoint_linear m delta_t _).2.1,
      colOf, sigmaPointsOf, augmentedSigmaPoints, a3, a4, a6]
  · have h2 : j.val + 1 < 8 := by omega
    simp only [predictedSigmaPoints, predictSigmaPoints,
      (predictSigmaPoint_linear m delta_t _).2.1]
    simp [colOf, sigmaPointsOf, augmentedSigmaPoints, h2]
    ring

/-- The heading-normalized residuals of the two predicted sigma points of a noise column are
symmetric about the residual of the central point, when the factor returned by `llt` is lower
triangular. -/
theorem residual_noise_pair (m : Numerics K) (fuel : Nat) (s : UKF K) (delta_t : K)
    (h : s.lambda_ + 7 ≠ 0)
    (hL : ∀ i j : Fin 7, i < j →
      m.llt (augmentedCovariance s.P_ s.std_a_ s.std_yawdd_) i j = 0)
    (d : Fin 15 → Fin 5 → K)
    (hd : ∀ i, normalizeEntry fuel 3
      (colOf (predictedSigmaPoints m s delta_t) i - predictedMean m s delta_t) = some (d i))
    (j : Fin 7) (hj : 5 ≤ j.val) :
    d ⟨j.val + 1, by omega⟩ + d ⟨j.val + 8, by omega⟩ = (2 : K) • d 0 := by
  have hpi : (0 : K) < M_PI := M_PI_pos
  obtain ⟨hc, hy⟩ := predictedSigmaPoints_yaw_pair m s delta_t h
  have hN := fun i => normalizeEntry_sound fuel 3 _ _ (hd i)
  have h0 : d 0 = colOf (predictedSigmaPoints m s delta_t) 0 - predictedMean m s delta_t := by
    refine (hN 0).2.2.2.2 ?_ ?_ <;>
      simp only [Pi.sub_apply, colOf, hc, sub_self] <;> linarith
  have h03 : d 0 3 = 0 := by
    rw [h0]; simp only [Pi.sub_apply, colOf, hc, sub_self]
  funext k
  simp only [Pi.add_apply, Pi.smul_apply, smul_eq_mul]
  by_cases hk : k = 3
  · subst hk
    have hneg : (colOf (predictedSigmaPoints m s delta_t) ⟨j.val + 8, by omega⟩
          - predictedMean m s delta_t) 3
        = -(colOf (predictedSigmaPoints m s delta_t) ⟨j.val + 1, by omega⟩
          - predictedMean m s delta_t) 3 := by
      simp only [Pi.sub_apply, colOf]
      have := hy j
      rw [hc] at this
      linarith
    rw [normalizeEntry_neg_entry fuel fuel 3 _ _ _ _ (hd ⟨j.val + 1, by omega⟩)
      (hd ⟨j.val + 8, by omega⟩) hneg, h03]
    ring
  · rw [(hN _).1 k hk, (hN _).1 k hk, (hN _).1 k hk]
    simp only [Pi.sub_apply, colOf]
    have := predictedSigmaPoints_noise_pair m s delta_t hL j hj k
    linarith

/-- With the constructor's `lambda_ = 3 - 5` and a lower-triangular factor returned by `llt`,
the covariance that `Prediction` stores is positive semi-definite: the four sigma points of
the two noise columns outweigh the negative weight of the central point. -/
theorem Prediction_posSemidef (m : Numerics K) (fuel : Nat) (s s1 : UKF K) (delta_t : K)
    (hl : s.lambda_ = 3 - 5)
    (hL : ∀ i j : Fin 7, i < j →
      m.llt (augmentedCovariance s.P_ s.std_a_ s.std_yawdd_) i j = 0)
    (h : Prediction m fuel s delta_t = some s1) : IsPosSemidef s1.P_ := by
  have hne : s.lambda_ + 7 ≠ 0 := by rw [hl]; exact lambda_construct_ne
  obtain ⟨P, hP, rfl⟩ := (Prediction_eq_some_iff m fuel s s1 delta_t).mp h
  rw [predictCovariance_eq] at hP
  obtain ⟨d, rfl, hd, -⟩ := measurementCovariance_eq_some _ _ _ _ _ _ hP
  intro v
  show 0 ≤ v ⬝ᵥ (∑ i, setWeights s.lambda_ i • vecMulVec (d i) (d i)).mulVec v
  rw [quadForm_sum_vecMulVec, hl]
  have p5 := residual_noise_pair m fuel s delta_t hne hL d hd 5 (by decide)
  have p6 := residual_noise_pair m fuel s delta_t hne hL d hd 6 (by decide)
  refine sum_weighted_sq_pairs_nonneg (fun i => v ⬝ᵥ d i) ?_ ?_
  · show v ⬝ᵥ d 6 + v ⬝ᵥ d 13 = 2 * (v ⬝ᵥ d 0)
    rw [← Matrix.dotProduct_add]
    erw [p5]
    rw [Matrix.dotProduct_smul, smul_eq_mul]
  · show v ⬝ᵥ d 7 + v ⬝ᵥ d 14 = 2 * (v ⬝ᵥ d 0)
    rw [← Matrix.dotProduct_add]
    erw [p6]
    rw [Matrix.dotProduct_smul, smul_eq_mul]

/-- One step of the Cholesky recurrence keeps the entries above the diagonal zero. -/
theorem choleskyColumn_upper (sqrt : K → K) (A L : Matrix (Fin 7) (Fin 7) K) (j : Fin 7)
    (h : ∀ i c : Fin 7, i < c → L i c = 0) :
    ∀ i c : Fin 7, i < c → choleskyColumn sqrt A L j i c = 0 := by
  intro i c hic
  simp only [choleskyColumn]
  by_cases hc : c = j
  · subst hc
    rw [if_pos rfl, if_neg (ne_of_lt hic), if_neg (not_lt_of_gt hic)]
  · rw [if_neg hc]; exact h i c hic

/-- The matrix returned by the Cholesky recurrence is lower triangular, for every input. -/
theorem cholesky_upper (sqrt : K → K) (A : Matrix (Fin 7) (Fin 7) K) :
    ∀ i c : Fin 7, i < c → cholesky sqrt A i c = 0 := by
  have key : ∀ (l : List (Fin 7)) (L0 : Matrix (Fin 7) (Fin 7) K),
      (∀ i c : Fin 7, i < c → L0 i c = 0) →
      ∀ i c : Fin 7, i < c → l.foldl (choleskyColumn sqrt A) L0 i c = 0 := by
    intro l
    induction l with
    | nil => intro L0 h; simpa using h
    | cons j l ih =>
      intro L0 h
      rw [List.foldl_cons]
      exact ih _ (choleskyColumn_upper sqrt A L0 j h)
  exact key _ 0 fun _ _ _ => rfl

/-- The identity matrix is positive definite. -/
theorem one_posDef {n : Nat} : IsPosDef (1 : Matrix (Fin n) (Fin n) K) := by
  refine ⟨Matrix.isSymm_one, fun v hv => ?_⟩
  rw [Matrix.one_mulVec]
  have h0 : 0 ≤ v ⬝ᵥ v := Finset.sum_nonneg fun i _ => mul_self_nonneg (v i)
  exact lt_of_le_of_ne h0 fun h => hv (Matrix.dotProduct_self_eq_zero.mp h.symm)

/-! ## The laser update after a prediction -/

/-- The predicted laser measurement mean is the weighted mean of the position entries of the
predicted sigma points, and the position entries of column `i` of `Zsig` in `UpdateLidar` are
those of the predicted sigma point `i`. -/
theorem lidarZpred_apply (s : UKF K) (k : Fin 2) :
    lidarZpred s k = weightedMean s.weights_ s.Xsig_pred_ (Fin.castLE (by omega) k) ∧
    ∀ i, lidarZsig s.Xsig_pred_ k i = s.Xsig_pred_ (Fin.castLE (by omega) k) i := by
  have h : ∀ i, lidarZsig s.Xsig_pred_ k i = s.Xsig_pred_ (Fin.castLE (by omega) k) i := by
    intro i
    fin_cases k
    · simp [lidarZsig]
    · simp [lidarZsig]; rfl
  refine ⟨?_, h⟩
  rw [lidarZpred, weightedMean_apply, weightedMean_apply]
  exact Finset.sum_congr rfl fun i _ => by rw [h]

/-- In a state just produced by `Prediction` in which the y-residual of every sigma point lies
in `[-M_PI, M_PI]`, the matrix `Tc` of `UpdateLidar` is the first two columns of `P_` and the
matrix `S` is the top-left block of `P_` plus the laser noise matrix. -/
theorem lidar_after_prediction (m : Numerics K) (fuel0 : Nat) (s0 s : UKF K) (delta_t : K)
    (hpred : Prediction m fuel0 s0 delta_t = some s)
    (hy : ∀ i, -M_PI ≤ s.Xsig_pred_ 1 i - s.x_ 1 ∧ s.Xsig_pred_ 1 i - s.x_ 1 ≤ M_PI)
    (fuel : Nat) (S : Matrix (Fin 2) (Fin 2) K) (Tc : Matrix (Fin 5) (Fin 2) K)
    (hS : lidarS fuel s = some S) (hT : lidarTc fuel s = some Tc) :
    (∀ r c, Tc r c = s.P_ r (Fin.castLE (by omega) c)) ∧
    (∀ a b, S a b
      = s.P_ (Fin.castLE (by omega) a) (Fin.castLE (by omega) b) + lidarR s a b) := by
  obtain ⟨P, hP, hs⟩ := (Prediction_eq_some_iff m fuel0 s0 s delta_t).mp hpred
  rw [predictCovariance_eq] at hP
  obtain ⟨d, rfl, hd, hN⟩ := measurementCovariance_eq_some _ _ _ _ _ _ hP
  have hX : s.Xsig_pred_ = predictedSigmaPoints m s0 delta_t := by rw [hs]
  have hw : s.weights_ = setWeights s0.lambda_ := by rw [hs]
  have hx : s.x_ = predictedMean m s0 delta_t := by rw [hs]
  have hPs : s.P_ = ∑ i, setWeights s0.lambda_ i • vecMulVec (d i) (d i) := by rw [hs]
  have hzp : ∀ k : Fin 2, lidarZpred s k = s.x_ (Fin.castLE (by omega) k) := fun k => by
    rw [(lidarZpred_apply s k).1, hx, hw, hX]; rfl
  have hres : ∀ i (k : Fin 2), (colOf (lidarZsig s.Xsig_pred_) i - lidarZpred s) k
      = s.Xsig_pred_ (Fin.castLE (by omega) k) i - s.x_ (Fin.castLE (by omega) k) :=
    fun i k => by
      simp only [Pi.sub_apply, colOf, (lidarZpred_apply s k).2, hzp]
  have hr1 : ∀ i, -M_PI ≤ (colOf (lidarZsig s.Xsig_pred_) i - lidarZpred s) 1 ∧
      (colOf (lidarZsig s.Xsig_pred_) i - lidarZpred s) 1 ≤ M_PI := fun i => by
    rw [hres i 1]; exact hy i
  have hdk : ∀ i (k : Fin 2), d i (Fin.castLE (by omega) k)
      = s.Xsig_pred_ (Fin.castLE (by omega) k) i - s.x_ (Fin.castLE (by omega) k) :=
    fun i k => by
      rw [(hN i).1 _ (by fin_cases k <;> decide), hX, hx]; rfl
  constructor
  · simp only [lidarTc] at hT
    obtain ⟨dx, dz, rfl, hdxz, hNxz⟩ := crossCorrelation_eq_some _ _ _ _ _ _ _ _ hT
    intro r c
    rw [hPs]
    simp only [Matrix.sum_apply, Matrix.smul_apply, vecMulVec_apply, smul_eq_mul]
    refine Finset.sum_congr rfl fun i _ => ?_
    have e1 : dx i = d i := by
      have h1 := (hdxz i).1
      rw [hX, hx] at h1
      exact normalizeEntry_det fuel fuel0 3 _ _ _ h1 (hd i)
    have e2 : dz i = colOf (lidarZsig s.Xsig_pred_) i - lidarZpred s :=
      (hNxz i).2.2.2.2.2 (hr1 i).1 (hr1 i).2
    rw [e1, e2, hres, hdk, hw]
  · simp only [lidarS, Option.map_eq_some'] at hS
    obtain ⟨S0, hS0, rfl⟩ := hS
    obtain ⟨e, rfl, -, hNe⟩ := measurementCovariance_eq_some _ _ _ _ _ _ hS0
    intro a b
    rw [hPs]
    simp only [Matrix.add_apply, Matrix.sum_apply, Matrix.smul_apply, vecMulVec_apply,
      smul_eq_mul]
    congr 1
    refine Finset.sum_congr rfl fun i _ => ?_
    have e2 : e i = colOf (lidarZsig s.Xsig_pred_) i - lidarZpred s :=
      (hNe i).2.2.2.2 (hr1 i).1 (hr1 i).2
    rw [e2, hres, hres, hdk, hdk, hw]

/-- Multiplying by `lidarH` from the left selects the first two rows, multiplying by its
transpose from the right selects the first two columns, and `lidarH` applied to a vector
selects its first two entries. -/
theorem lidarH_select {n : Nat} (M : Matrix (Fin 5) (Fin n) K) (N : Matrix (Fin n) (Fin 5) K)
    (x : Fin 5 → K) (a : Fin 2) (b : Fin n) :
    ((lidarH : Matrix (Fin 2) (Fin 5) K) * M) a b = M (Fin.castLE (by omega) a) b ∧
    (N * (lidarH : Matrix (Fin 2) (Fin 5) K)ᵀ) b a = N b (Fin.castLE (by omega) a) ∧
    (lidarH : Matrix (Fin 2) (Fin 5) K).mulVec x a = x (Fin.castLE (by omega) a) := by
  refine ⟨?_, ?_, ?_⟩ <;>
    fin_cases a <;>
      simp [Matrix.mul_apply, Matrix.mulVec, Matrix.dotProduct, lidarH, Fin.sum_univ_five,
        Matrix.vecHead, Matrix.vecTail] <;>
      rfl

/-- The y-residuals of the sigma points that `Prediction` with `delta_t = 0` computes for the
filter `UKF.tracking` over the real numbers lie in `[-M_PI, M_PI]`: they are 0 except for the
two points of column 1 of the factor, where they are `± sqrt 5 * sqrt 0.6`. -/
theorem tracking_y_residual (i : Fin 15) :
    -M_PI ≤ predictedSigmaPoints realNumerics (UKF.tracking : UKF ℝ) 0 1 i
        - predictedMean realNumerics (UKF.tracking : UKF ℝ) 0 1 ∧
    predictedSigmaPoints realNumerics (UKF.tracking : UKF ℝ) 0 1 i
        - predictedMean realNumerics (UKF.tracking : UKF ℝ) 0 1 ≤ M_PI := by
  have hl : (UKF.tracking : UKF ℝ).lambda_ + 7 ≠ 0 := by
    norm_num [UKF.tracking, UKF.fresh, UKF.construct]
  have hpi : (3 : ℝ) ≤ M_PI := by norm_num [M_PI]
  have hL : realNumerics.llt (augmentedCovariance (UKF.tracking : UKF ℝ).P_
      (UKF.tracking : UKF ℝ).std_a_ (UKF.tracking : UKF ℝ).std_yawdd_)
      = Matrix.diagonal fun i =>
        Real.sqrt ((![0.6, 0.6, 6, 7.5, 0, (0.5 : ℝ) * 0.5, 0.725 * 0.725] : Fin 7 → ℝ) i) := by
    show cholesky Real.sqrt (augmentedCovariance (initialCovariance : Matrix (Fin 5) (Fin 5) ℝ)
      0.5 0.725) = _
    rw [augmentedCovariance_initial, cholesky_diagonal]
  have hc0 : (0 : ℝ) ≤ realNumerics.sqrt ((UKF.tracking : UKF ℝ).lambda_ + 7) :=
    Real.sqrt_nonneg _
  have hc3 : realNumerics.sqrt ((UKF.tracking : UKF ℝ).lambda_ + 7) ≤ 3 := by
    show Real.sqrt ((UKF.tracking : UKF ℝ).lambda_ + 7) ≤ 3
    rw [show (3 : ℝ) = Real.sqrt 9 by
      rw [show (9 : ℝ) = 3 * 3 by norm_num, Real.sqrt_mul_self (by norm_num)]]
    exact Real.sqrt_le_sqrt (by norm_num [UKF.tracking, UKF.fresh, UKF.construct])
  have hLb : ∀ j : Fin 7, 0 ≤ realNumerics.llt (augmentedCovariance (UKF.tracking : UKF ℝ).P_
      (UKF.tracking : UKF ℝ).std_a_ (UKF.tracking : UKF ℝ).std_yawdd_) 1 j ∧
      realNumerics.llt (augmentedCovariance (UKF.tracking : UKF ℝ).P_
      (UKF.tracking : UKF ℝ).std_a_ (UKF.tracking : UKF ℝ).std_yawdd_) 1 j ≤ 1 := by
    intro j
    rw [hL]
    by_cases hj : (1 : Fin 7) = j
    · subst hj
      rw [Matrix.diagonal_apply_eq]
      refine ⟨Real.sqrt_nonneg _, ?_⟩
      rw [show (1 : ℝ) = Real.sqrt 1 by simp]
      exact Real.sqrt_le_sqrt (by simp [Matrix.vecHead, Matrix.vecTail]; norm_num)
    · rw [Matrix.diagonal_apply_ne _ hj]; exact ⟨le_refl _, zero_le_one⟩
  have hx : predictedMean realNumerics (UKF.tracking : UKF ℝ) 0 1
      = augmentedMean (UKF.tracking : UKF ℝ).x_ 1 := by
    rw [predictedMean_zero _ _ hl]; rfl
  have hX : predictedSigmaPoints realNumerics (UKF.tracking : UKF ℝ) 0 1 i
      = sigmaPointsOf realNumerics (UKF.tracking : UKF ℝ) 1 i := by
    simp only [predictedSigmaPoints, predictSigmaPoints]
    rw [predictSigmaPoint_zero]; rfl
  rw [hx, hX]
  simp only [sigmaPointsOf, augmentedSigmaPoints]
  split_ifs with h1 h2
  · rw [sub_self]; constructor <;> linarith
  · have hj := hLb ⟨i.val - 1, by omega⟩
    have p0 := mul_nonneg hc0 hj.1
    have p1 := mul_le_mul hc3 hj.2 hj.1 (by norm_num : (0 : ℝ) ≤ 3)
    constructor <;> linarith
  · have hj := hLb ⟨i.val - 8, by omega⟩
    have p0 := mul_nonneg hc0 hj.1
    have p1 := mul_le_mul hc3 hj.2 hj.1 (by norm_num : (0 : ℝ) ≤ 3)
    constructor <;> linarith

/-- The predicted measurement mean of the laser update in the state `UKF.spread`. -/
theorem spread_zpred : lidarZpred (UKF.spread : UKF ℚ) = ![1, 2] := by
  funext k
  rw [lidarZpred, weightedMean_apply]
  fin_cases k
  · simp [Fin.sum_univ_succ, UKF.spread, setWeights, lidarZsig]
    norm_num
  · simp [Fin.sum_univ_succ, UKF.spread, setWeights, lidarZsig]
    norm_num

/-! ## The example states of the two updates -/

/-- A weighted sum of outer products of multiples of two fixed vectors is a multiple of the
outer product of these vectors. -/
theorem sum_smul_vecMulVec {r n : Nat} (w a b : Fin 15 → K) (u : Fin r → K) (v : Fin n → K) :
    ∑ i, w i • vecMulVec (a i • u) (b i • v) = (∑ i, w i * (a i * b i)) • vecMulVec u v := by
  ext p q
  simp only [Matrix.sum_apply, Matrix.smul_apply, vecMulVec_apply, Pi.smul_apply, smul_eq_mul,
    Finset.sum_mul]
  exact Finset.sum_congr rfl fun i _ => by ring

/-- In the state `UKF.spread` the residuals of the sigma points in state space and in
measurement space are multiples of the unit vector of the y position: the factor is 1 for
point 2, -1 for point 9 and 0 for the others. -/
theorem spread_residuals (i : Fin 15) :
    colOf (UKF.spread : UKF ℚ).Xsig_pred_ i - (UKF.spread : UKF ℚ).x_
      = (if i.val = 2 then (1 : ℚ) else if i.val = 9 then -1 else 0) • ![0, 1, 0, 0, 0] ∧
    colOf (lidarZsig (UKF.spread : UKF ℚ).Xsig_pred_) i - lidarZpred UKF.spread
      = (if i.val = 2 then (1 : ℚ) else if i.val = 9 then -1 else 0) • ![0, 1] := by
  rw [spread_zpred]
  constructor
  · funext k
    by_cases h2 : i.val = 2
    · fin_cases k <;> simp [colOf, UKF.spread, UKF.tracking, h2]
      norm_num
    · by_cases h9 : i.val = 9
      · fin_cases k <;> simp [colOf, UKF.spread, UKF.tracking, h9]
        norm_num
      · fin_cases k <;> simp [colOf, UKF.spread, UKF.tracking, h2, h9]
  · funext k
    by_cases h2 : i.val = 2
    · fin_cases k <;> simp [colOf, lidarZsig, UKF.spread, h2]
      norm_num
    · by_cases h9 : i.val = 9
      · fin_cases k <;> simp [colOf, lidarZsig, UKF.spread, h9]
        norm_num
      · fin_cases k <;> simp [colOf, lidarZsig, UKF.spread, h2, h9]

/-- In the state `UKF.spread` the y-residual of every sigma point lies in `[-1, 1]`. -/
theorem spread_residual (i : Fin 15) :
    -1 ≤ (colOf (lidarZsig (UKF.spread : UKF ℚ).Xsig_pred_) i - lidarZpred UKF.spread
      : Fin 2 → ℚ) 1 ∧
    (colOf (lidarZsig (UKF.spread : UKF ℚ).Xsig_pred_) i - lidarZpred UKF.spread
      : Fin 2 → ℚ) 1 ≤ 1 := by
  rw [(spread_residuals i).2]
  by_cases h2 : i.val = 2
  · simp [h2]
  · by_cases h9 : i.val = 9
    · simp [h9]
    · simp [h2, h9]

/-- The weighted sum of the squares of the factors of `spread_residuals`. -/
theorem spread_sum : ∑ i : Fin 15, setWeights ((3 : ℚ) - 5) i
    * ((if i.val = 2 then (1 : ℚ) else if i.val = 9 then -1 else 0)
      * (if i.val = 2 then (1 : ℚ) else if i.val = 9 then -1 else 0)) = 1 / 5 := by
  simp [Fin.sum_univ_succ, setWeights]
  norm_num

/-- The matrix `S` of the laser update in the state `UKF.spread`. -/
theorem spread_S (fuel : ℕ) (hf : 1 ≤ fuel) :
    lidarS fuel (UKF.spread : UKF ℚ) = some !![9/400, 0; 0, 89/400] := by
  have hpi : (1 : ℚ) ≤ M_PI := by norm_num [M_PI]
  rw [lidarS, measurementCovariance_of_mem fuel hf]
  · simp only [Option.map_some', Option.some.injEq]
    simp_rw [fun i => (spread_residuals i).2]
    rw [show (UKF.spread : UKF ℚ).weights_ = setWeights (3 - 5) from rfl,
      sum_smul_vecMulVec, spread_sum]
    ext a b
    fin_cases a <;> fin_cases b <;>
      · simp [lidarR, vecMulVec, UKF.spread, UKF.tracking, UKF.fresh, UKF.construct]
        try norm_num
  · intro i
    have := spread_residual i
    constructor <;> linarith [this.1, this.2]

/-- The matrix `Tc` of the laser update in the state `UKF.spread`. -/
theorem spread_Tc (fuel : ℕ) (hf : 1 ≤ fuel) : lidarTc fuel (UKF.spread : UKF ℚ)
    = some (Matrix.of fun k j => if k = 1 ∧ j = 1 then 1/5 else 0) := by
  have hpi : (1 : ℚ) ≤ M_PI := by norm_num [M_PI]
  rw [lidarTc, crossCorrelation_of_mem fuel hf]
  · simp only [Option.some.injEq]
    simp_rw [fun i => (spread_residuals i).2, fun i => (spread_residuals i).1]
    rw [show (UKF.spread : UKF ℚ).weights_ = setWeights (3 - 5) from rfl,
      sum_smul_vecMulVec, spread_sum]
    ext a b
    fin_cases a <;> fin_cases b <;> simp [vecMulVec]
  · intro i
    have := spread_residual i
    constructor <;> linarith [this.1, this.2]
  · intro i
    rw [(spread_residuals i).1]
    have hpi0 : (0 : ℚ) < M_PI := M_PI_pos
    constructor <;> simp <;> linarith

/-- The innovation of the measurement `laserFar` in the state `UKF.spread` is `(0, 4)`; the
angle normalization of its entry 1 replaces it by `(0, 4 - 2 * M_PI)`. -/
theorem spread_innovation :
    lidarZ laserFar - lidarZpred (UKF.spread : UKF ℚ) = ![0, 4] ∧
    normalizeEntry 2 1 (lidarZ laserFar - lidarZpred (UKF.spread : UKF ℚ))
      = some ![0, 4 - 2 * M_PI] := by
  have e : lidarZ laserFar - lidarZpred (UKF.spread : UKF ℚ) = ![0, 4] := by
    rw [spread_zpred]
    funext k
    fin_cases k
    · simp [lidarZ, laserFar]
    · simp [lidarZ, laserFar]; norm_num
  refine ⟨e, ?_⟩
  rw [e]
  have h1 : (4 : ℚ) > M_PI := by norm_num [M_PI]
  have h2 : ¬ ((4 : ℚ) - 2 * M_PI > M_PI) := by norm_num [M_PI]
  have h3 : ¬ ((4 : ℚ) - 2 * M_PI < -M_PI) := by norm_num [M_PI]
  have hn : normalizeAngle 2 (4 : ℚ) = some (4 - 2 * M_PI) := by
    simp only [normalizeAngle, whileAbove, whileBelow, if_pos h1, if_neg h2, Option.some_bind,
      if_neg h3]
  simp only [normalizeEntry, Matrix.cons_val_one, Matrix.head_cons, hn, Option.map_some',
    Option.some.injEq]
  funext k
  fin_cases k <;> simp [Function.update]

/-- The matrix `inverse` of a diagonal matrix with no zero entry is the diagonal matrix of the
inverses. -/
theorem inverse_diagonal {n : Nat} (d : Fin n → K) (h : ∀ i, d i ≠ 0) :
    inverse (Matrix.diagonal d) = Matrix.diagonal fun i => (d i)⁻¹ := by
  have e : inverse (Matrix.diagonal d) = (Matrix.diagonal d)⁻¹ := by
    rw [inverse, Matrix.inv_def, Ring.inverse_eq_inv']
  rw [e]
  refine Matrix.inv_eq_right_inv ?_
  rw [Matrix.diagonal_mul_diagonal, ← Matrix.diagonal_one]
  exact congrArg Matrix.diagonal (funext fun i => mul_inv_cancel₀ (h i))

/-- The radar noise matrix is diagonal. -/
theorem radarR_diagonal (s : UKF K) :
    radarR s = Matrix.diagonal ![s.std_radr_ * s.std_radr_, s.std_radphi_ * s.std_radphi_,
      s.std_radrd_ * s.std_radrd_] := by
  funext a b
  fin_cases a <;> fin_cases b <;> simp [radarR, Matrix.vecHead, Matrix.vecTail]

/-- Over the real numbers every column of `Zsig` in `UpdateRadar` is `(1, π, 0)` in the state
`UKF.behind`, and so is the predicted measurement mean. -/
theorem behind_zsig :
    (∀ i, colOf (radarZsig realNumerics (UKF.behind : UKF ℝ).Xsig_pred_) i
      = ![1, Real.pi, 0]) ∧
    radarZpred realNumerics (UKF.behind : UKF ℝ) = ![1, Real.pi, 0] := by
  have hc : ∀ i, colOf (radarZsig realNumerics (UKF.behind : UKF ℝ).Xsig_pred_) i
      = ![1, Real.pi, 0] := by
    intro i
    have harg : Complex.arg ⟨-1, 0⟩ = Real.pi := by
      rw [show (⟨-1, 0⟩ : ℂ) = -1 from Complex.ext (by simp) (by simp), Complex.arg_neg_one]
    funext k
    fin_cases k
    · simp [colOf, radarZsig, UKF.behind, realNumerics]
    · simp [colOf, radarZsig, UKF.behind, realNumerics, harg]
    · simp [colOf, radarZsig, UKF.behind, realNumerics]
  refine ⟨hc, ?_⟩
  funext k
  rw [radarZpred, weightedMean_apply]
  have hw : ∑ i, setWeights ((3 : ℝ) - 5) i = 1 := setWeights_sum _ lambda_construct_ne
  have hk : ∀ i, radarZsig realNumerics (UKF.behind : UKF ℝ).Xsig_pred_ k i
      = (![1, Real.pi, 0] : Fin 3 → ℝ) k := fun i => congrFun (hc i) k
  simp_rw [hk]
  rw [← Finset.sum_mul]
  show (∑ i, setWeights ((3 : ℝ) - 5) i) * _ = _
  rw [hw, one_mul]

/-- In the state `UKF.behind` every residual of the radar update is zero, so that `S` is the
noise matrix `R` and `Tc` is zero. -/
theorem behind_S_Tc (fuel : ℕ) (hf : 1 ≤ fuel) :
    radarS realNumerics fuel (UKF.behind : UKF ℝ) = some (radarR UKF.behind) ∧
    radarTc realNumerics fuel (UKF.behind : UKF ℝ) = some 0 := by
  have hpi : (0 : ℝ) < M_PI := M_PI_pos
  have hz : ∀ i, colOf (radarZsig realNumerics (UKF.behind : UKF ℝ).Xsig_pred_) i
      - radarZpred realNumerics UKF.behind = 0 := fun i => by
    rw [behind_zsig.1 i, behind_zsig.2, sub_self]
  have hx : ∀ i, colOf (UKF.behind : UKF ℝ).Xsig_pred_ i - (UKF.behind : UKF ℝ).x_ = 0 :=
    fun i => by
      funext k
      simp [colOf, UKF.behind]
  have hv3 : vecMulVec (0 : Fin 3 → ℝ) (0 : Fin 3 → ℝ) = 0 := by
    ext a b; simp [vecMulVec]
  have hv5 : vecMulVec (0 : Fin 5 → ℝ) (0 : Fin 3 → ℝ) = 0 := by
    ext a b; simp [vecMulVec]
  constructor
  · rw [radarS, measurementCovariance_of_mem fuel hf]
    · simp [hz, hv3]
    · intro i
      rw [hz]
      constructor <;> simp <;> linarith
  · rw [radarTc, crossCorrelation_of_mem fuel hf]
    · simp [hz, hx, hv5]
    · intro i
      rw [hz]
      constructor <;> simp <;> linarith
    · intro i
      rw [hx]
      constructor <;> simp <;> linarith

/-- The innovation of the measurement `radarBehind` in the state `UKF.behind` is
`(0, -3 - π, 0)`; the angle normalization of its entry 1 replaces it by
`(0, -3 - π + 2 * M_PI, 0)`. -/
theorem behind_innovation :
    radarBehind.raw_measurements_ - radarZpred realNumerics (UKF.behind : UKF ℝ)
      = ![0, -3 - Real.pi, 0] ∧
    normalizeEntry 2 1 (radarBehind.raw_measurements_
      - radarZpred realNumerics (UKF.behind : UKF ℝ))
      = some ![0, -3 - Real.pi + 2 * M_PI, 0] := by
  have e : radarBehind.raw_measurements_ - radarZpred realNumerics (UKF.behind : UKF ℝ)
      = ![0, -3 - Real.pi, 0] := by
    rw [behind_zsig.2]
    funext k
    fin_cases k
    · simp [radarBehind]
    · simp [radarBehind]
    · simp [radarBehind]
  refine ⟨e, ?_⟩
  rw [e]
  have p3 := Real.pi_gt_three
  have p4 := Real.pi_le_four
  have hM1 : (3.14 : ℝ) < M_PI := by norm_num [M_PI]
  have hM2 : (M_PI : ℝ) < 3.15 := by norm_num [M_PI]
  have h1 : ¬ (-3 - Real.pi > (M_PI : ℝ)) := by linarith
  have h2 : -3 - Real.pi < -(M_PI : ℝ) := by linarith
  have h3 : ¬ (-3 - Real.pi + 2 * M_PI < -(M_PI : ℝ)) := by linarith
  have hn : normalizeAngle 2 (-3 - Real.pi) = some (-3 - Real.pi + 2 * M_PI) := by
    simp only [normalizeAngle, whileAbove, whileBelow, if_neg h1, Option.some_bind,
      if_pos h2, if_neg h3]
  simp only [normalizeEntry, Matrix.cons_val_one, Matrix.head_cons, hn, Option.map_some',
    Option.some.injEq]
  funext k
  fin_cases k <;> simp [Function.update]

/-! ## The two branches of the process model -/

/-- The position entries of a predicted sigma point are those of the turning branch when
`|yawd| > 0.001` and those of the straight-line branch otherwise, plus the contribution of the
acceleration noise. -/
theorem predictSigmaPoint_branches (m : Numerics K) (delta_t : K) (c : Fin 7 → K) :
    predictSigmaPoint m delta_t c 0
      = (if |c 4| > 0.001 then (turningBranch m (c 0) (c 1) (c 2) (c 3) (c 4) delta_t).1
          else (straightBranch m (c 0) (c 1) (c 2) (c 3) delta_t).1)
        + 0.5 * c 5 * delta_t * delta_t * m.cos (c 3) ∧
    predictSigmaPoint m delta_t c 1
      = (if |c 4| > 0.001 then (turningBranch m (c 0) (c 1) (c 2) (c 3) (c 4) delta_t).2
          else (straightBranch m (c 0) (c 1) (c 2) (c 3) delta_t).2)
        + 0.5 * c 5 * delta_t * delta_t * m.sin (c 3) := by
  constructor <;> simp [predictSigmaPoint, turningBranch, straightBranch]

/-- Over the real numbers the position given by the turning branch tends to the position given
by the straight-line branch as the heading rate tends to 0 through values other than 0. -/
theorem turningBranch_tendsto (p_x p_y v yaw delta_t : ℝ) :
    Filter.Tendsto (fun yawd : ℝ => turningBranch realNumerics p_x p_y v yaw yawd delta_t)
      (nhdsWithin 0 {0}ᶜ) (nhds (straightBranch realNumerics p_x p_y v yaw delta_t)) := by
  have h1 : HasDerivAt (fun y : ℝ => yaw + y * delta_t) delta_t 0 := by
    simpa using ((hasDerivAt_id (0 : ℝ)).mul_const delta_t).const_add yaw
  have hs : HasDerivAt (fun y : ℝ => Real.sin (yaw + y * delta_t))
      (Real.cos (yaw + 0 * delta_t) * delta_t) 0 :=
    (Real.hasDerivAt_sin _).comp 0 h1
  have hc : HasDerivAt (fun y : ℝ => Real.cos (yaw + y * delta_t))
      (-Real.sin (yaw + 0 * delta_t) * delta_t) 0 :=
    (Real.hasDerivAt_cos _).comp 0 h1
  have ts := hasDerivAt_iff_tendsto_slope.mp hs
  have tc := hasDerivAt_iff_tendsto_slope.mp hc
  have ex : (fun yawd : ℝ => p_x + v / yawd
        * (Real.sin (yaw + yawd * delta_t) - Real.sin yaw))
      = fun yawd => p_x + v * slope (fun y : ℝ => Real.sin (yaw + y * delta_t)) 0 yawd := by
    funext y
    simp only [slope_def_field, zero_mul, add_zero, sub_zero]
    ring
  have ey : (fun yawd : ℝ => p_y + v / yawd
        * (Real.cos yaw - Real.cos (yaw + yawd * delta_t)))
      = fun yawd => p_y + -v * slope (fun y : ℝ => Real.cos (yaw + y * delta_t)) 0 yawd := by
    funext y
    simp only [slope_def_field, zero_mul, add_zero, sub_zero]
    ring
  refine Filter.Tendsto.prod_mk_nhds ?_ ?_
  · show Filter.Tendsto (fun yawd : ℝ => p_x + v / yawd
        * (Real.sin (yaw + yawd * delta_t) - Real.sin yaw)) _
      (nhds (p_x + v * delta_t * Real.cos yaw))
    rw [ex]
    have := (ts.const_mul v).const_add p_x
    simpa [mul_comm, mul_assoc, mul_left_comm] using this
  · show Filter.Tendsto (fun yawd : ℝ => p_y + v / yawd
        * (Real.cos yaw - Real.cos (yaw + yawd * delta_t))) _
      (nhds (p_y + v * delta_t * Real.sin yaw))
    rw [ey]
    have := (tc.const_mul (-v)).const_add p_y
    simpa [mul_comm, mul_assoc, mul_left_comm] using this

/-! ## Rounding to the nearest `double` -/

/-- The rounding to the nearest integer is the floor or the floor plus one, at distance at most
`1/2`. -/
theorem roundEven_bounds (q : ℚ) :
    ⌊q⌋ ≤ roundEven q ∧ roundEven q ≤ ⌊q⌋ + 1 ∧ |(roundEven q : ℚ) - q| ≤ 1 / 2 := by
  have h0 := Int.floor_le q
  have h1 := Int.lt_floor_add_one q
  unfold roundEven
  split_ifs with a b c
  · refine ⟨le_refl _, by omega, ?_⟩
    rw [abs_le]; constructor <;> linarith
  · refine ⟨by omega, le_refl _, ?_⟩
    rw [abs_le]; push_cast; constructor <;> linarith
  · refine ⟨le_refl _, by omega, ?_⟩
    rw [abs_le]; constructor <;> linarith
  · refine ⟨by omega, le_refl _, ?_⟩
    rw [abs_le]; push_cast; constructor <;> linarith

/-- An integer at distance less than `1/2` is the result of the rounding. -/
theorem roundEven_eq (q : ℚ) (n : ℤ) (h : |q - n| < 1 / 2) : roundEven q = n := by
  obtain ⟨h1, h2, h3⟩ := roundEven_bounds q
  rw [abs_lt] at h
  rw [abs_le] at h3
  have a1 : ((roundEven q : ℤ) : ℚ) - n < 1 := by linarith [h.1, h.2, h3.1, h3.2]
  have a2 : (-1 : ℚ) < (roundEven q : ℤ) - n := by linarith [h.1, h.2, h3.1, h3.2]
  have b1 : roundEven q - n < 1 := by exact_mod_cast a1
  have b2 : -1 < roundEven q - n := by exact_mod_cast a2
  omega

/-- The binary exponent of a number of the binade `[2^e, 2^(e+1))`. -/
theorem log_two_eq (x : ℚ) (e : ℤ) (h1 : 2 ^ e ≤ |x|) (h2 : |x| < 2 ^ (e + 1)) :
    Int.log 2 |x| = e := by
  have hpos : (0 : ℚ) < |x| := lt_of_lt_of_le (by positivity) h1
  have a := (Int.zpow_le_iff_le_log (R := ℚ) (b := 2) (by norm_num) hpos).mp
    (by exact_mod_cast h1)
  have b := (Int.lt_zpow_iff_log_lt (R := ℚ) (b := 2) (by norm_num) hpos).mp
    (by exact_mod_cast h2)
  omega

/-- The `double` nearest to a number of the binade `[2^e, 2^(e+1))`. -/
theorem roundDouble_eq (x : ℚ) (e n : ℤ) (h1 : 2 ^ e ≤ |x|) (h2 : |x| < 2 ^ (e + 1))
    (h : |x / 2 ^ (e - 52) - n| < 1 / 2) : roundDouble x = n * 2 ^ (e - 52) := by
  have hpos : (0 : ℚ) < |x| := lt_of_lt_of_le (by positivity) h1
  have hx : x ≠ 0 := abs_pos.mp hpos
  rw [roundDouble, if_neg hx, log_two_eq x e h1 h2, roundEven_eq _ n h]

/-- The relative error of the rounding to the nearest `double` is at most `2^(-53)`. -/
theorem roundDouble_err (x : ℚ) : |roundDouble x - x| ≤ |x| / 2 ^ 53 := by
  by_cases hx : x = 0
  · simp [roundDouble, hx]
  have hpos : (0 : ℚ) < |x| := abs_pos.mpr hx
  rw [roundDouble, if_neg hx]
  have hle := Int.zpow_log_le_self (R := ℚ) (b := 2) (by norm_num) hpos
  have hu : (0 : ℚ) < 2 ^ (Int.log 2 |x| - 52) := by positivity
  have hsplit : (2 : ℚ) ^ (Int.log 2 |x| - 52) = 2 ^ Int.log 2 |x| / 2 ^ 52 := by
    rw [zpow_sub₀ (by norm_num)]; norm_num
  obtain ⟨-, -, h3⟩ := roundEven_bounds (x / 2 ^ (Int.log 2 |x| - 52))
  have e : (roundEven (x / 2 ^ (Int.log 2 |x| - 52)) : ℚ) * 2 ^ (Int.log 2 |x| - 52) - x
      = ((roundEven (x / 2 ^ (Int.log 2 |x| - 52)) : ℚ) - x / 2 ^ (Int.log 2 |x| - 52))
        * 2 ^ (Int.log 2 |x| - 52) := by
    field_simp
  rw [e, abs_mul, abs_of_pos hu]
  have hc : ((2 : ℕ) : ℚ) ^ Int.log 2 |x| = (2 : ℚ) ^ Int.log 2 |x| := by norm_num
  rw [hc] at hle
  calc |(roundEven (x / 2 ^ (Int.log 2 |x| - 52)) : ℚ) - x / 2 ^ (Int.log 2 |x| - 52)|
        * 2 ^ (Int.log 2 |x| - 52)
      ≤ 1 / 2 * 2 ^ (Int.log 2 |x| - 52) := mul_le_mul_of_nonneg_right h3 hu.le
    _ = 2 ^ Int.log 2 |x| / 2 ^ 53 := by rw [hsplit]; ring
    _ ≤ |x| / 2 ^ 53 := by
      apply div_le_div_of_nonneg_right hle; positivity

/-- The `double` nearest to `M_PI` is `884279719003555 / 2^48`, and the product `2. * M_PI` is
exact. -/
theorem M_PI_double_eq :
    M_PI_double = 884279719003555 / 281474976710656 ∧
    roundDouble (2 * M_PI_double) = 884279719003555 / 140737488355328 := by
  have h1 : M_PI_double = 884279719003555 / 281474976710656 := by
    have hpos : (0 : ℚ) < M_PI := M_PI_pos
    rw [M_PI_double, roundDouble_eq M_PI 1 7074237752028440
      (by rw [abs_of_pos hpos]; norm_num [M_PI])
      (by rw [abs_of_pos hpos]; norm_num [M_PI]) (by norm_num [M_PI, abs_lt])]
    norm_num
  refine ⟨h1, ?_⟩
  rw [h1, roundDouble_eq _ 2 7074237752028440 (by norm_num [abs_of_pos])
      (by norm_num [abs_of_pos]) (by norm_num [abs_lt])]
  norm_num

/-- A value of the binade `[2, 4)` above `-M_PI_double` is rounded to a value that is not
below `-M_PI_double`, and one below `M_PI_double` to a value that is not above it. -/
theorem roundDouble_binade (y : ℚ) :
    (-M_PI_double < y → y ≤ -2 → -M_PI_double ≤ roundDouble y) ∧
    (2 ≤ y → y < M_PI_double → roundDouble y ≤ M_PI_double) := by
  rw [M_PI_double_eq.1]
  constructor
  · intro h1 h2
    have habs : |y| = -y := abs_of_neg (by linarith)
    have hy : y ≠ 0 := by linarith
    have hlog : Int.log 2 |y| = 1 := log_two_eq y 1 (by rw [habs]; norm_num; linarith)
      (by rw [habs]; norm_num; linarith)
    rw [roundDouble, if_neg hy, hlog]
    obtain ⟨hb, -, -⟩ := roundEven_bounds (y / 2 ^ ((1 : ℤ) - 52))
    have hf : (-7074237752028440 : ℤ) ≤ ⌊y / 2 ^ ((1 : ℤ) - 52)⌋ := by
      rw [Int.le_floor]
      norm_num
      linarith
    have hr : ((-7074237752028440 : ℤ) : ℚ) ≤ roundEven (y / 2 ^ ((1 : ℤ) - 52)) := by
      exact_mod_cast le_trans hf hb
    have hu : (0 : ℚ) ≤ 2 ^ ((1 : ℤ) - 52) := by positivity
    have := mul_le_mul_of_nonneg_right hr hu
    norm_num at this ⊢
    linarith
  · intro h1 h2
    have habs : |y| = y := abs_of_pos (by linarith)
    have hy : y ≠ 0 := by linarith
    have hlog : Int.log 2 |y| = 1 := log_two_eq y 1 (by rw [habs]; norm_num; linarith)
      (by rw [habs]; norm_num; linarith)
    rw [roundDouble, if_neg hy, hlog]
    obtain ⟨-, hb, -⟩ := roundEven_bounds (y / 2 ^ ((1 : ℤ) - 52))
    have hf : ⌊y / 2 ^ ((1 : ℤ) - 52)⌋ < (7074237752028440 : ℤ) := by
      rw [Int.floor_lt]
      norm_num
      linarith
    have hr : (roundEven (y / 2 ^ ((1 : ℤ) - 52)) : ℚ) ≤ ((7074237752028440 : ℤ) : ℚ) := by
      exact_mod_cast (by omega : roundEven (y / 2 ^ ((1 : ℤ) - 52)) ≤ 7074237752028440)
    have hu : (0 : ℚ) ≤ 2 ^ ((1 : ℤ) - 52) := by positivity
    have := mul_le_mul_of_nonneg_right hr hu
    norm_num at this ⊢
    linarith

/-- A value above `-M_PI_double` is rounded to a value that is not below `-M_PI_double`, and a
value below `M_PI_double` to a value that is not above `M_PI_double`. -/
theorem roundDouble_within (y : ℚ) :
    (-M_PI_double < y → -M_PI_double ≤ roundDouble y) ∧
    (y < M_PI_double → roundDouble y ≤ M_PI_double) := by
  have hb := roundDouble_binade y
  have he := roundDouble_err y
  rw [abs_le] at he
  have hpi := M_PI_double_eq.1
  constructor
  · intro h
    by_cases h2 : y ≤ -2
    · exact hb.1 h h2
    · push_neg at h2
      have ha : |y| / 2 ^ 53 ≤ |y| := div_le_self (abs_nonneg y) (by norm_num)
      by_cases h0 : 0 ≤ y
      · rw [abs_of_nonneg h0] at ha he
        rw [hpi]; norm_num; linarith [he.1]
      · push_neg at h0
        have h3 : |y| / 2 ^ 53 ≤ 1 := by
          rw [abs_of_neg h0, div_le_one (by norm_num)]
          linarith
        rw [hpi]; norm_num; linarith [he.1]
  · intro h
    by_cases h2 : 2 ≤ y
    · exact hb.2 h2 h
    · push_neg at h2
      have ha : |y| / 2 ^ 53 ≤ |y| := div_le_self (abs_nonneg y) (by norm_num)
      by_cases h0 : y ≤ 0
      · rw [abs_of_nonpos h0] at ha he
        rw [hpi]; norm_num; linarith [he.2]
      · push_neg at h0
        have h3 : |y| / 2 ^ 53 ≤ 1 := by
          rw [abs_of_pos h0, div_le_one (by norm_num)]
          linarith
        rw [hpi]; norm_num; linarith [he.2]

/-- One pass through the body of the first loop, for a value `a` with
`M_PI_double < a ≤ 2^53`: the new value is at least `-M_PI_double`, it is smaller than `a`
by at least 5, and it differs from `a - 2 * M_PI_double` by at most `a / 2^53`. -/
theorem stepAbove (a : ℚ) (h : M_PI_double < a) (hB : a ≤ 2 ^ 53) :
    -M_PI_double ≤ roundDouble (a - roundDouble (2 * M_PI_double)) ∧
    roundDouble (a - roundDouble (2 * M_PI_double)) ≤ a - 5 ∧
    |roundDouble (a - roundDouble (2 * M_PI_double)) - (a - 2 * M_PI_double)|
      ≤ a / 2 ^ 53 := by
  obtain ⟨hpi, hc⟩ := M_PI_double_eq
  have hc2 : roundDouble (2 * M_PI_double) = 2 * M_PI_double := by rw [hc, hpi]; norm_num
  rw [hc2]
  have he := roundDouble_err (a - 2 * M_PI_double)
  have hw := (roundDouble_within (a - 2 * M_PI_double)).1 (by linarith)
  rw [hpi] at h hw he ⊢
  have habs : |a - 2 * (884279719003555 / 281474976710656 : ℚ)| ≤ a := by
    rw [abs_le]; constructor <;> linarith
  have h1 : |a - 2 * (884279719003555 / 281474976710656 : ℚ)| / 2 ^ 53 ≤ a / 2 ^ 53 :=
    div_le_div_of_nonneg_right habs (by positivity)
  have h2 : a / 2 ^ 53 ≤ 1 := by rw [div_le_one (by positivity)]; exact hB
  refine ⟨hw, ?_, le_trans he h1⟩
  rw [abs_le] at he
  linarith [he.2]

/-- One pass through the body of the second loop, for a value `a` with
`-2^53 ≤ a < -M_PI_double`. -/
theorem stepBelow (a : ℚ) (h : a < -M_PI_double) (hB : -2 ^ 53 ≤ a) :
    roundDouble (a + roundDouble (2 * M_PI_double)) ≤ M_PI_double ∧
    a + 5 ≤ roundDouble (a + roundDouble (2 * M_PI_double)) ∧
    |roundDouble (a + roundDouble (2 * M_PI_double)) - (a + 2 * M_PI_double)|
      ≤ -a / 2 ^ 53 := by
  obtain ⟨hpi, hc⟩ := M_PI_double_eq
  have hc2 : roundDouble (2 * M_PI_double) = 2 * M_PI_double := by rw [hc, hpi]; norm_num
  rw [hc2]
  have he := roundDouble_err (a + 2 * M_PI_double)
  have hw := (roundDouble_within (a + 2 * M_PI_double)).2 (by linarith)
  rw [hpi] at h hw he ⊢
  have habs : |a + 2 * (884279719003555 / 281474976710656 : ℚ)| ≤ -a := by
    rw [abs_le]; constructor <;> linarith
  have h1 : |a + 2 * (884279719003555 / 281474976710656 : ℚ)| / 2 ^ 53 ≤ -a / 2 ^ 53 :=
    div_le_div_of_nonneg_right habs (by positivity)
  have h2 : -a / 2 ^ 53 ≤ 1 := by rw [div_le_one (by positivity)]; linarith
  refine ⟨hw, ?_, le_trans he h1⟩
  rw [abs_le] at he
  linarith [he.1]

/-- The first loop in `double` arithmetic terminates on every value up to `2^53`: with
`a ≤ M_PI_double + 5 * n` it has run `k ≤ n` times when it returns. -/
theorem whileAboveF_spec (n : ℕ) : ∀ a : ℚ, a ≤ 2 ^ 53 → a ≤ M_PI_double + 5 * n →
    ∃ (k : ℕ) (b : ℚ), (∀ fuel, n + 1 ≤ fuel → whileAboveF fuel a = some b) ∧
      b ≤ M_PI_double ∧ (a ≤ M_PI_double → b = a ∧ k = 0) ∧
      (M_PI_double < a → -M_PI_double ≤ b) ∧
      |b - (a - k * (2 * M_PI_double))| ≤ k * (|a| / 2 ^ 53) := by
  induction n with
  | zero =>
    intro a _ ha
    have ha' : a ≤ M_PI_double := by simpa using ha
    refine ⟨0, a, fun fuel hf => ?_, ha', fun _ => ⟨rfl, rfl⟩,
      fun h => absurd h (not_lt.mpr ha'), by simp⟩
    obtain ⟨f, rfl⟩ : ∃ f, fuel = f + 1 := ⟨fuel - 1, by omega⟩
    simp [whileAboveF, not_lt.mpr ha']
  | succ n ih =>
    intro a hB ha
    by_cases hgt : M_PI_double < a
    · obtain ⟨s1, s2, s3⟩ := stepAbove a hgt hB
      have hpos : (0 : ℚ) < M_PI_double := by rw [M_PI_double_eq.1]; norm_num
      have ha0 : 0 < a := by linarith
      obtain ⟨k, b, hk, hb1, hb2, hb3, hb4⟩ :=
        ih (roundDouble (a - roundDouble (2 * M_PI_double))) (by linarith)
          (by push_cast at ha; linarith)
      refine ⟨k + 1, b, fun fuel hf => ?_, hb1, fun h => absurd hgt (not_lt.mpr h),
        fun _ => ?_, ?_⟩
      · obtain ⟨f, rfl⟩ : ∃ f, fuel = f + 1 := ⟨fuel - 1, by omega⟩
        simp only [whileAboveF]
        rw [if_pos hgt]
        exact hk f (by omega)
      · by_cases h1 : M_PI_double < roundDouble (a - roundDouble (2 * M_PI_double))
        · exact hb3 h1
        · rw [(hb2 (not_lt.mp h1)).1]; exact s1
      · have hka : (k : ℚ) * (|roundDouble (a - roundDouble (2 * M_PI_double))| / 2 ^ 53)
            ≤ k * (|a| / 2 ^ 53) := by
          by_cases h1 : M_PI_double < roundDouble (a - roundDouble (2 * M_PI_double))
          · apply mul_le_mul_of_nonneg_left _ (Nat.cast_nonneg k)
            apply div_le_div_of_nonneg_right _ (by positivity)
            rw [abs_of_pos (by linarith), abs_of_pos ha0]
            linarith
          · rw [(hb2 (not_lt.mp h1)).2]; simp
        rw [abs_of_pos ha0] at hka ⊢
        have e : b - (a - ((k + 1 : ℕ) : ℚ) * (2 * M_PI_double))
            = (b - (roundDouble (a - roundDouble (2 * M_PI_double)) - k * (2 * M_PI_double)))
              + (roundDouble (a - roundDouble (2 * M_PI_double)) - (a - 2 * M_PI_double)) := by
          push_cast; ring
        rw [e]
        refine le_trans (abs_add _ _) ?_
        push_cast
        linarith
    · have ha' : a ≤ M_PI_double := not_lt.mp hgt
      refine ⟨0, a, fun fuel hf => ?_, ha', fun _ => ⟨rfl, rfl⟩,
        fun h => absurd h hgt, by simp⟩
      obtain ⟨f, rfl⟩ : ∃ f, fuel = f + 1 := ⟨fuel - 1, by omega⟩
      simp [whileAboveF, hgt]

/-- The second loop in `double` arithmetic terminates on every value down to `-2^53`. -/
theorem whileBelowF_spec (n : ℕ) : ∀ a : ℚ, -2 ^ 53 ≤ a → -M_PI_double - 5 * n ≤ a →
    ∃ (k : ℕ) (b : ℚ), (∀ fuel, n + 1 ≤ fuel → whileBelowF fuel a = some b) ∧
      -M_PI_double ≤ b ∧ (-M_PI_double ≤ a → b = a ∧ k = 0) ∧
      (a < -M_PI_double → b ≤ M_PI_double) ∧
      |b - (a + k * (2 * M_PI_double))| ≤ k * (|a| / 2 ^ 53) := by
  induction n with
  | zero =>
    intro a _ ha
    have ha' : -M_PI_double ≤ a := by simpa using ha
    refine ⟨0, a, fun fuel hf => ?_, ha', fun _ => ⟨rfl, rfl⟩,
      fun h => absurd h (not_lt.mpr ha'), by simp⟩
    obtain ⟨f, rfl⟩ : ∃ f, fuel = f + 1 := ⟨fuel - 1, by omega⟩
    simp [whileBelowF, not_lt.mpr ha']
  | succ n ih =>
    intro a hB ha
    by_cases hlt : a < -M_PI_double
    · obtain ⟨s1, s2, s3⟩ := stepBelow a hlt hB
      have hpos : (0 : ℚ) < M_PI_double := by rw [M_PI_double_eq.1]; norm_num
      have ha0 : a < 0 := by linarith
      obtain ⟨k, b, hk, hb1, hb2, hb3, hb4⟩ :=
        ih (roundDouble (a + roundDouble (2 * M_PI_double))) (by linarith)
          (by push_cast at ha; linarith)
      refine ⟨k + 1, b, fun fuel hf => ?_, hb1, fun h => absurd hlt (not_lt.mpr h),
        fun _ => ?_, ?_⟩
      · obtain ⟨f, rfl⟩ : ∃ f, fuel = f + 1 := ⟨fuel - 1, by omega⟩
        simp only [whileBelowF]
        rw [if_pos hlt]
        exact hk f (by omega)
      · by_cases h1 : roundDouble (a + roundDouble (2 * M_PI_double)) < -M_PI_double
        · exact hb3 h1
        · rw [(hb2 (not_lt.mp h1)).1]; exact s1
      · have hka : (k : ℚ) * (|roundDouble (a + roundDouble (2 * M_PI_double))| / 2 ^ 53)
            ≤ k * (|a| / 2 ^ 53) := by
          by_cases h1 : roundDouble (a + roundDouble (2 * M_PI_double)) < -M_PI_double
          · apply mul_le_mul_of_nonneg_left _ (Nat.cast_nonneg k)
            apply div_le_div_of_nonneg_right _ (by positivity)
            rw [abs_of_neg (by linarith), abs_of_neg ha0]
            linarith
          · rw [(hb2 (not_lt.mp h1)).2]; simp
        rw [abs_of_neg ha0] at hka ⊢
        have e : b - (a + ((k + 1 : ℕ) : ℚ) * (2 * M_PI_double))
            = (b - (roundDouble (a + roundDouble (2 * M_PI_double)) + k * (2 * M_PI_double)))
              + (roundDouble (a + roundDouble (2 * M_PI_double)) - (a + 2 * M_PI_double)) := by
          push_cast; ring
        rw [e]
        refine le_trans (abs_add _ _) ?_
        push_cast
        linarith
    · have ha' : -M_PI_double ≤ a := not_lt.mp hlt
      refine ⟨0, a, fun fuel hf => ?_, ha', fun _ => ⟨rfl, rfl⟩,
        fun h => absurd h hlt, by simp⟩
      obtain ⟨f, rfl⟩ : ∃ f, fuel = f + 1 := ⟨fuel - 1, by omega⟩
      simp [whileBelowF, hlt]

/-- The pair of loops in `double` arithmetic terminates on every value of magnitude at most
`2^53`; the result lies in `[-M_PI_double, M_PI_double]`, it is the input when the input lies
in this interval, and it differs from the input plus `k` times `2 * M_PI_double`, `k` the
signed number of passes, by at most `|k| * |a| / 2^53`. -/
theorem normalizeAngleF_spec (a : ℚ) (h : |a| ≤ 2 ^ 53) :
    ∃ (N : ℕ) (b : ℚ) (k : ℤ), (∀ fuel, N ≤ fuel → normalizeAngleF fuel a = some b) ∧
      -M_PI_double ≤ b ∧ b ≤ M_PI_double ∧
      (-M_PI_double ≤ a → a ≤ M_PI_double → b = a) ∧
      |b - (a + k * (2 * M_PI_double))| ≤ |(k : ℚ)| * (|a| / 2 ^ 53) := by
  rw [abs_le] at h
  have hpos : (0 : ℚ) < M_PI_double := by rw [M_PI_double_eq.1]; norm_num
  have hP : M_PI_double ≤ 2 ^ 53 := by rw [M_PI_double_eq.1]; norm_num
  obtain ⟨k1, b1, hk1, hb1, hb2, hb3, hb4⟩ :=
    whileAboveF_spec ⌈(a - M_PI_double) / 5⌉₊ a h.2 (by
      have := Nat.le_ceil ((a - M_PI_double) / 5)
      rw [div_le_iff₀ (by norm_num)] at this
      linarith)
  have hb1low : -2 ^ 53 ≤ b1 := by
    by_cases hgt : M_PI_double < a
    · linarith [hb3 hgt]
    · rw [(hb2 (not_lt.mp hgt)).1]; exact h.1
  obtain ⟨k2, b2, hk2, hc1, hc2, hc3, hc4⟩ :=
    whileBelowF_spec ⌈(-M_PI_double - b1) / 5⌉₊ b1 hb1low (by
      have := Nat.le_ceil ((-M_PI_double - b1) / 5)
      rw [div_le_iff₀ (by norm_num)] at this
      linarith)
  have hb2up : b2 ≤ M_PI_double := by
    by_cases hlt : b1 < -M_PI_double
    · exact hc3 hlt
    · rw [(hc2 (not_lt.mp hlt)).1]; exact hb1
  refine ⟨max (⌈(a - M_PI_double) / 5⌉₊ + 1) (⌈(-M_PI_double - b1) / 5⌉₊ + 1), b2,
    (k2 : ℤ) - k1, fun fuel hf => ?_, hc1, hb2up, fun h1 h2 => ?_, ?_⟩
  · simp only [normalizeAngleF]
    rw [hk1 fuel (le_trans (le_max_left _ _) hf)]
    exact hk2 fuel (le_trans (le_max_right _ _) hf)
  · have e1 := (hb2 h2).1
    rw [e1] at hc2
    rw [(hc2 h1).1]
  · by_cases hgt : M_PI_double < a
    · have hlow := hb3 hgt
      obtain ⟨e1, e2⟩ := hc2 hlow
      rw [e1, e2]
      push_cast
      have : b1 - (a + ((0 : ℚ) - k1) * (2 * M_PI_double))
          = b1 - (a - k1 * (2 * M_PI_double)) := by ring
      rw [this, zero_sub, abs_neg,
        abs_of_nonneg (show (0 : ℚ) ≤ (k1 : ℚ) from Nat.cast_nonneg k1)]
      exact hb4
    · obtain ⟨e1, e2⟩ := hb2 (not_lt.mp hgt)
      rw [e2]
      rw [e1] at hc4
      push_cast
      rw [sub_zero, abs_of_nonneg (show (0 : ℚ) ≤ (k2 : ℚ) from Nat.cast_nonneg k2)]
      exact hc4

/-- The number `10^17` is a `double`, and subtracting `2. * M_PI` from it in `double`
arithmetic gives `10^17` again: the spacing of the doubles around it is 16. -/
theorem roundDouble_huge :
    roundDouble (10 ^ 17) = 10 ^ 17 ∧
    roundDouble (10 ^ 17 - roundDouble (2 * M_PI_double)) = 10 ^ 17 := by
  constructor
  · rw [roundDouble_eq (10 ^ 17) 56 6250000000000000 (by norm_num [abs_of_pos])
      (by norm_num [abs_of_pos]) (by norm_num [abs_lt])]
    norm_num
  · rw [M_PI_double_eq.2]
    rw [roundDouble_eq _ 56 6250000000000000 (by norm_num [abs_of_pos])
      (by norm_num [abs_of_pos]) (by norm_num [abs_lt])]
    norm_num

/-- The first loop in `double` arithmetic never returns on the input `10^17`. -/
theorem whileAboveF_huge (fuel : ℕ) : whileAboveF fuel (10 ^ 17) = none := by
  induction fuel with
  | zero => rfl
  | succ f ih =>
    have hgt : (10 : ℚ) ^ 17 > M_PI_double := by rw [M_PI_double_eq.1]; norm_num
    simp only [whileAboveF]
    rw [if_pos hgt, roundDouble_huge.2]
    exact ih

/-- A tie between two integers is rounded to the even one. -/
theorem roundEven_tie (q : ℚ) (n : ℤ) (h : q = n + 1 / 2) (hn : n % 2 = 0) :
    roundEven q = n := by
  have hf : ⌊q⌋ = n := by
    rw [Int.floor_eq_iff, h]
    constructor <;> linarith
  have h1 : ¬ (q - (n : ℚ) < 1 / 2) := by rw [h]; norm_num
  have h2 : ¬ ((1 : ℚ) / 2 < q - (n : ℚ)) := by rw [h]; norm_num
  rw [roundEven, hf, if_neg h1, if_neg h2, if_pos hn]

/-- The `double` nearest to a number of the binade `[2^e, 2^(e+1))` that lies half way between
two doubles is the one with the even significand. -/
theorem roundDouble_tie (x : ℚ) (e n : ℤ) (h1 : 2 ^ e ≤ |x|) (h2 : |x| < 2 ^ (e + 1))
    (h : x / 2 ^ (e - 52) = n + 1 / 2) (hn : n % 2 = 0) :
    roundDouble x = n * 2 ^ (e - 52) := by
  have hpos : (0 : ℚ) < |x| := lt_of_lt_of_le (by positivity) h1
  have hx : x ≠ 0 := abs_pos.mp hpos
  rw [roundDouble, if_neg hx, log_two_eq x e h1 h2, roundEven_tie _ n h hn]

/-- One pass through the body of the first loop in `double` arithmetic. -/
theorem whileAboveF_step (fuel : ℕ) (a b : ℚ) (h : a > M_PI_double)
    (hb : roundDouble (a - roundDouble (2 * M_PI_double)) = b) :
    whileAboveF (fuel + 1) a = whileAboveF fuel b := by
  simp only [whileAboveF]
  rw [if_pos h, hb]

/-- Pass 1 of the first loop in `double` arithmetic on the input 71. -/
theorem pass71_1 :
    roundDouble (71 - roundDouble (2 * M_PI_double))
      = 2277020488556183 / 35184372088832 := by
  rw [M_PI_double_eq.2, roundDouble_tie _ 6 4554040977112366 (by norm_num [abs_of_pos])
    (by norm_num [abs_of_pos]) (by norm_num) (by decide)]
  norm_num

/-- Pass 2 of the first loop in `double` arithmetic on the input 71. -/
theorem pass71_2 :
    roundDouble (2277020488556183 / 35184372088832 - roundDouble (2 * M_PI_double))
      = 8223802235221177 / 140737488355328 := by
  rw [M_PI_double_eq.2, roundDouble_eq _ 5 8223802235221177 (by norm_num [abs_of_pos])
    (by norm_num [abs_of_pos]) (by norm_num [abs_lt])]
  norm_num

/-- Pass 3 of the first loop in `double` arithmetic on the input 71. -/
theorem pass71_3 :
    roundDouble (8223802235221177 / 140737488355328 - roundDouble (2 * M_PI_double))
      = 3669761258108811 / 70368744177664 := by
  rw [M_PI_double_eq.2, roundDouble_eq _ 5 7339522516217622 (by norm_num [abs_of_pos])
    (by norm_num [abs_of_pos]) (by norm_num [abs_lt])]
  norm_num

/-- Pass 4 of the first loop in `double` arithmetic on the input 71. -/
theorem pass71_4 :
    roundDouble (3669761258108811 / 70368744177664 - roundDouble (2 * M_PI_double))
      = 6455242797214067 / 140737488355328 := by
  rw [M_PI_double_eq.2, roundDouble_eq _ 5 6455242797214067 (by norm_num [abs_of_pos])
    (by norm_num [abs_of_pos]) (by norm_num [abs_lt])]
  norm_num

/-- Pass 5 of the first loop in `double` arithmetic on the input 71. -/
theorem pass71_5 :
    roundDouble (6455242797214067 / 140737488355328 - roundDouble (2 * M_PI_double))
      = 348185192388157 / 8796093022208 := by
  rw [M_PI_double_eq.2, roundDouble_eq _ 5 5570963078210512 (by norm_num [abs_of_pos])
    (by norm_num [abs_of_pos]) (by norm_num [abs_lt])]
  norm_num

/-- Pass 6 of the first loop in `double` arithmetic on the input 71. -/
theorem pass71_6 :
    roundDouble (348185192388157 / 8796093022208 - roundDouble (2 * M_PI_double))
      = 4686683359206957 / 140737488355328 := by
  rw [M_PI_double_eq.2, roundDouble_eq _ 5 4686683359206957 (by norm_num [abs_of_pos])
    (by norm_num [abs_of_pos]) (by norm_num [abs_lt])]
  norm_num

/-- Pass 7 of the first loop in `double` arithmetic on the input 71. -/
theorem pass71_7 :
    roundDouble (4686683359206957 / 140737488355328 - roundDouble (2 * M_PI_double))
      = 1901201820101701 / 70368744177664 := by
  rw [M_PI_double_eq.2, roundDouble_eq _ 4 7604807280406804 (by norm_num [abs_of_pos])
    (by norm_num [abs_of_pos]) (by norm_num [abs_lt])]
  norm_num

/-- Pass 8 of the first loop in `double` arithmetic on the input 71. -/
theorem pass71_8 :
    roundDouble (1901201820101701 / 70368744177664 - roundDouble (2 * M_PI_double))
      = 2918123921199847 / 140737488355328 := by
  rw [M_PI_double_eq.2, roundDouble_eq _ 4 5836247842399694 (by norm_num [abs_of_pos])
    (by norm_num [abs_of_pos]) (by norm_num [abs_lt])]
  norm_num

/-- Pass 9 of the first loop in `double` arithmetic on the input 71. -/
theorem pass71_9 :
    roundDouble (2918123921199847 / 140737488355328 - roundDouble (2 * M_PI_double))
      = 508461050549073 / 35184372088832 := by
  rw [M_PI_double_eq.2, roundDouble_eq _ 3 8135376808785168 (by norm_num [abs_of_pos])
    (by norm_num [abs_of_pos]) (by norm_num [abs_lt])]
  norm_num

/-- Pass 10 of the first loop in `double` arithmetic on the input 71. -/
theorem pass71_10 :
    roundDouble (508461050549073 / 35184372088832 - roundDouble (2 * M_PI_double))
      = 1149564483192737 / 140737488355328 := by
  rw [M_PI_double_eq.2, roundDouble_eq _ 3 4598257932770948 (by norm_num [abs_of_pos])
    (by norm_num [abs_of_pos]) (by norm_num [abs_lt])]
  norm_num

/-- Pass 11 of the first loop in `double` arithmetic on the input 71. -/
theorem pass71_11 :
    roundDouble (1149564483192737 / 140737488355328 - roundDouble (2 * M_PI_double))
      = 132642382094591 / 70368744177664 := by
  rw [M_PI_double_eq.2, roundDouble_eq _ 0 8489112454053824 (by norm_num [abs_of_pos])
    (by norm_num [abs_of_pos]) (by norm_num [abs_lt])]
  norm_num

/-- In `double` arithmetic the loops return `132642382094591 / 70368744177664` on the input
71, after eleven passes through the body of the first loop. -/
theorem normalizeAngleF_71 :
    normalizeAngleF 12 71 = some (132642382094591 / 70368744177664) := by
  have hpi := M_PI_double_eq.1
  have e : whileAboveF 12 71 = some (132642382094591 / 70368744177664) := by
    rw [whileAboveF_step _ _ _ (by rw [hpi]; norm_num) pass71_1,
      whileAboveF_step _ _ _ (by rw [hpi]; norm_num) pass71_2,
      whileAboveF_step _ _ _ (by rw [hpi]; norm_num) pass71_3,
      whileAboveF_step _ _ _ (by rw [hpi]; norm_num) pass71_4,
      whileAboveF_step _ _ _ (by rw [hpi]; norm_num) pass71_5,
      whileAboveF_step _ _ _ (by rw [hpi]; norm_num) pass71_6,
      whileAboveF_step _ _ _ (by rw [hpi]; norm_num) pass71_7,
      whileAboveF_step _ _ _ (by rw [hpi]; norm_num) pass71_8,
      whileAboveF_step _ _ _ (by rw [hpi]; norm_num) pass71_9,
      whileAboveF_step _ _ _ (by rw [hpi]; norm_num) pass71_10,
      whileAboveF_step _ _ _ (by rw [hpi]; norm_num) pass71_11]
    simp only [whileAboveF]
    rw [if_neg (by rw [hpi]; norm_num)]
  rw [normalizeAngleF, e, Option.some_bind]
  simp only [whileBelowF]
  rw [if_neg (by rw [hpi]; norm_num)]

/-- The value that the loops return on 71 in `double` arithmetic does not differ from 71 by an
integer multiple of `2. * M_PI`: it is `71 - 11 * (2. * M_PI) - 2^(-47)`. -/
theorem drift_71 :
    (132642382094591 / 70368744177664 : ℚ) = 71 - 11 * (2 * M_PI_double) - 1 / 2 ^ 47 ∧
    ∀ k : ℤ, (132642382094591 / 70368744177664 : ℚ) - 71 ≠ k * (2 * M_PI_double) := by
  rw [M_PI_double_eq.1]
  refine ⟨by norm_num, fun k hk => ?_⟩
  have h2 : ((k + 11) * 884279719003555 : ℚ) = -1 := by
    linarith
  have h3 : (k + 11) * 884279719003555 = -1 := by exact_mod_cast h2
  omega

/-! ## Lemmas on `UpdateRadar` in arithmetic with the value NaN -/

/-- The value NaN absorbs every sum, difference and product. -/
theorem Dbl.nan_absorbs (a : Dbl K) :
    Dbl.nan + a = Dbl.nan ∧ a + Dbl.nan = Dbl.nan ∧ Dbl.nan - a = Dbl.nan ∧
    a - Dbl.nan = Dbl.nan ∧ Dbl.nan * a = Dbl.nan ∧ a * Dbl.nan = Dbl.nan := by
  cases a <;> exact ⟨rfl, rfl, rfl, rfl, rfl, rfl⟩

/-- A sum with a NaN term is NaN. -/
theorem Dbl.sum_nan {ι : Type} (t : Finset ι) (f : ι → Dbl K) (i : ι) (hi : i ∈ t)
    (h : f i = Dbl.nan) : ∑ j ∈ t, f j = Dbl.nan := by
  classical
  rw [← Finset.add_sum_erase t f hi, h]
  exact (Dbl.nan_absorbs _).1

/-- A dot product with a NaN entry in its second factor is NaN. -/
theorem Dbl.dotProduct_nan {n : Nat} (u v : Fin n → Dbl K) (c : Fin n) (h : v c = Dbl.nan) :
    u ⬝ᵥ v = Dbl.nan :=
  Dbl.sum_nan Finset.univ _ c (Finset.mem_univ c) (by
    show u c * v c = Dbl.nan
    rw [h]; exact (Dbl.nan_absorbs _).2.2.2.2.2)

/-- A dot product with a NaN entry in its first factor is NaN. -/
theorem Dbl.nan_dotProduct {n : Nat} (u v : Fin n → Dbl K) (c : Fin n) (h : u c = Dbl.nan) :
    u ⬝ᵥ v = Dbl.nan :=
  Dbl.sum_nan Finset.univ _ c (Finset.mem_univ c) (by
    show u c * v c = Dbl.nan
    rw [h]; exact (Dbl.nan_absorbs _).2.2.2.2.1)

/-- Entry `k` of the weighted mean in arithmetic with NaN is the weighted sum of the entries `k`
of the columns. -/
theorem weightedMeanD_apply {n : Nat} (w : Fin 15 → K) (Z : Matrix (Fin n) (Fin 15) (Dbl K))
    (k : Fin n) : weightedMeanD w Z k = ∑ i, Dbl.fin (w i) * Z k i := by
  unfold weightedMeanD
  rw [forSigma_add (fun i => fun k => Dbl.fin (w i) * Z k i), zero_add, Finset.sum_apply]

/-- The range rate of a sigma point with `p_x = 0` and `p_y = 0` is NaN, for a library `sqrt`
with `sqrt 0 = 0`. -/
theorem radarZsigD_nan (m : Numerics K) (hsqrt : m.sqrt 0 = 0)
    (X : Matrix (Fin 5) (Fin 15) K) (i : Fin 15) (hx : X 0 i = 0) (hy : X 1 i = 0) :
    radarZsigD m X 2 i = Dbl.nan := by
  have e : radarZsigD m X 2 i
      = Dbl.div (Dbl.fin (X 0 i * (m.cos (X 3 i) * X 2 i) + X 1 i * (m.sin (X 3 i) * X 2 i)))
          (Dbl.fin (m.sqrt (X 0 i * X 0 i + X 1 i * X 1 i))) := rfl
  rw [e, hx, hy]
  simp [Dbl.div, hsqrt]

/-- Where the range computed by `sqrt` is not 0, the column of `Zsig` in arithmetic with NaN
is the column of `radarZsig`. -/
theorem radarZsigD_fin (m : Numerics K) (X : Matrix (Fin 5) (Fin 15) K) (i : Fin 15)
    (h : m.sqrt (X 0 i * X 0 i + X 1 i * X 1 i) ≠ 0) (k : Fin 3) :
    radarZsigD m X k i = Dbl.fin (radarZsig m X k i) := by
  fin_cases k
  · rfl
  · rfl
  · show Dbl.div (Dbl.fin _) (Dbl.fin (m.sqrt (X 0 i * X 0 i + X 1 i * X 1 i))) = _
    simp only [Dbl.div, if_neg h]
    rfl

/-- The predicted range rate is NaN when a sigma point has range zero. -/
theorem radarZpredD_nan (m : Numerics K) (hsqrt : m.sqrt 0 = 0) (w : Fin 15 → K)
    (X : Matrix (Fin 5) (Fin 15) K) (i : Fin 15) (hx : X 0 i = 0) (hy : X 1 i = 0) :
    weightedMeanD w (radarZsigD m X) 2 = Dbl.nan := by
  rw [weightedMeanD_apply]
  refine Dbl.sum_nan Finset.univ _ i (Finset.mem_univ i) ?_
  rw [radarZsigD_nan m hsqrt X i hx hy]
  exact (Dbl.nan_absorbs _).2.2.2.2.2

/-- The normalization of entry `k` leaves the other entries as they are. -/
theorem normalizeEntryD_other {n : Nat} (fuel : Nat) (k : Fin n) (v v1 : Fin n → Dbl K)
    (h : normalizeEntryD fuel k v = some v1) (j : Fin n) (hj : j ≠ k) : v1 j = v j := by
  simp only [normalizeEntryD, Option.map_eq_some'] at h
  obtain ⟨b, -, rfl⟩ := h
  exact Function.update_noteq hj _ _

/-- Whenever the loop of `measurementCovarianceD` returns and entry `c` of `z_pred` is NaN, the
entry `(c, c)` of the result is NaN, for every entry `c` other than the normalized one. -/
theorem measurementCovarianceD_nan {n : Nat} (fuel : Nat) (k c : Fin n) (hc : c ≠ k)
    (w : Fin 15 → K) (Zsig : Matrix (Fin n) (Fin 15) (Dbl K)) (z_pred : Fin n → Dbl K)
    (S : Matrix (Fin n) (Fin n) (Dbl K)) (hz : z_pred c = Dbl.nan)
    (h : measurementCovarianceD fuel k w Zsig z_pred = some S) : S c c = Dbl.nan := by
  obtain ⟨d, hd, hS⟩ := forSigmaM_bind_inv
    (fun i => normalizeEntryD fuel k (fun r => Zsig r i - z_pred r))
    (fun i e => Dbl.fin (w i) • vecMulVec e e) 0 S h
  rw [hS, zero_add, Matrix.sum_apply]
  refine Dbl.sum_nan Finset.univ _ 0 (Finset.mem_univ 0) ?_
  have e : d 0 c = Dbl.nan := by
    rw [normalizeEntryD_other fuel k _ _ (hd 0) c hc, hz]
    exact (Dbl.nan_absorbs _).2.2.2.1
  show Dbl.fin (w 0) * (d 0 c * d 0 c) = Dbl.nan
  rw [e]
  exact (Dbl.nan_absorbs _).2.2.2.2.2

/-- The function `UpdateRadarD` as a chain of its three loops. -/
theorem UpdateRadarD_eq_some_iff (m : Numerics K)
    (inv : Matrix (Fin 3) (Fin 3) (Dbl K) → Matrix (Fin 3) (Fin 3) (Dbl K))
    (fuel : Nat) (s : UKF K) (meas_package : MeasurementPackage K) (r : RadarWrites K) :
    UpdateRadarD m inv fuel s meas_package = some r ↔
      ∃ S0 Tc z_diff,
        measurementCovarianceD fuel 1 s.weights_ (radarZsigD m s.Xsig_pred_)
          (weightedMeanD s.weights_ (radarZsigD m s.Xsig_pred_)) = some S0 ∧
        crossCorrelationD fuel 1 s.weights_ s.Xsig_pred_ s.x_ (radarZsigD m s.Xsig_pred_)
          (weightedMeanD s.weights_ (radarZsigD m s.Xsig_pred_)) = some Tc ∧
        normalizeEntryD fuel 1 (fun k => Dbl.fin (meas_package.raw_measurements_ k)
          - weightedMeanD s.weights_ (radarZsigD m s.Xsig_pred_) k) = some z_diff ∧
        r = {
          NIS_radar_ := (fun k => Dbl.fin (meas_package.raw_measurements_ k)
              - weightedMeanD s.weights_ (radarZsigD m s.Xsig_pred_) k) ⬝ᵥ
            fun a => inv (S0 + radarRD s) a ⬝ᵥ
              fun k => Dbl.fin (meas_package.raw_measurements_ k)
                - weightedMeanD s.weights_ (radarZsigD m s.Xsig_pred_) k
          x_ := fun k => Dbl.fin (s.x_ k)
            + (Tc * inv (S0 + radarRD s)) k ⬝ᵥ z_diff
          P_ := fun a b => Dbl.fin (s.P_ a b)
            - ((Tc * inv (S0 + radarRD s))
                * (S0 + radarRD s)
                * (Tc * inv (S0 + radarRD s))ᵀ) a b } := by
  have e : UpdateRadarD m inv fuel s meas_package
      = (measurementCovarianceD fuel 1 s.weights_ (radarZsigD m s.Xsig_pred_)
          (weightedMeanD s.weights_ (radarZsigD m s.Xsig_pred_))).bind fun S0 =>
        (crossCorrelationD fuel 1 s.weights_ s.Xsig_pred_ s.x_ (radarZsigD m s.Xsig_pred_)
          (weightedMeanD s.weights_ (radarZsigD m s.Xsig_pred_))).bind fun Tc =>
        (normalizeEntryD fuel 1 (fun k => Dbl.fin (meas_package.raw_measurements_ k)
          - weightedMeanD s.weights_ (radarZsigD m s.Xsig_pred_) k)).bind fun z_diff =>
        some {
          NIS_radar_ := (fun k => Dbl.fin (meas_package.raw_measurements_ k)
              - weightedMeanD s.weights_ (radarZsigD m s.Xsig_pred_) k) ⬝ᵥ
            fun a => inv (S0 + radarRD s) a ⬝ᵥ
              fun k => Dbl.fin (meas_package.raw_measurements_ k)
                - weightedMeanD s.weights_ (radarZsigD m s.Xsig_pred_) k
          x_ := fun k => Dbl.fin (s.x_ k)
            + (Tc * inv (S0 + radarRD s)) k ⬝ᵥ z_diff
          P_ := fun a b => Dbl.fin (s.P_ a b)
            - ((Tc * inv (S0 + radarRD s))
                * (S0 + radarRD s)
                * (Tc * inv (S0 + radarRD s))ᵀ) a b } := rfl
  rw [e]
  simp only [Option.bind_eq_some, Option.some.injEq]
  constructor
  · rintro ⟨S0, hS, Tc, hT, z, hz, rfl⟩
    exact ⟨S0, Tc, z, hS, hT, hz, rfl⟩
  · rintro ⟨S0, Tc, z, hS, hT, hz, rfl⟩
    exact ⟨S0, hS, Tc, hT, z, hz, rfl⟩

/-- Whenever `UpdateRadarD` returns in a state in which a predicted sigma point has range
zero, and `sqrt 0 = 0`, every value it has written is NaN. -/
theorem UpdateRadarD_nan (m : Numerics K) (hsqrt : m.sqrt 0 = 0)
    (inv : Matrix (Fin 3) (Fin 3) (Dbl K) → Matrix (Fin 3) (Fin 3) (Dbl K))
    (fuel : Nat) (s : UKF K) (meas_package : MeasurementPackage K) (i : Fin 15)
    (hx : s.Xsig_pred_ 0 i = 0) (hy : s.Xsig_pred_ 1 i = 0) (r : RadarWrites K)
    (h : UpdateRadarD m inv fuel s meas_package = some r) :
    r.NIS_radar_ = Dbl.nan ∧ (∀ k, r.x_ k = Dbl.nan) ∧ ∀ a b, r.P_ a b = Dbl.nan := by
  obtain ⟨S0, Tc, z_diff, hS, -, hz, rfl⟩ :=
    (UpdateRadarD_eq_some_iff m inv fuel s meas_package r).mp h
  have hp := radarZpredD_nan m hsqrt s.weights_ s.Xsig_pred_ i hx hy
  have hS22 : (S0 + radarRD s) 2 2 = Dbl.nan := by
    rw [Matrix.add_apply,
      measurementCovarianceD_nan fuel 1 2 (by decide) _ _ _ S0 hp hS]
    exact (Dbl.nan_absorbs _).1
  have hy2 : (fun k => Dbl.fin (meas_package.raw_measurements_ k)
      - weightedMeanD s.weights_ (radarZsigD m s.Xsig_pred_) k) 2 = Dbl.nan := by
    show Dbl.fin _ - weightedMeanD s.weights_ (radarZsigD m s.Xsig_pred_) 2 = Dbl.nan
    rw [hp]
    exact (Dbl.nan_absorbs _).2.2.2.1
  have hz2 : z_diff 2 = Dbl.nan := by
    rw [normalizeEntryD_other fuel 1 _ _ hz 2 (by decide)]
    exact hy2
  refine ⟨Dbl.nan_dotProduct _ _ 2 hy2, fun k => ?_, fun a b => ?_⟩
  · show Dbl.fin (s.x_ k) + _ ⬝ᵥ z_diff = Dbl.nan
    rw [Dbl.dotProduct_nan _ _ 2 hz2]
    exact (Dbl.nan_absorbs _).2.1
  · show Dbl.fin (s.P_ a b) - _ = Dbl.nan
    have hKS : ((Tc * inv (S0 + radarRD s))
        * (S0 + radarRD s)) a 2 = Dbl.nan :=
      Dbl.dotProduct_nan _ _ 2 hS22
    have hKSK : ((Tc * inv (S0 + radarRD s))
        * (S0 + radarRD s)
        * (Tc * inv (S0 + radarRD s))ᵀ) a b = Dbl.nan :=
      Dbl.nan_dotProduct _ _ 2 hKS
    rw [hKSK]
    exact (Dbl.nan_absorbs _).2.2.2.1

/-- On a number the loops in arithmetic with NaN are the loops of the field model. -/
theorem normalizeAngleD_fin (fuel : ℕ) (a : K) :
    normalizeAngleD fuel (Dbl.fin a) = (normalizeAngle fuel a).map Dbl.fin := by
  have ha : ∀ (f : ℕ) (x : K), whileAboveD f (Dbl.fin x) = (whileAbove f x).map Dbl.fin := by
    intro f
    induction f with
    | zero => intro x; rfl
    | succ f ih =>
      intro x
      simp only [whileAboveD, whileAbove]
      by_cases h : x > M_PI
      · rw [if_pos h, if_pos h]; exact ih _
      · rw [if_neg h, if_neg h]; rfl
  have hb : ∀ (f : ℕ) (x : K), whileBelowD f (Dbl.fin x) = (whileBelow f x).map Dbl.fin := by
    intro f
    induction f with
    | zero => intro x; rfl
    | succ f ih =>
      intro x
      simp only [whileBelowD, whileBelow]
      by_cases h : x < -M_PI
      · rw [if_pos h, if_pos h]; exact ih _
      · rw [if_neg h, if_neg h]; rfl
  simp only [normalizeAngleD, normalizeAngle, ha]
  cases whileAbove fuel a with
  | none => rfl
  | some c => exact hb fuel c

/-- The normalization of an entry in arithmetic with NaN terminates: a NaN is returned at
once, a number after as many passes as in the field model. -/
theorem normalizeEntryD_spec [Archimedean K] {n : Nat} (k : Fin n) (v : Fin n → Dbl K) :
    ∃ (N : ℕ) (v1 : Fin n → Dbl K), ∀ fuel, N ≤ fuel → normalizeEntryD fuel k v = some v1 := by
  cases hv : v k with
  | fin a =>
    obtain ⟨N, b, hN, -⟩ := normalizeAngle_spec a
    refine ⟨N, Function.update v k (Dbl.fin b), fun fuel hf => ?_⟩
    simp only [normalizeEntryD, hv, normalizeAngleD_fin, hN fuel hf]
    rfl
  | nan =>
    refine ⟨1, Function.update v k Dbl.nan, fun fuel hf => ?_⟩
    obtain ⟨f, rfl⟩ : ∃ f, fuel = f + 1 := ⟨fuel - 1, by omega⟩
    simp only [normalizeEntryD, hv, normalizeAngleD, whileAboveD, whileBelowD]
    rfl

/-- The function `UpdateRadarD` returns, with enough fuel, in every state. -/
theorem UpdateRadarD_returns [Archimedean K] (m : Numerics K)
    (inv : Matrix (Fin 3) (Fin 3) (Dbl K) → Matrix (Fin 3) (Fin 3) (Dbl K))
    (s : UKF K) (meas_package : MeasurementPackage K) :
    ∃ N, ∀ fuel, N ≤ fuel → ∃ r, UpdateRadarD m inv fuel s meas_package = some r := by
  choose N1 d1 h1 using fun i : Fin 15 => normalizeEntryD_spec 1
    (fun r => radarZsigD m s.Xsig_pred_ r i
      - weightedMeanD s.weights_ (radarZsigD m s.Xsig_pred_) r)
  choose N2 d2 h2 using fun i : Fin 15 => normalizeEntryD_spec 3
    (fun r => Dbl.fin (s.Xsig_pred_ r i) - Dbl.fin (s.x_ r))
  obtain ⟨N3, z_diff, h3⟩ := normalizeEntryD_spec 1
    (fun k => Dbl.fin (meas_package.raw_measurements_ k)
      - weightedMeanD s.weights_ (radarZsigD m s.Xsig_pred_) k)
  refine ⟨max (Finset.univ.sup N1) (max (Finset.univ.sup N2) N3), fun fuel hf => ?_⟩
  have f1 : ∀ i, N1 i ≤ fuel := fun i =>
    le_trans (Finset.le_sup (Finset.mem_univ i)) (le_trans (le_max_left _ _) hf)
  have f2 : ∀ i, N2 i ≤ fuel := fun i =>
    le_trans (Finset.le_sup (Finset.mem_univ i))
      (le_trans (le_trans (le_max_left _ _) (le_max_right _ _)) hf)
  have f3 : N3 ≤ fuel := le_trans (le_trans (le_max_right _ _) (le_max_right _ _)) hf
  have hS : measurementCovarianceD fuel 1 s.weights_ (radarZsigD m s.Xsig_pred_)
      (weightedMeanD s.weights_ (radarZsigD m s.Xsig_pred_))
      = some (0 + ∑ i, Dbl.fin (s.weights_ i) • vecMulVec (d1 i) (d1 i)) := by
    unfold measurementCovarianceD
    rw [forSigmaM_add _ (fun i => Dbl.fin (s.weights_ i) • vecMulVec (d1 i) (d1 i))]
    intro i acc
    simp [h1 i fuel (f1 i)]
  have hT : crossCorrelationD fuel 1 s.weights_ s.Xsig_pred_ s.x_ (radarZsigD m s.Xsig_pred_)
      (weightedMeanD s.weights_ (radarZsigD m s.Xsig_pred_))
      = some (0 + ∑ i, Dbl.fin (s.weights_ i) • vecMulVec (d2 i) (d1 i)) := by
    unfold crossCorrelationD
    rw [forSigmaM_add _ (fun i => Dbl.fin (s.weights_ i) • vecMulVec (d2 i) (d1 i))]
    intro i acc
    simp [h1 i fuel (f1 i), h2 i fuel (f2 i)]
  exact ⟨_, (UpdateRadarD_eq_some_iff m inv fuel s meas_package _).mpr
    ⟨_, _, z_diff, hS, hT, h3 fuel f3, rfl⟩⟩

end Loops

/-! ## Initialization -/

section Claims

variable {K : Type} [LinearOrderedField K]

/-- C1: a measurement processed while the filter is uninitialized sets `x_` to
`(rho * cos phi, rho * sin phi, 0, 0, 0)` for a radar and to `(x, y, 0, 0, 0)` for a laser
measurement, `P_` to `diag(0.6, 0.6, 6, 7.5, 0)`, `time_us_` to the time stamp of the
measurement and `is_initialized_` to true; no other member changes and no loop is entered
(the result is returned with any amount of fuel, zero included), so that neither `Prediction`
nor an update is run.  With `cos 0 = 1` and `sin 0 = 0`, the radar measurement
`(5.0, 0.0, 0.0)` gives the mean `(5, 0, 0, 0, 0)`. -/
theorem C1_initialization (m : Numerics K) (fuel : Nat) (s : UKF K)
    (meas_package : MeasurementPackage K) (hs : s.is_initialized_ = false) :
    ∃ x : Fin 5 → K,
      ProcessMeasurement m fuel s meas_package
        = some { s with
            x_ := x
            P_ := Matrix.diagonal ![0.6, 0.6, 6, 7.5, 0]
            time_us_ := meas_package.timestamp_
            is_initialized_ := true } ∧
      (meas_package.sensor_type_ = SensorType.RADAR →
        x = ![meas_package.raw_measurements_ 0 * m.cos (meas_package.raw_measurements_ 1),
              meas_package.raw_measurements_ 0 * m.sin (meas_package.raw_measurements_ 1),
              0, 0, 0]) ∧
      (meas_package.sensor_type_ = SensorType.LASER →
        x = ![meas_package.raw_measurements_ 0, meas_package.raw_measurements_ 1, 0, 0, 0]) ∧
      (meas_package.sensor_type_ = SensorType.RADAR →
        meas_package.raw_measurements_ = ![5.0, 0.0, 0.0] → m.cos 0 = 1 → m.sin 0 = 0 →
        x = ![5, 0, 0, 0, 0]) := by
  have hP : (initialCovariance : Matrix (Fin 5) (Fin 5) K)
      = Matrix.diagonal ![0.6, 0.6, 6, 7.5, 0] := by
    ext i j
    fin_cases i <;> fin_cases j <;>
      simp [initialCovariance, Matrix.diagonal, Matrix.vecHead, Matrix.vecTail]
  refine ⟨initialMean m meas_package, ?_, ?_, ?_, ?_⟩
  · simp [ProcessMeasurement, hs, hP]
  · intro h; simp [initialMean, h]
  · intro h; simp [initialMean, h]
  · intro h hraw hc hs0
    have h0 : (0.0 : K) = 0 := by norm_num
    have h5 : (5.0 : K) = 5 := by norm_num
    simp [initialMean, h, hraw, h0, h5, hc, hs0]

/-- C1, witness: the first radar measurement of the end-to-end scenario on a freshly
constructed filter over the real numbers, where `cos 0 = 1` and `sin 0 = 0`. -/
theorem C1_initialization_witness :
    (UKF.fresh : UKF ℝ).is_initialized_ = false ∧
    realNumerics.cos 0 = 1 ∧ realNumerics.sin 0 = 0 ∧
    ∃ x : Fin 5 → ℝ,
      ProcessMeasurement realNumerics 0 UKF.fresh radarFirst
        = some { (UKF.fresh : UKF ℝ) with
            x_ := x
            P_ := Matrix.diagonal ![0.6, 0.6, 6, 7.5, 0]
            time_us_ := radarFirst.timestamp_
            is_initialized_ := true } ∧
      (radarFirst.sensor_type_ = SensorType.RADAR →
        x = ![radarFirst.raw_measurements_ 0 * realNumerics.cos (radarFirst.raw_measurements_ 1),
              radarFirst.raw_measurements_ 0 * realNumerics.sin (radarFirst.raw_measurements_ 1),
              0, 0, 0]) ∧
      (radarFirst.sensor_type_ = SensorType.LASER →
        x = ![radarFirst.raw_measurements_ 0, radarFirst.raw_measurements_ 1, 0, 0, 0]) ∧
      (radarFirst.sensor_type_ = SensorType.RADAR →
        radarFirst.raw_measurements_ = ![5.0, 0.0, 0.0] → realNumerics.cos 0 = 1 →
        realNumerics.sin 0 = 0 → x = ![5, 0, 0, 0, 0]) :=
  ⟨rfl, Real.cos_zero, Real.sin_zero,
    C1_initialization realNumerics 0 UKF.fresh radarFirst rfl⟩

/-! ## Weights and sigma points -/

/-- C2: for every spread parameter `lambda_` with `lambda_ + n_aug_ ≠ 0`, `Prediction` returns
(with enough fuel) and the weights it stores are `weights_(0) = lambda_ / (lambda_ + 7)`,
`weights_(i) = 1 / (2 * (7 + lambda_))` for `i = 1 .. 14`, and they sum to exactly 1. -/
theorem C2_weights [Archimedean K] (m : Numerics K) (s : UKF K) (delta_t : K)
    (h : s.lambda_ + 7 ≠ 0) :
    (∃ N, ∀ fuel, N ≤ fuel → ∃ s1, Prediction m fuel s delta_t = some s1) ∧
    ∀ fuel s1, Prediction m fuel s delta_t = some s1 →
      s1.weights_ 0 = s.lambda_ / (s.lambda_ + 7) ∧
      (∀ i : Fin 15, 1 ≤ i.val → s1.weights_ i = 1 / (2 * (7 + s.lambda_))) ∧
      ∑ i, s1.weights_ i = 1 := by
  refine ⟨Prediction_returns m s delta_t, fun fuel s1 hs1 => ?_⟩
  obtain ⟨P, -, rfl⟩ := (Prediction_eq_some_iff m fuel s s1 delta_t).mp hs1
  refine ⟨by simp [setWeights], fun i hi => ?_, setWeights_sum _ h⟩
  have hi0 : i.val ≠ 0 := by omega
  simp only [setWeights, hi0, if_false]
  rw [div_eq_div_iff (by rwa [add_comm]) (by
    have : (7 : K) + s.lambda_ ≠ 0 := by rwa [add_comm]
    simpa using this)]
  ring

/-- C2, witness: the tracking filter `UKF.tracking` over the real numbers; the constructor has
set `lambda_ = 3 - 5`, for which `lambda_ + 7 ≠ 0`. -/
theorem C2_weights_witness :
    (UKF.tracking : UKF ℝ).lambda_ + 7 ≠ 0 ∧
    ((∃ N, ∀ fuel, N ≤ fuel →
      ∃ s1, Prediction realNumerics fuel UKF.tracking 0.1 = some s1) ∧
    ∀ fuel s1, Prediction realNumerics fuel UKF.tracking 0.1 = some s1 →
      s1.weights_ 0 = (UKF.tracking : UKF ℝ).lambda_ / ((UKF.tracking : UKF ℝ).lambda_ + 7) ∧
      (∀ i : Fin 15, 1 ≤ i.val →
        s1.weights_ i = 1 / (2 * (7 + (UKF.tracking : UKF ℝ).lambda_))) ∧
      ∑ i, s1.weights_ i = 1) :=
  ⟨by norm_num [UKF.tracking, UKF.fresh, UKF.construct],
    C2_weights realNumerics UKF.tracking 0.1
      (by norm_num [UKF.tracking, UKF.fresh, UKF.construct])⟩

/-- C3: the 15 augmented sigma points generated from any augmented mean `x_aug` and any
matrix `L` (column 0 is `x_aug`, column `i + 1` is `x_aug + sqrt(lambda_ + 7) * L.col(i)`,
column `i + 8` is `x_aug - sqrt(lambda_ + 7) * L.col(i)`), recombined as the weighted sum
with the weights of `Prediction`, give back exactly `x_aug`. -/
theorem C3_sigma_point_roundtrip (m : Numerics K) (lambda : K) (x_aug : Fin 7 → K)
    (L : Matrix (Fin 7) (Fin 7) K) (h : lambda + 7 ≠ 0) :
    colOf (augmentedSigmaPoints m lambda x_aug L) 0 = x_aug ∧
    (∀ i : Fin 7, colOf (augmentedSigmaPoints m lambda x_aug L) ⟨i.val + 1, by omega⟩
      = x_aug + m.sqrt (lambda + 7) • colOf L i) ∧
    (∀ i : Fin 7, colOf (augmentedSigmaPoints m lambda x_aug L) ⟨i.val + 1 + 7, by omega⟩
      = x_aug - m.sqrt (lambda + 7) • colOf L i) ∧
    weightedMean (setWeights lambda) (augmentedSigmaPoints m lambda x_aug L) = x_aug := by
  refine ⟨?_, ?_, ?_, ?_⟩
  · funext k; simp [colOf, augmentedSigmaPoints]
  · intro i; funext k
    have : i.val + 1 < 8 := by omega
    simp [colOf, augmentedSigmaPoints, this]
  · intro i; funext k
    have : ¬ i.val + 1 + 7 < 8 := by omega
    simp [colOf, augmentedSigmaPoints, this]
  · funext k
    rw [weightedMean_apply]
    exact augmentedSigmaPoints_sum m lambda x_aug L h k

/-- C3, witness: the spread parameter of the code, `lambda_ = -2`, over the real numbers,
with the zero mean and the identity matrix. -/
theorem C3_sigma_point_roundtrip_witness :
    ((-2 : ℝ) + 7 ≠ 0) ∧
    (colOf (augmentedSigmaPoints realNumerics (-2) 0 1) 0 = 0 ∧
    (∀ i : Fin 7, colOf (augmentedSigmaPoints realNumerics (-2) 0 1) ⟨i.val + 1, by omega⟩
      = 0 + realNumerics.sqrt (-2 + 7) • colOf 1 i) ∧
    (∀ i : Fin 7, colOf (augmentedSigmaPoints realNumerics (-2) 0 1) ⟨i.val + 1 + 7, by omega⟩
      = 0 - realNumerics.sqrt (-2 + 7) • colOf 1 i) ∧
    weightedMean (setWeights (-2)) (augmentedSigmaPoints realNumerics (-2) 0 1) = 0) :=
  ⟨by norm_num, C3_sigma_point_roundtrip realNumerics (-2) 0 1 (by norm_num)⟩

/-- C4: `Prediction` called with `delta_t = 0` returns (with enough fuel) and leaves the state
mean `x_` unchanged: every sigma point is predicted to its own first five entries, in the
turning and in the straight-line branch, and their weighted sum is the original mean.  This
holds for every value of the process noise parameters, zero included. -/
theorem C4_prediction_zero_time [Archimedean K] (m : Numerics K) (s : UKF K)
    (h : s.lambda_ + 7 ≠ 0) :
    (∃ N, ∀ fuel, N ≤ fuel → ∃ s1, Prediction m fuel s 0 = some s1) ∧
    ∀ fuel s1, Prediction m fuel s 0 = some s1 →
      s1.x_ = s.x_ ∧
      ∀ (k : Fin 5) (i : Fin 15),
        s1.Xsig_pred_ k i = sigmaPointsOf m s (Fin.castLE (by omega) k) i := by
  refine ⟨Prediction_returns m s 0, fun fuel s1 hs1 => ?_⟩
  obtain ⟨P, -, rfl⟩ := (Prediction_eq_some_iff m fuel s s1 0).mp hs1
  refine ⟨predictedMean_zero m s h, fun k i => ?_⟩
  show predictSigmaPoint m 0 _ k = _
  rw [predictSigmaPoint_zero]
  rfl

/-- C4, witness: the tracking filter `UKF.tracking` over the real numbers. -/
theorem C4_prediction_zero_time_witness :
    (UKF.tracking : UKF ℝ).lambda_ + 7 ≠ 0 ∧
    ((∃ N, ∀ fuel, N ≤ fuel →
      ∃ s1, Prediction realNumerics fuel UKF.tracking 0 = some s1) ∧
    ∀ fuel s1, Prediction realNumerics fuel UKF.tracking 0 = some s1 →
      s1.x_ = (UKF.tracking : UKF ℝ).x_ ∧
      ∀ (k : Fin 5) (i : Fin 15),
        s1.Xsig_pred_ k i
          = sigmaPointsOf realNumerics UKF.tracking (Fin.castLE (by omega) k) i) :=
  ⟨by norm_num [UKF.tracking, UKF.fresh, UKF.construct],
    C4_prediction_zero_time realNumerics UKF.tracking
      (by norm_num [UKF.tracking, UKF.fresh, UKF.construct])⟩

/-! ## The measurement cycle -/

/-- C5: on an initialized filter, `ProcessMeasurement` returns (with enough fuel); it sets
`time_us_` to the time stamp of the measurement and yields the `x_`, `P_` and NIS values of
running `Prediction` with `delta_t = (timestamp_ - time_us_) / 1000000` and then
`UpdateRadar` when the sensor tag is `RADAR`, `UpdateLidar` otherwise. -/
theorem C5_tracking_cycle [Archimedean K] (m : Numerics K) (s : UKF K)
    (meas_package : MeasurementPackage K) (hs : s.is_initialized_ = true) :
    (∃ N, ∀ fuel, N ≤ fuel → ∃ s3, ProcessMeasurement m fuel s meas_package = some s3) ∧
    ∀ fuel s3, ProcessMeasurement m fuel s meas_package = some s3 →
      s3.time_us_ = meas_package.timestamp_ ∧
      ∃ s1 s2,
        Prediction m fuel s
          (((meas_package.timestamp_ - s.time_us_ : Int) : K) / 1000000) = some s1 ∧
        (if meas_package.sensor_type_ = SensorType.RADAR
          then UpdateRadar m fuel s1 meas_package
          else UpdateLidar fuel s1 meas_package) = some s2 ∧
        s3.x_ = s2.x_ ∧ s3.P_ = s2.P_ ∧
        s3.NIS_laser_ = s2.NIS_laser_ ∧ s3.NIS_radar_ = s2.NIS_radar_ := by
  constructor
  · obtain ⟨N, s1, s2, h⟩ := ProcessMeasurement_returns m s meas_package hs
    exact ⟨N, fun fuel hf => ⟨_, (h fuel hf).2.2⟩⟩
  · intro fuel s3 h3
    rw [ProcessMeasurement_tracking m fuel s meas_package hs] at h3
    simp only [Option.map_eq_some', Option.bind_eq_some] at h3
    obtain ⟨s2, ⟨s1, h1, h2⟩, rfl⟩ := h3
    refine ⟨rfl, s1, s2, ?_, h2, rfl, rfl, rfl, rfl⟩
    rw [← h1, elapsedSeconds]
    norm_num

/-- C5, witness: the second laser measurement on a tracking filter over the real numbers. -/
theorem C5_tracking_cycle_witness :
    (UKF.tracking : UKF ℝ).is_initialized_ = true ∧
    ((∃ N, ∀ fuel, N ≤ fuel →
      ∃ s3, ProcessMeasurement realNumerics fuel UKF.tracking laserNext = some s3) ∧
    ∀ fuel s3, ProcessMeasurement realNumerics fuel UKF.tracking laserNext = some s3 →
      s3.time_us_ = (laserNext : MeasurementPackage ℝ).timestamp_ ∧
      ∃ s1 s2,
        Prediction realNumerics fuel UKF.tracking
          ((((laserNext : MeasurementPackage ℝ).timestamp_
            - (UKF.tracking : UKF ℝ).time_us_ : Int) : ℝ) / 1000000) = some s1 ∧
        (if (laserNext : MeasurementPackage ℝ).sensor_type_ = SensorType.RADAR
          then UpdateRadar realNumerics fuel s1 laserNext
          else UpdateLidar fuel s1 laserNext) = some s2 ∧
        s3.x_ = s2.x_ ∧ s3.P_ = s2.P_ ∧
        s3.NIS_laser_ = s2.NIS_laser_ ∧ s3.NIS_radar_ = s2.NIS_radar_) :=
  ⟨rfl, C5_tracking_cycle realNumerics UKF.tracking laserNext rfl⟩

/-! ## The measurement updates -/

/-- C6: in either correction, if the actual measurement equals the predicted measurement mean
`z_pred`, the correction returns (with enough fuel) and the state mean `x_` after it equals
the state mean before it. -/
theorem C6_mean_unchanged [Archimedean K] (m : Numerics K) (s : UKF K)
    (meas_package : MeasurementPackage K) :
    (lidarZ meas_package = lidarZpred s →
      (∃ N, ∀ fuel, N ≤ fuel → ∃ s2, UpdateLidar fuel s meas_package = some s2) ∧
      ∀ fuel s2, UpdateLidar fuel s meas_package = some s2 → s2.x_ = s.x_) ∧
    (meas_package.raw_measurements_ = radarZpred m s →
      (∃ N, ∀ fuel, N ≤ fuel → ∃ s2, UpdateRadar m fuel s meas_package = some s2) ∧
      ∀ fuel s2, UpdateRadar m fuel s meas_package = some s2 → s2.x_ = s.x_) := by
  constructor
  · intro hz
    constructor
    · obtain ⟨N, s2, h⟩ := UpdateLidar_returns s meas_package
      exact ⟨N, fun fuel hf => ⟨s2, h fuel hf⟩⟩
    · intro fuel s2 h2
      obtain ⟨S, Tc, z_diff, -, -, hn, rfl⟩ :=
        (UpdateLidar_eq_some_iff fuel s s2 meas_package).mp h2
      rw [hz, sub_self] at hn
      rw [normalizeEntry_zero fuel 1 z_diff hn]
      simp
  · intro hz
    constructor
    · obtain ⟨N, s2, h⟩ := UpdateRadar_returns m s meas_package
      exact ⟨N, fun fuel hf => ⟨s2, h fuel hf⟩⟩
    · intro fuel s2 h2
      obtain ⟨S, Tc, z_diff, -, -, hn, rfl⟩ :=
        (UpdateRadar_eq_some_iff m fuel s s2 meas_package).mp h2
      rw [hz, sub_self] at hn
      rw [normalizeEntry_zero fuel 1 z_diff hn]
      simp

/-- C6, witness: over the real numbers, the laser measurement and the radar measurement that
equal the predicted measurement means of the state `UKF.predicted`. -/
theorem C6_mean_unchanged_witness :
    (lidarZ (matchingLaser (UKF.predicted : UKF ℝ) 0) = lidarZpred UKF.predicted ∧
      (∃ N, ∀ fuel, N ≤ fuel →
        ∃ s2, UpdateLidar fuel UKF.predicted (matchingLaser (UKF.predicted : UKF ℝ) 0)
          = some s2) ∧
      ∀ fuel s2, UpdateLidar fuel UKF.predicted (matchingLaser (UKF.predicted : UKF ℝ) 0)
        = some s2 → s2.x_ = (UKF.predicted : UKF ℝ).x_) ∧
    ((matchingRadar realNumerics (UKF.predicted : UKF ℝ) 0).raw_measurements_
        = radarZpred realNumerics UKF.predicted ∧
      (∃ N, ∀ fuel, N ≤ fuel →
        ∃ s2, UpdateRadar realNumerics fuel UKF.predicted
          (matchingRadar realNumerics (UKF.predicted : UKF ℝ) 0) = some s2) ∧
      ∀ fuel s2, UpdateRadar realNumerics fuel UKF.predicted
        (matchingRadar realNumerics (UKF.predicted : UKF ℝ) 0) = some s2 →
        s2.x_ = (UKF.predicted : UKF ℝ).x_) :=
  ⟨⟨lidarZ_matchingLaser _ 0,
      (C6_mean_unchanged realNumerics UKF.predicted (matchingLaser UKF.predicted 0)).1
        (lidarZ_matchingLaser _ 0)⟩,
    ⟨rfl,
      (C6_mean_unchanged realNumerics UKF.predicted
        (matchingRadar realNumerics UKF.predicted 0)).2 rfl⟩⟩

/-- C7, counterexample: in the tracking state `UKF.skewed` (weights of the constructor's
`lambda_`, central sigma point `(1, 0, 0, 0, 0)`, the others zero) the laser measurement that
equals the predicted measurement mean is processed by `UpdateLidar`, and the trace of `P_`
after the correction is larger than before: the entry `S(0, 0) = -43/80` is negative because
of the negative weight `weights_(0) = -2/5`. -/
theorem C7_trace_counterexample :
    (UKF.skewed : UKF ℚ).is_initialized_ = true ∧
    lidarZ (matchingLaser (UKF.skewed : UKF ℚ) 0) = lidarZpred UKF.skewed ∧
    ∃ s2, UpdateLidar 1 (UKF.skewed : UKF ℚ) (matchingLaser UKF.skewed 0) = some s2 ∧
      ¬ trace s2.P_ ≤ trace (UKF.skewed : UKF ℚ).P_ := by
  have hz := lidarZ_matchingLaser (UKF.skewed : UKF ℚ) 0
  refine ⟨rfl, hz, _, (UpdateLidar_eq_some_iff 1 _ _ _).mpr
    ⟨_, _, 0, skewed_S, skewed_Tc, ?_, rfl⟩, ?_⟩
  · rw [hz, sub_self]
    exact normalizeEntry_of_mem 1 le_rfl 1 0 (by simpa using M_PI_pos.le)
      (by simpa using M_PI_pos.le)
  · simp [Matrix.trace, Fin.sum_univ_succ, Matrix.mul_apply, inverse, Matrix.det_fin_two,
      Matrix.adjugate_fin_two, UKF.skewed, UKF.tracking, initialCovariance]
    norm_num

/-- C7 (amended): each correction returns (with enough fuel), and whenever the innovation
covariance `S` it computes is positive semi-definite, the trace of `P_` after the correction
(`P_ - K * S * Kᵀ`) is less than or equal to the trace of `P_` before it, for every measurement
and in particular for one that equals the predicted measurement mean. -/
theorem C7_trace_not_increased [Archimedean K] (m : Numerics K) (s : UKF K)
    (meas_package : MeasurementPackage K) :
    ((∃ N, ∀ fuel, N ≤ fuel → ∃ s2, UpdateLidar fuel s meas_package = some s2) ∧
      ∀ fuel s2 S, UpdateLidar fuel s meas_package = some s2 → lidarS fuel s = some S →
        IsPosSemidef S → trace s2.P_ ≤ trace s.P_) ∧
    ((∃ N, ∀ fuel, N ≤ fuel → ∃ s2, UpdateRadar m fuel s meas_package = some s2) ∧
      ∀ fuel s2 S, UpdateRadar m fuel s meas_package = some s2 → radarS m fuel s = some S →
        IsPosSemidef S → trace s2.P_ ≤ trace s.P_) := by
  refine ⟨⟨?_, ?_⟩, ⟨?_, ?_⟩⟩
  · obtain ⟨N, s2, h⟩ := UpdateLidar_returns s meas_package
    exact ⟨N, fun fuel hf => ⟨s2, h fuel hf⟩⟩
  · intro fuel s2 S h2 hS hpsd
    obtain ⟨S1, Tc, z_diff, hS1, -, -, rfl⟩ :=
      (UpdateLidar_eq_some_iff fuel s s2 meas_package).mp h2
    obtain rfl : S1 = S := Option.some.inj (hS1.symm.trans hS)
    have := trace_mul_mul_transpose_nonneg (Tc * inverse S1) S1 hpsd
    simp only [Matrix.trace_sub]
    linarith
  · obtain ⟨N, s2, h⟩ := UpdateRadar_returns m s meas_package
    exact ⟨N, fun fuel hf => ⟨s2, h fuel hf⟩⟩
  · intro fuel s2 S h2 hS hpsd
    obtain ⟨S1, Tc, z_diff, hS1, -, -, rfl⟩ :=
      (UpdateRadar_eq_some_iff m fuel s s2 meas_package).mp h2
    obtain rfl : S1 = S := Option.some.inj (hS1.symm.trans hS)
    have := trace_mul_mul_transpose_nonneg (Tc * inverse S1) S1 hpsd
    simp only [Matrix.trace_sub]
    linarith

/-- C7 (amended), witness: over the real numbers, in the state `UKF.predicted` the matrix `S`
of the laser update is the noise matrix `R`, which is positive semi-definite, and the
correction does not increase the trace. -/
theorem C7_trace_not_increased_witness :
    lidarS 1 (UKF.predicted : UKF ℝ) = some (lidarR UKF.predicted) ∧
    IsPosSemidef (lidarR (UKF.predicted : UKF ℝ)) ∧
    ∀ s2, UpdateLidar 1 UKF.predicted (matchingLaser (UKF.predicted : UKF ℝ) 0) = some s2 →
      trace s2.P_ ≤ trace (UKF.predicted : UKF ℝ).P_ :=
  ⟨predicted_S 1 le_rfl, lidarR_posSemidef _, fun s2 h2 =>
    (C7_trace_not_increased realNumerics UKF.predicted (matchingLaser UKF.predicted 0)).1.2
      1 s2 _ h2 (predicted_S 1 le_rfl) (lidarR_posSemidef _)⟩

/-! ## Error handling -/

/-- C8, counterexample: the tracking filter `UKF.tracking` (time 1 s) over the real numbers
processes the laser measurement `laserEarlier`, whose time stamp 0.9 s is earlier: with
enough fuel `ProcessMeasurement` returns a state whose `time_us_` is the earlier time stamp,
not the previous one, and whose `P_` differs from the previous one (entry `(0, 0)` has dropped
from `0.6` to below `0.0225`), so the measurement was not rejected. -/
theorem C8_earlier_timestamp_counterexample :
    (UKF.tracking : UKF ℝ).is_initialized_ = true ∧
    (laserEarlier : MeasurementPackage ℝ).timestamp_ < (UKF.tracking : UKF ℝ).time_us_ ∧
    ∃ N s3, ∀ fuel, N ≤ fuel →
      ProcessMeasurement realNumerics fuel UKF.tracking laserEarlier = some s3 ∧
      s3.time_us_ ≠ (UKF.tracking : UKF ℝ).time_us_ ∧
      s3.P_ ≠ (UKF.tracking : UKF ℝ).P_ := by
  have hP00 : (UKF.tracking : UKF ℝ).P_ 0 0 = 0.6 := by
    simp [UKF.tracking, initialCovariance]
  have hL : realNumerics.llt (augmentedCovariance (UKF.tracking : UKF ℝ).P_
      (UKF.tracking : UKF ℝ).std_a_ (UKF.tracking : UKF ℝ).std_yawdd_)
      = Matrix.diagonal fun i => Real.sqrt
        (![0.6, 0.6, 6, 7.5, 0, (UKF.tracking : UKF ℝ).std_a_ * (UKF.tracking : UKF ℝ).std_a_,
          (UKF.tracking : UKF ℝ).std_yawdd_ * (UKF.tracking : UKF ℝ).std_yawdd_] i) := by
    show cholesky Real.sqrt (augmentedCovariance initialCovariance _ _) = _
    rw [augmentedCovariance_initial, cholesky_diagonal]
  have hr : (UKF.tracking : UKF ℝ).std_laspx_ * (UKF.tracking : UKF ℝ).std_laspx_ = 0.0225 := by
    norm_num [UKF.tracking, UKF.fresh, UKF.construct]
  obtain ⟨N, s3, h⟩ := straight_cycle_P00 realNumerics (UKF.tracking : UKF ℝ) laserEarlier _
    rfl rfl rfl (by simp [UKF.tracking]) (by simp [UKF.tracking])
    (by simp [UKF.tracking]) hL Real.cos_zero Real.sin_zero
    (by norm_num [UKF.tracking, UKF.fresh, UKF.construct])
    (by norm_num [UKF.tracking, UKF.fresh, UKF.construct])
  refine ⟨rfl, by decide, N, s3, fun fuel hf => ⟨(h fuel hf).1, ?_, fun hne => ?_⟩⟩
  · have h3 := (h fuel hf).1
    rw [ProcessMeasurement_tracking realNumerics fuel UKF.tracking laserEarlier rfl] at h3
    simp only [Option.map_eq_some'] at h3
    obtain ⟨s2, -, rfl⟩ := h3
    show (900000 : Int) ≠ 1000000
    decide
  · have h3 := (h fuel hf).2
    rw [hr, hne, hP00] at h3
    norm_num at h3

/-- C8 (amended): on an initialized filter, a measurement whose time stamp is earlier than
`time_us_` is not rejected: `ProcessMeasurement` returns (with enough fuel), sets `time_us_`
to the earlier time stamp, and yields the `x_` and `P_` of `Prediction` run with the negative
`delta_t = (timestamp_ - time_us_) / 1000000` followed by the update for the sensor tag. -/
theorem C8_earlier_timestamp_processed [Archimedean K] (m : Numerics K) (s : UKF K)
    (meas_package : MeasurementPackage K) (hs : s.is_initialized_ = true)
    (ht : meas_package.timestamp_ < s.time_us_) :
    elapsedSeconds meas_package.timestamp_ s.time_us_ < (0 : K) ∧
    (∃ N, ∀ fuel, N ≤ fuel → ∃ s3, ProcessMeasurement m fuel s meas_package = some s3) ∧
    ∀ fuel s3, ProcessMeasurement m fuel s meas_package = some s3 →
      s3.time_us_ = meas_package.timestamp_ ∧ s3.time_us_ ≠ s.time_us_ ∧
      ∃ s1 s2,
        Prediction m fuel s (elapsedSeconds meas_package.timestamp_ s.time_us_) = some s1 ∧
        (if meas_package.sensor_type_ = SensorType.RADAR
          then UpdateRadar m fuel s1 meas_package
          else UpdateLidar fuel s1 meas_package) = some s2 ∧
        s3.x_ = s2.x_ ∧ s3.P_ = s2.P_ := by
  refine ⟨?_, ?_, ?_⟩
  · unfold elapsedSeconds
    have hneg : ((meas_package.timestamp_ - s.time_us_ : Int) : K) < 0 := by
      have : meas_package.timestamp_ - s.time_us_ < 0 := by omega
      exact_mod_cast this
    exact div_neg_of_neg_of_pos hneg (by norm_num)
  · obtain ⟨N, s1, s2, h⟩ := ProcessMeasurement_returns m s meas_package hs
    exact ⟨N, fun fuel hf => ⟨_, (h fuel hf).2.2⟩⟩
  · intro fuel s3 h3
    rw [ProcessMeasurement_tracking m fuel s meas_package hs] at h3
    simp only [Option.map_eq_some', Option.bind_eq_some] at h3
    obtain ⟨s2, ⟨s1, h1, h2⟩, rfl⟩ := h3
    exact ⟨rfl, ne_of_lt ht, s1, s2, h1, h2, rfl, rfl⟩

/-- C8 (amended), witness: the filter `UKF.tracking` and the measurement `laserEarlier` over
the real numbers. -/
theorem C8_earlier_timestamp_processed_witness :
    elapsedSeconds (laserEarlier : MeasurementPackage ℝ).timestamp_
      (UKF.tracking : UKF ℝ).time_us_ < (0 : ℝ) ∧
    (∃ N, ∀ fuel, N ≤ fuel →
      ∃ s3, ProcessMeasurement realNumerics fuel UKF.tracking laserEarlier = some s3) ∧
    ∀ fuel s3, ProcessMeasurement realNumerics fuel UKF.tracking laserEarlier = some s3 →
      s3.time_us_ = (laserEarlier : MeasurementPackage ℝ).timestamp_ ∧
      s3.time_us_ ≠ (UKF.tracking : UKF ℝ).time_us_ ∧
      ∃ s1 s2,
        Prediction realNumerics fuel UKF.tracking
          (elapsedSeconds (laserEarlier : MeasurementPackage ℝ).timestamp_
            (UKF.tracking : UKF ℝ).time_us_) = some s1 ∧
        (if (laserEarlier : MeasurementPackage ℝ).sensor_type_ = SensorType.RADAR
          then UpdateRadar realNumerics fuel s1 laserEarlier
          else UpdateLidar fuel s1 laserEarlier) = some s2 ∧
        s3.x_ = s2.x_ ∧ s3.P_ = s2.P_ :=
  C8_earlier_timestamp_processed realNumerics UKF.tracking laserEarlier rfl (by decide)

/-- C9: the code does not do what its own comment on `use_laser_` says ("if this is false,
laser measurements will be ignored (except during init)").  In the tracking filter
`UKF.laserOff` (`use_laser_ = false`, state mean `(1, 2, 0, 0, 0)`, covariance of the
initialization) over the real numbers, the laser measurement `(1.1, 2.05)` that arrives 0.1 s
later is processed exactly as with the laser switched on, and `P_` is changed: its entry
`(0, 0)` drops from `0.6` to below the laser noise variance `0.0225`. -/
theorem C9_disabled_laser_processed :
    (UKF.laserOff : UKF ℝ).use_laser_ = false ∧
    (UKF.laserOff : UKF ℝ).is_initialized_ = true ∧
    (laserNext : MeasurementPackage ℝ).sensor_type_ = SensorType.LASER ∧
    (UKF.laserOff : UKF ℝ).P_ 0 0 = 0.6 ∧
    (∀ fuel, ProcessMeasurement realNumerics fuel UKF.laserOff laserNext
      = (ProcessMeasurement realNumerics fuel UKF.tracking laserNext).map
        fun s3 => { s3 with use_laser_ := false, use_radar_ := true }) ∧
    ∃ N s3, ∀ fuel, N ≤ fuel →
      ProcessMeasurement realNumerics fuel UKF.laserOff laserNext = some s3 ∧
      s3.P_ 0 0 < 0.0225 ∧ s3.P_ ≠ (UKF.laserOff : UKF ℝ).P_ := by
  have hP00 : (UKF.laserOff : UKF ℝ).P_ 0 0 = 0.6 := by
    simp [UKF.laserOff, UKF.tracking, initialCovariance]
  have hL : realNumerics.llt (augmentedCovariance (UKF.laserOff : UKF ℝ).P_
      (UKF.laserOff : UKF ℝ).std_a_ (UKF.laserOff : UKF ℝ).std_yawdd_)
      = Matrix.diagonal fun i => Real.sqrt
        (![0.6, 0.6, 6, 7.5, 0, (UKF.laserOff : UKF ℝ).std_a_ * (UKF.laserOff : UKF ℝ).std_a_,
          (UKF.laserOff : UKF ℝ).std_yawdd_ * (UKF.laserOff : UKF ℝ).std_yawdd_] i) := by
    show cholesky Real.sqrt (augmentedCovariance initialCovariance _ _) = _
    rw [augmentedCovariance_initial, cholesky_diagonal]
  have hr : (UKF.laserOff : UKF ℝ).std_laspx_ * (UKF.laserOff : UKF ℝ).std_laspx_ = 0.0225 := by
    norm_num [UKF.laserOff, UKF.tracking, UKF.fresh, UKF.construct]
  obtain ⟨N, s3, h⟩ := straight_cycle_P00 realNumerics (UKF.laserOff : UKF ℝ) laserNext _
    rfl rfl rfl (by simp [UKF.laserOff, UKF.tracking]) (by simp [UKF.laserOff, UKF.tracking])
    (by simp [UKF.laserOff, UKF.tracking]) hL Real.cos_zero Real.sin_zero
    (by norm_num [UKF.laserOff, UKF.tracking, UKF.fresh, UKF.construct])
    (by norm_num [UKF.laserOff, UKF.tracking, UKF.fresh, UKF.construct])
  refine ⟨rfl, rfl, rfl, hP00, fun fuel => ?_, N, s3, fun fuel hf => ?_⟩
  · exact ProcessMeasurement_flags realNumerics fuel UKF.tracking laserNext false true
  · have h3 := (h fuel hf).2
    rw [hr] at h3
    refine ⟨(h fuel hf).1, h3, fun hne => ?_⟩
    rw [hne, hP00] at h3
    norm_num at h3

/-- C10, counterexample: the augmented covariance of the tracking filter `UKF.turning`
(covariance of the initialization, heading rate 1 rad/s) is not positive definite, yet
`Prediction` with `delta_t = 1` returns a state whose mean differs from the previous mean:
the heading entry has advanced from 0 to 1. -/
theorem C10_not_posdef_counterexample :
    ¬ IsPosDef (augmentedCovariance (UKF.turning : UKF ℝ).P_ (UKF.turning : UKF ℝ).std_a_
      (UKF.turning : UKF ℝ).std_yawdd_) ∧
    ∃ N, ∀ fuel, N ≤ fuel →
      ∃ s1, Prediction realNumerics fuel UKF.turning 1 = some s1 ∧
        s1.x_ 3 = 1 ∧ (UKF.turning : UKF ℝ).x_ 3 = 0 ∧
        s1.x_ ≠ (UKF.turning : UKF ℝ).x_ := by
  refine ⟨augmentedCovariance_initial_not_posDef _ _, ?_⟩
  obtain ⟨N, d, hN, -⟩ := Prediction_terminates realNumerics (UKF.turning : UKF ℝ) 1
  have hl : (UKF.turning : UKF ℝ).lambda_ + 7 ≠ 0 := by
    norm_num [UKF.turning, UKF.tracking, UKF.fresh, UKF.construct]
  have h3 := (predictedMean_linear realNumerics (UKF.turning : UKF ℝ) 1 hl).2.1
  have e3 : predictedMean realNumerics (UKF.turning : UKF ℝ) 1 3 = 1 := by
    rw [h3]
    simp [UKF.turning]
  have e0 : (UKF.turning : UKF ℝ).x_ 3 = 0 := by simp [UKF.turning]
  refine ⟨N, fun fuel hf => ⟨_, hN fuel hf, e3, e0, ?_⟩⟩
  intro hx
  have := congrFun hx 3
  rw [e0] at this
  simp only [e3] at this
  exact one_ne_zero this

/-- C10 (amended): `Prediction` has no positive-definiteness check.  Also for a state whose
augmented covariance is not positive definite it returns (with enough fuel) a state whose mean
is the weighted mean of the sigma points predicted from whatever factor `llt` returned; its
heading entry is `x_(3) + x_(4) * delta_t`, so the mean is changed whenever
`x_(4) * delta_t ≠ 0`. -/
theorem C10_prediction_not_aborted [Archimedean K] (m : Numerics K) (s : UKF K) (delta_t : K)
    (hl : s.lambda_ + 7 ≠ 0)
    (_hP : ¬ IsPosDef (augmentedCovariance s.P_ s.std_a_ s.std_yawdd_)) :
    (∃ N, ∀ fuel, N ≤ fuel → ∃ s1, Prediction m fuel s delta_t = some s1) ∧
    ∀ fuel s1, Prediction m fuel s delta_t = some s1 →
      s1.x_ = weightedMean (setWeights s.lambda_)
        (predictSigmaPoints m delta_t (augmentedSigmaPoints m s.lambda_ (augmentedMean s.x_)
          (m.llt (augmentedCovariance s.P_ s.std_a_ s.std_yawdd_)))) ∧
      s1.x_ 3 = s.x_ 3 + s.x_ 4 * delta_t ∧
      (s.x_ 4 * delta_t ≠ 0 → s1.x_ ≠ s.x_) := by
  refine ⟨Prediction_returns m s delta_t, fun fuel s1 hs1 => ?_⟩
  obtain ⟨P, -, rfl⟩ := (Prediction_eq_some_iff m fuel s s1 delta_t).mp hs1
  have h3 := (predictedMean_linear m s delta_t hl).2.1
  refine ⟨rfl, h3, fun hne hx => hne ?_⟩
  have := congrFun hx 3
  simp only [h3] at this
  linarith

/-- C10 (amended), witness: the filter `UKF.turning` over the real numbers, whose augmented
covariance is not positive definite. -/
theorem C10_prediction_not_aborted_witness :
    (UKF.turning : UKF ℝ).lambda_ + 7 ≠ 0 ∧
    ¬ IsPosDef (augmentedCovariance (UKF.turning : UKF ℝ).P_ (UKF.turning : UKF ℝ).std_a_
      (UKF.turning : UKF ℝ).std_yawdd_) ∧
    ∃ N, ∀ fuel, N ≤ fuel → ∃ s1, Prediction realNumerics fuel UKF.turning 1 = some s1 :=
  ⟨by norm_num [UKF.turning, UKF.tracking, UKF.fresh, UKF.construct],
    augmentedCovariance_initial_not_posDef _ _,
    (C10_prediction_not_aborted realNumerics UKF.turning 1
      (by norm_num [UKF.turning, UKF.tracking, UKF.fresh, UKF.construct])
      (augmentedCovariance_initial_not_posDef _ _)).1⟩

/-! ## Degenerate measurement geometry -/

/-- C11, counterexample: over the real numbers, in the tracking state `UKF.atOrigin` the
central predicted sigma point has range zero (`p_x = 0` and `p_y = 0`), so that its range
rate is the quotient `0 / 0`, a NaN.  `UpdateRadar` does not reject the radar measurement
`(5, 0, 0)`: in arithmetic with NaN it returns (with enough fuel), whatever `S.inverse()`
returns, and every value that it returns has `NIS_radar_`, every entry of `x_` and every
entry of `P_` equal to NaN; no entry of `x_` or `P_` is the number it was before. -/
theorem C11_zero_range_counterexample :
    (UKF.atOrigin : UKF ℝ).is_initialized_ = true ∧
    (UKF.atOrigin : UKF ℝ).Xsig_pred_ 0 0 = 0 ∧ (UKF.atOrigin : UKF ℝ).Xsig_pred_ 1 0 = 0 ∧
    radarZsigD realNumerics (UKF.atOrigin : UKF ℝ).Xsig_pred_ 2 0 = Dbl.nan ∧
    ∀ inv : Matrix (Fin 3) (Fin 3) (Dbl ℝ) → Matrix (Fin 3) (Fin 3) (Dbl ℝ),
      (∃ N, ∀ fuel, N ≤ fuel →
        ∃ r, UpdateRadarD realNumerics inv fuel UKF.atOrigin radarFirst = some r) ∧
      ∀ fuel r, UpdateRadarD realNumerics inv fuel UKF.atOrigin radarFirst = some r →
        r.NIS_radar_ = Dbl.nan ∧ (∀ k, r.x_ k = Dbl.nan) ∧ (∀ a b, r.P_ a b = Dbl.nan) ∧
        (∀ k, r.x_ k ≠ Dbl.fin ((UKF.atOrigin : UKF ℝ).x_ k)) ∧
        ∀ a b, r.P_ a b ≠ Dbl.fin ((UKF.atOrigin : UKF ℝ).P_ a b) := by
  have hx : (UKF.atOrigin : UKF ℝ).Xsig_pred_ 0 0 = 0 := by simp [UKF.atOrigin]
  have hy : (UKF.atOrigin : UKF ℝ).Xsig_pred_ 1 0 = 0 := by simp [UKF.atOrigin]
  have hs : realNumerics.sqrt 0 = 0 := Real.sqrt_zero
  refine ⟨rfl, hx, hy, radarZsigD_nan realNumerics hs _ 0 hx hy, fun inv =>
    ⟨UpdateRadarD_returns realNumerics inv UKF.atOrigin radarFirst, fun fuel r h => ?_⟩⟩
  obtain ⟨h1, h2, h3⟩ := UpdateRadarD_nan realNumerics hs inv fuel _ radarFirst 0 hx hy r h
  refine ⟨h1, h2, h3, fun k hk => ?_, fun a b hab => ?_⟩
  · rw [h2 k] at hk; cases hk
  · rw [h3 a b] at hab; cases hab

/-- C11, amended: `UpdateRadar` has no check of the range and does not reject the update.  In
every state (with numbers for members) in which a predicted sigma point `i` has `p_x = 0` and
`p_y = 0`, for a library `sqrt` with `sqrt 0 = 0`, the range rate of that point is the
quotient `0 / 0`, the indeterminate value NaN; `UpdateRadar` returns (with enough fuel),
whatever `S.inverse()` returns, and it has overwritten `NIS_radar_`, every entry of `x_` and
every entry of `P_` with NaN.  For a sigma point whose range is not zero the column of `Zsig`
is the one of the model without NaN. -/
theorem C11_zero_range_nan [Archimedean K] (m : Numerics K) (hsqrt : m.sqrt 0 = 0)
    (inv : Matrix (Fin 3) (Fin 3) (Dbl K) → Matrix (Fin 3) (Fin 3) (Dbl K))
    (s : UKF K) (meas_package : MeasurementPackage K) (i : Fin 15)
    (hx : s.Xsig_pred_ 0 i = 0) (hy : s.Xsig_pred_ 1 i = 0) :
    radarZsigD m s.Xsig_pred_ 2 i = Dbl.nan ∧
    (∀ (j : Fin 15) (k : Fin 3),
      m.sqrt (s.Xsig_pred_ 0 j * s.Xsig_pred_ 0 j + s.Xsig_pred_ 1 j * s.Xsig_pred_ 1 j) ≠ 0 →
      radarZsigD m s.Xsig_pred_ k j = Dbl.fin (radarZsig m s.Xsig_pred_ k j)) ∧
    (∃ N, ∀ fuel, N ≤ fuel → ∃ r, UpdateRadarD m inv fuel s meas_package = some r) ∧
    ∀ fuel r, UpdateRadarD m inv fuel s meas_package = some r →
      r.NIS_radar_ = Dbl.nan ∧ (∀ k, r.x_ k = Dbl.nan) ∧ ∀ a b, r.P_ a b = Dbl.nan :=
  ⟨radarZsigD_nan m hsqrt _ i hx hy,
    fun j k h => radarZsigD_fin m s.Xsig_pred_ j h k,
    UpdateRadarD_returns m inv s meas_package,
    fun fuel r h => UpdateRadarD_nan m hsqrt inv fuel s meas_package i hx hy r h⟩

/-- C11 (amended), witness: the state `UKF.atOrigin` over the real numbers, whose central
sigma point has range zero, with the radar measurement `(5, 0, 0)`, the real square root and
an `S.inverse()` that returns its argument. -/
theorem C11_zero_range_nan_witness :
    realNumerics.sqrt 0 = 0 ∧
    (UKF.atOrigin : UKF ℝ).Xsig_pred_ 0 0 = 0 ∧ (UKF.atOrigin : UKF ℝ).Xsig_pred_ 1 0 = 0 ∧
    (radarZsigD realNumerics (UKF.atOrigin : UKF ℝ).Xsig_pred_ 2 0 = Dbl.nan ∧
    (∀ (j : Fin 15) (k : Fin 3),
      realNumerics.sqrt ((UKF.atOrigin : UKF ℝ).Xsig_pred_ 0 j
        * (UKF.atOrigin : UKF ℝ).Xsig_pred_ 0 j
        + (UKF.atOrigin : UKF ℝ).Xsig_pred_ 1 j * (UKF.atOrigin : UKF ℝ).Xsig_pred_ 1 j) ≠ 0 →
      radarZsigD realNumerics (UKF.atOrigin : UKF ℝ).Xsig_pred_ k j
        = Dbl.fin (radarZsig realNumerics (UKF.atOrigin : UKF ℝ).Xsig_pred_ k j)) ∧
    (∃ N, ∀ fuel, N ≤ fuel →
      ∃ r, UpdateRadarD realNumerics id fuel UKF.atOrigin radarFirst = some r) ∧
    ∀ fuel r, UpdateRadarD realNumerics id fuel UKF.atOrigin radarFirst = some r →
      r.NIS_radar_ = Dbl.nan ∧ (∀ k, r.x_ k = Dbl.nan) ∧ ∀ a b, r.P_ a b = Dbl.nan) :=
  ⟨Real.sqrt_zero, by simp [UKF.atOrigin], by simp [UKF.atOrigin],
    C11_zero_range_nan realNumerics Real.sqrt_zero id UKF.atOrigin radarFirst 0
      (by simp [UKF.atOrigin]) (by simp [UKF.atOrigin])⟩

/-! ## The two branches of the motion model -/

/-- C12, counterexample: over the real numbers, for the position `(0, 0)`, speed 1, heading 0
and `delta_t = 1`, the x position given by the turning branch is `sin yawd / yawd`; as the
heading rate approaches the threshold `0.001` from above, it tends to `1000 * sin 0.001`,
which is less than the x position 1 given by the straight-line branch (the value that
`predictSigmaPoint` takes at the heading rate `0.001` itself): the limit of the turning
branch at the threshold is not the straight-line value. -/
theorem C12_threshold_counterexample :
    Filter.Tendsto (fun yawd : ℝ => (turningBranch realNumerics 0 0 1 0 yawd 1).1)
      (nhdsWithin 0.001 (Set.Ioi 0.001)) (nhds (1000 * Real.sin 0.001)) ∧
    (straightBranch realNumerics 0 0 1 0 1).1 = 1 ∧
    predictSigmaPoint realNumerics 1 ![0, 0, 1, 0, 0.001, 0, 0] 0 = 1 ∧
    1000 * Real.sin 0.001 < 1 ∧
    ¬ Filter.Tendsto (fun yawd : ℝ => (turningBranch realNumerics 0 0 1 0 yawd 1).1)
      (nhdsWithin 0.001 (Set.Ioi 0.001)) (nhds (straightBranch realNumerics 0 0 1 0 1).1) := by
  have hc : ContinuousAt (fun yawd : ℝ => (turningBranch realNumerics 0 0 1 0 yawd 1).1)
      0.001 := by
    show ContinuousAt (fun yawd : ℝ => (0 : ℝ) + 1 / yawd
      * (Real.sin (0 + yawd * 1) - Real.sin 0)) 0.001
    refine ContinuousAt.add continuousAt_const (ContinuousAt.mul ?_ ?_)
    · exact ContinuousAt.div continuousAt_const continuousAt_id (by norm_num)
    · exact ((Real.continuous_sin.comp (by continuity)).continuousAt).sub continuousAt_const
  have hv : (turningBranch realNumerics 0 0 1 0 0.001 1).1 = 1000 * Real.sin 0.001 := by
    show (0 : ℝ) + 1 / 0.001 * (Real.sin (0 + 0.001 * 1) - Real.sin 0) = _
    rw [Real.sin_zero]
    norm_num
  have ht : Filter.Tendsto (fun yawd : ℝ => (turningBranch realNumerics 0 0 1 0 yawd 1).1)
      (nhdsWithin 0.001 (Set.Ioi 0.001)) (nhds (1000 * Real.sin 0.001)) := by
    rw [← hv]
    exact hc.tendsto.mono_left nhdsWithin_le_nhds
  have hs : (straightBranch realNumerics 0 0 1 0 1).1 = 1 := by
    show (0 : ℝ) + 1 * 1 * Real.cos 0 = 1
    rw [Real.cos_zero]
    norm_num
  have hlt : 1000 * Real.sin 0.001 < 1 := by
    have := Real.sin_lt (show (0 : ℝ) < 0.001 by norm_num)
    linarith
  have hp : predictSigmaPoint realNumerics 1 ![0, 0, 1, 0, 0.001, 0, 0] 0 = 1 := by
    have h4 : (![0, 0, 1, 0, 0.001, 0, 0] : Fin 7 → ℝ) 4 = 0.001 := rfl
    have h5 : (![0, 0, 1, 0, 0.001, 0, 0] : Fin 7 → ℝ) 5 = 0 := rfl
    have hle : ¬ |(0.001 : ℝ)| > 0.001 := by
      rw [abs_of_pos (by norm_num)]
      exact lt_irrefl _
    rw [(predictSigmaPoint_branches realNumerics 1 _).1, h4, h5, if_neg hle]
    show (0 : ℝ) + 1 * 1 * Real.cos 0 + 0.5 * 0 * 1 * 1 * Real.cos 0 = 1
    rw [Real.cos_zero]
    norm_num
  refine ⟨ht, hs, hp, hlt, fun h => ?_⟩
  have := tendsto_nhds_unique ht h
  rw [hs] at this
  linarith

/-- C12, amended: the position entries of a predicted sigma point are those of the turning
branch when `|yawd| > 0.001` and those of the straight-line branch otherwise (plus the noise
term), and over the real numbers, for fixed position, speed, heading and `delta_t`, the
position given by the turning branch tends to the one given by the straight-line branch as
the heading rate tends to 0, from both sides. -/
theorem C12_branches_agree_at_zero (c : Fin 7 → ℝ) (p_x p_y v yaw delta_t : ℝ) :
    (predictSigmaPoint realNumerics delta_t c 0
      = (if |c 4| > 0.001
          then (turningBranch realNumerics (c 0) (c 1) (c 2) (c 3) (c 4) delta_t).1
          else (straightBranch realNumerics (c 0) (c 1) (c 2) (c 3) delta_t).1)
        + 0.5 * c 5 * delta_t * delta_t * realNumerics.cos (c 3) ∧
    predictSigmaPoint realNumerics delta_t c 1
      = (if |c 4| > 0.001
          then (turningBranch realNumerics (c 0) (c 1) (c 2) (c 3) (c 4) delta_t).2
          else (straightBranch realNumerics (c 0) (c 1) (c 2) (c 3) delta_t).2)
        + 0.5 * c 5 * delta_t * delta_t * realNumerics.sin (c 3)) ∧
    Filter.Tendsto (fun yawd : ℝ => turningBranch realNumerics p_x p_y v yaw yawd delta_t)
      (nhdsWithin 0 {0}ᶜ) (nhds (straightBranch realNumerics p_x p_y v yaw delta_t)) ∧
    Filter.Tendsto (fun yawd : ℝ => turningBranch realNumerics p_x p_y v yaw yawd delta_t)
      (nhdsWithin 0 (Set.Ioi 0)) (nhds (straightBranch realNumerics p_x p_y v yaw delta_t)) ∧
    Filter.Tendsto (fun yawd : ℝ => turningBranch realNumerics p_x p_y v yaw yawd delta_t)
      (nhdsWithin 0 (Set.Iio 0)) (nhds (straightBranch realNumerics p_x p_y v yaw delta_t)) :=
  ⟨predictSigmaPoint_branches realNumerics delta_t c,
    turningBranch_tendsto p_x p_y v yaw delta_t,
    (turningBranch_tendsto p_x p_y v yaw delta_t).mono_left
      (nhdsWithin_mono 0 fun _ hy => ne_of_gt (Set.mem_Ioi.mp hy)),
    (turningBranch_tendsto p_x p_y v yaw delta_t).mono_left
      (nhdsWithin_mono 0 fun _ hy => ne_of_lt (Set.mem_Iio.mp hy))⟩

/-! ## Innovation and consistency diagnostic -/

/-- C13: `UpdateLidar` normalizes entry 1 of the innovation, the y position, as if it were an
angle (lines 297-299).  In the tracking state `UKF.spread` with the laser measurement
`(1, 6)` the innovation `z - z_pred` is `(0, 4)` and the gain has `K(1, 1) = 80/89`, so that
`x_ + K * (z - z_pred)` has the y entry `2 + 80/89 * 4`; `UpdateLidar` stores
`2 + 80/89 * (4 - 2 * M_PI)` instead, while `NIS_laser_` is computed from the innovation
`(0, 4)` itself. -/
theorem C13_lidar_innovation_wrapped :
    ∃ (s2 : UKF ℚ) (S : Matrix (Fin 2) (Fin 2) ℚ) (Tc : Matrix (Fin 5) (Fin 2) ℚ),
      lidarS 2 (UKF.spread : UKF ℚ) = some S ∧ lidarTc 2 (UKF.spread : UKF ℚ) = some Tc ∧
      UpdateLidar 2 (UKF.spread : UKF ℚ) laserFar = some s2 ∧
      lidarZ laserFar - lidarZpred (UKF.spread : UKF ℚ) = ![0, 4] ∧
      (Tc * inverse S) 1 1 = 80 / 89 ∧
      ((UKF.spread : UKF ℚ).x_ + (Tc * inverse S).mulVec
        (lidarZ laserFar - lidarZpred (UKF.spread : UKF ℚ))) 1 = 2 + 80 / 89 * 4 ∧
      s2.x_ 1 = 2 + 80 / 89 * (4 - 2 * M_PI) ∧
      s2.x_ ≠ (UKF.spread : UKF ℚ).x_ + (Tc * inverse S).mulVec
        (lidarZ laserFar - lidarZpred (UKF.spread : UKF ℚ)) ∧
      s2.NIS_laser_ = (![0, 4] : Fin 2 → ℚ) ⬝ᵥ (inverse S).mulVec ![0, 4] := by
  obtain ⟨e, hn⟩ := spread_innovation
  have hK : ((Matrix.of fun (k : Fin 5) (j : Fin 2) => if k = 1 ∧ j = 1 then (1 / 5 : ℚ) else 0)
      * inverse !![(9 / 400 : ℚ), 0; 0, 89 / 400]) 1 1 = 80 / 89 := by
    simp [Matrix.mul_apply, inverse, Matrix.det_fin_two, Matrix.adjugate_fin_two]
    norm_num
  have h1 : ((UKF.spread : UKF ℚ).x_ + ((Matrix.of fun (k : Fin 5) (j : Fin 2) =>
      if k = 1 ∧ j = 1 then (1 / 5 : ℚ) else 0)
      * inverse !![(9 / 400 : ℚ), 0; 0, 89 / 400]).mulVec ![0, 4]) 1 = 2 + 80 / 89 * 4 := by
    simp [Matrix.mul_apply, Matrix.mulVec, Matrix.dotProduct, inverse, Matrix.det_fin_two,
      Matrix.adjugate_fin_two, UKF.spread, UKF.tracking]
    norm_num
  have h2 : ((UKF.spread : UKF ℚ).x_ + ((Matrix.of fun (k : Fin 5) (j : Fin 2) =>
      if k = 1 ∧ j = 1 then (1 / 5 : ℚ) else 0)
      * inverse !![(9 / 400 : ℚ), 0; 0, 89 / 400]).mulVec ![0, 4 - 2 * M_PI]) 1
      = 2 + 80 / 89 * (4 - 2 * M_PI) := by
    simp [Matrix.mul_apply, Matrix.mulVec, Matrix.dotProduct, inverse, Matrix.det_fin_two,
      Matrix.adjugate_fin_two, UKF.spread, UKF.tracking]
    norm_num
  refine ⟨_, _, _, spread_S 2 (by norm_num), spread_Tc 2 (by norm_num),
    (UpdateLidar_eq_some_iff 2 _ _ _).mpr
      ⟨_, _, _, spread_S 2 (by norm_num), spread_Tc 2 (by norm_num), hn, rfl⟩,
    e, hK, ?_, h2, ?_, ?_⟩
  · rw [e]; exact h1
  · intro h
    have h3 := congrFun h 1
    rw [e] at h3
    rw [h1] at h3
    have h4 : (2 : ℚ) + 80 / 89 * (4 - 2 * M_PI) = 2 + 80 / 89 * 4 := h2.symm.trans h3
    norm_num [M_PI] at h4
  · show (lidarZ laserFar - lidarZpred (UKF.spread : UKF ℚ)) ⬝ᵥ
      (inverse _).mulVec (lidarZ laserFar - lidarZpred (UKF.spread : UKF ℚ)) = _
    rw [e]

/-- C14: `UpdateRadar` computes `NIS_radar_` from `y = z - z_pred` without the bearing
normalization (lines 371-374), while the mean is updated with the normalized `z_diff` (lines
399-406).  Over the real numbers, in the tracking state `UKF.behind` (an object at the bearing
`π`) with the radar measurement `(1, -3, 0)`, the innovation is `(0, -3 - π, 0)` and its
normalization is `z_diff = (0, -3 - π + 2 * M_PI, 0)`; the mean is updated with `z_diff`,
but the stored `NIS_radar_` is `(3 + π)^2 / 0.0009`, not
`z_diff ⬝ᵥ S⁻¹ z_diff = (-3 - π + 2 * M_PI)^2 / 0.0009`. -/
theorem C14_nis_not_normalized :
    ∃ (s2 : UKF ℝ) (S : Matrix (Fin 3) (Fin 3) ℝ) (Tc : Matrix (Fin 5) (Fin 3) ℝ)
      (z_diff : Fin 3 → ℝ),
      radarS realNumerics 2 (UKF.behind : UKF ℝ) = some S ∧
      radarTc realNumerics 2 (UKF.behind : UKF ℝ) = some Tc ∧
      normalizeEntry 2 1 (radarBehind.raw_measurements_
        - radarZpred realNumerics (UKF.behind : UKF ℝ)) = some z_diff ∧
      UpdateRadar realNumerics 2 (UKF.behind : UKF ℝ) radarBehind = some s2 ∧
      radarBehind.raw_measurements_ - radarZpred realNumerics (UKF.behind : UKF ℝ)
        = ![0, -3 - Real.pi, 0] ∧
      z_diff = ![0, -3 - Real.pi + 2 * M_PI, 0] ∧
      s2.x_ = (UKF.behind : UKF ℝ).x_ + (Tc * inverse S).mulVec z_diff ∧
      s2.NIS_radar_ = (3 + Real.pi) ^ 2 / 0.0009 ∧
      z_diff ⬝ᵥ (inverse S).mulVec z_diff = (-3 - Real.pi + 2 * M_PI) ^ 2 / 0.0009 ∧
      s2.NIS_radar_ ≠ z_diff ⬝ᵥ (inverse S).mulVec z_diff := by
  obtain ⟨e, hn⟩ := behind_innovation
  obtain ⟨hS, hT⟩ := behind_S_Tc 2 (by norm_num)
  have hR : inverse (radarR (UKF.behind : UKF ℝ))
      = Matrix.diagonal fun i => ((![0.3 * 0.3, 0.03 * 0.03, 0.3 * 0.3] : Fin 3 → ℝ) i)⁻¹ := by
    rw [radarR_diagonal]
    exact inverse_diagonal _ (by
      intro i
      fin_cases i <;> simp [UKF.behind, UKF.tracking, UKF.fresh, UKF.construct] <;> norm_num)
  have q : ∀ a : ℝ, (![0, a, 0] : Fin 3 → ℝ) ⬝ᵥ
      (inverse (radarR (UKF.behind : UKF ℝ))).mulVec ![0, a, 0] = a ^ 2 / 0.0009 := by
    intro a
    rw [hR]
    simp only [Matrix.dotProduct, Matrix.mulVec_diagonal, Fin.sum_univ_three]
    simp
    norm_num
    ring
  have p3 := Real.pi_gt_three
  have p4 := Real.pi_le_four
  have hM1 : (3.14 : ℝ) < M_PI := by norm_num [M_PI]
  have hM2 : (M_PI : ℝ) < 3.15 := by norm_num [M_PI]
  have hne : (3 + Real.pi) ^ 2 / 0.0009 ≠ (-3 - Real.pi + 2 * M_PI) ^ 2 / (0.0009 : ℝ) := by
    intro h
    have h9 : (0.0009 : ℝ) ≠ 0 := by norm_num
    have h5 : (3 + Real.pi) ^ 2 = (-3 - Real.pi + 2 * M_PI) ^ 2 := by
      rwa [div_left_inj' h9] at h
    nlinarith
  have hnis : (radarBehind.raw_measurements_ - radarZpred realNumerics (UKF.behind : UKF ℝ))
      ⬝ᵥ (inverse (radarR (UKF.behind : UKF ℝ))).mulVec
        (radarBehind.raw_measurements_ - radarZpred realNumerics (UKF.behind : UKF ℝ))
      = (3 + Real.pi) ^ 2 / 0.0009 := by
    rw [e, q]; ring
  refine ⟨_, _, _, _, hS, hT, hn, (UpdateRadar_eq_some_iff realNumerics 2 _ _ _).mpr
    ⟨_, _, _, hS, hT, hn, rfl⟩, e, rfl, rfl, hnis, q _, ?_⟩
  rw [q]
  show (radarBehind.raw_measurements_ - radarZpred realNumerics (UKF.behind : UKF ℝ))
      ⬝ᵥ (inverse (radarR (UKF.behind : UKF ℝ))).mulVec
        (radarBehind.raw_measurements_ - radarZpred realNumerics (UKF.behind : UKF ℝ)) ≠ _
  rw [hnis]
  exact hne

/-! ## Angle normalization -/

/-- C15, counterexample: the angle `-M_PI` is returned unchanged by the angle normalization
(neither loop condition holds for it), and `-M_PI` is not strictly greater than `-M_PI`: the
returned value lies outside the half-open interval. -/
theorem C15_half_open_counterexample :
    normalizeAngle 1 (-M_PI : ℚ) = some (-M_PI) ∧ ¬ (-M_PI < (-M_PI : ℚ)) := by
  refine ⟨?_, lt_irrefl _⟩
  have hpi : (0 : ℚ) < M_PI := M_PI_pos
  exact normalizeAngle_of_mem _ (le_refl _) (by linarith) 1 (le_refl _)

/-- C15, amended: the angle normalization returns (with enough fuel), and the value `b` it
returns for the angle `a` lies in the closed interval `[-M_PI, M_PI]`; the lower end is
attained: `b = -M_PI` exactly when `a = -M_PI - k * (2 * M_PI)` for a natural number `k`,
and for every other `a` the value is strictly greater than `-M_PI`. -/
theorem C15_closed_interval [Archimedean K] (a : K) :
    (∃ N, ∀ fuel, N ≤ fuel → ∃ b, normalizeAngle fuel a = some b) ∧
    ∀ fuel b, normalizeAngle fuel a = some b →
      -M_PI ≤ b ∧ b ≤ M_PI ∧ (b = -M_PI ↔ ∃ k : ℕ, a = -M_PI - k * (2 * M_PI)) ∧
      ((¬ ∃ k : ℕ, a = -M_PI - k * (2 * M_PI)) → -M_PI < b) := by
  have hpi : (0 : K) < M_PI := M_PI_pos
  refine ⟨?_, fun fuel b h => ?_⟩
  · obtain ⟨N, b, hN, -⟩ := normalizeAngle_spec a
    exact ⟨N, fun fuel hf => ⟨b, hN fuel hf⟩⟩
  obtain ⟨h1, h2, -, -⟩ := normalizeAngle_sound fuel a b h
  have hiff : b = -M_PI ↔ ∃ k : ℕ, a = -M_PI - k * (2 * M_PI) := by
    simp only [normalizeAngle, Option.bind_eq_some] at h
    obtain ⟨c, hc, hb⟩ := h
    obtain ⟨hc1, -, hc3, hc4⟩ := whileAbove_sound fuel a c hc
    obtain ⟨hb1, ⟨j, hj⟩, hb3, hb4⟩ := whileBelow_sound fuel c b hb
    constructor
    · intro hbe
      by_cases ha : M_PI < a
      · have := hc4 ha
        have hcb : b = c := hb3 (le_of_lt this)
        rw [hcb] at hbe; linarith
      · have hca : c = a := hc3 (not_lt.mp ha)
        subst hca
        exact ⟨j, by linarith⟩
    · rintro ⟨k, hk⟩
      have hk0 : (0 : K) ≤ k := Nat.cast_nonneg k
      have hale : a ≤ M_PI := by nlinarith
      have hca : c = a := hc3 hale
      subst hca
      rcases Nat.eq_zero_or_pos k with rfl | hkpos
      · have : c = -M_PI := by simpa using hk
        rw [hb3 (by linarith)]; exact this
      · have hk1 : (1 : K) ≤ k := by exact_mod_cast hkpos
        have hlt : c < -M_PI := by nlinarith
        have hbl := hb4 hlt
        have e : b = -M_PI + ((j : K) - k) * (2 * M_PI) := by rw [hj, hk]; ring
        have hjk : (k : K) ≤ j := by
          by_contra hcon
          push_neg at hcon
          nlinarith
        have hjk2 : (j : K) < k + 1 := by
          by_contra hcon
          push_neg at hcon
          nlinarith
        have hj1 : k ≤ j := by exact_mod_cast hjk
        have hj2 : j < k + 1 := by exact_mod_cast hjk2
        have : j = k := by omega
        rw [e, this]; ring
  refine ⟨h1, h2, hiff, fun hn => lt_of_le_of_ne h1 fun hbe => hn (hiff.mp hbe.symm)⟩

/-- C15, witness: the angle 4 over the real numbers. -/
theorem C15_closed_interval_witness :
    (∃ N, ∀ fuel, N ≤ fuel → ∃ b, normalizeAngle fuel (4 : ℝ) = some b) ∧
    ∀ fuel b, normalizeAngle fuel (4 : ℝ) = some b →
      -M_PI ≤ b ∧ b ≤ M_PI ∧ (b = -M_PI ↔ ∃ k : ℕ, (4 : ℝ) = -M_PI - k * (2 * M_PI)) ∧
      ((¬ ∃ k : ℕ, (4 : ℝ) = -M_PI - k * (2 * M_PI)) → -M_PI < b) :=
  C15_closed_interval (4 : ℝ)

/-! ## Invariants of the covariance -/

/-- C16: with the constructor's `lambda_ = 3 - 5` and a library `llt` whose factor is lower
triangular (as `matrixL()` is), `Prediction` returns (with enough fuel) for every state and
every `delta_t`, in particular for every state with symmetric positive definite `P_` and
every `delta_t ≥ 0`, and the covariance `P_` it produces, the weighted sum of the outer
products of the heading-normalized sigma-point residuals, is positive semi-definite (in exact
arithmetic).  The central weight `-2/5` is negative, but the four sigma points of the two
noise columns are symmetric about the central one and carry the weight `4 * 1/10`. -/
theorem C16_predicted_covariance_posSemidef [Archimedean K] (m : Numerics K) (s : UKF K)
    (delta_t : K) (hl : s.lambda_ = 3 - 5)
    (hL : ∀ i j : Fin 7, i < j →
      m.llt (augmentedCovariance s.P_ s.std_a_ s.std_yawdd_) i j = 0) :
    (∃ N, ∀ fuel, N ≤ fuel → ∃ s1, Prediction m fuel s delta_t = some s1) ∧
    ∀ fuel s1, Prediction m fuel s delta_t = some s1 → IsPosSemidef s1.P_ :=
  ⟨Prediction_returns m s delta_t,
    fun fuel s1 h => Prediction_posSemidef m fuel s s1 delta_t hl hL h⟩

/-- C16, witness: the filter `UKF.unit` over the real numbers, whose covariance, the identity
matrix, is symmetric positive definite, with `delta_t = 0.1 ≥ 0`; the Cholesky recurrence
returns a lower-triangular factor. -/
theorem C16_predicted_covariance_posSemidef_witness :
    IsPosDef (UKF.unit : UKF ℝ).P_ ∧ (0 : ℝ) ≤ 0.1 ∧
    (UKF.unit : UKF ℝ).lambda_ = 3 - 5 ∧
    (∀ i j : Fin 7, i < j →
      realNumerics.llt (augmentedCovariance (UKF.unit : UKF ℝ).P_ (UKF.unit : UKF ℝ).std_a_
        (UKF.unit : UKF ℝ).std_yawdd_) i j = 0) ∧
    (∃ N, ∀ fuel, N ≤ fuel → ∃ s1, Prediction realNumerics fuel UKF.unit 0.1 = some s1) ∧
    ∀ fuel s1, Prediction realNumerics fuel UKF.unit 0.1 = some s1 → IsPosSemidef s1.P_ :=
  ⟨one_posDef, by norm_num, rfl, cholesky_upper Real.sqrt _,
    C16_predicted_covariance_posSemidef realNumerics UKF.unit 0.1 rfl
      (cholesky_upper Real.sqrt _)⟩

/-- C17: symmetry of the state covariance is an invariant.  The prior written at
initialization is symmetric; `Prediction` returns (with enough fuel) in every state, and the
`P_` it produces is symmetric whatever the input state was; `UpdateLidar` and `UpdateRadar`
return in every state, and from a state with symmetric `P_` they produce a state with
symmetric `P_` (the value `P_ - K * S * Kᵀ`). -/
theorem C17_symmetry [Archimedean K] (m : Numerics K) (s : UKF K)
    (meas_package : MeasurementPackage K) (delta_t : K) :
    (initialCovariance : Matrix (Fin 5) (Fin 5) K).IsSymm ∧
    (∀ fuel s0, s0.is_initialized_ = false →
      ∃ s1, ProcessMeasurement m fuel s0 meas_package = some s1 ∧ s1.P_.IsSymm) ∧
    ((∃ N, ∀ fuel, N ≤ fuel → ∃ s1, Prediction m fuel s delta_t = some s1) ∧
      ∀ fuel s1, Prediction m fuel s delta_t = some s1 → s1.P_.IsSymm) ∧
    ((∃ N, ∀ fuel, N ≤ fuel → ∃ s2, UpdateLidar fuel s meas_package = some s2) ∧
      (s.P_.IsSymm → ∀ fuel s2, UpdateLidar fuel s meas_package = some s2 → s2.P_.IsSymm)) ∧
    ((∃ N, ∀ fuel, N ≤ fuel → ∃ s2, UpdateRadar m fuel s meas_package = some s2) ∧
      (s.P_.IsSymm →
        ∀ fuel s2, UpdateRadar m fuel s meas_package = some s2 → s2.P_.IsSymm)) := by
  refine ⟨initialCovariance_isSymm, fun fuel s0 h0 => ?_, ⟨Prediction_returns m s delta_t,
    fun fuel s1 h => Prediction_isSymm m fuel s s1 delta_t h⟩, ⟨?_, fun hP fuel s2 h =>
    UpdateLidar_isSymm fuel s s2 meas_package hP h⟩, ⟨?_, fun hP fuel s2 h =>
    UpdateRadar_isSymm m fuel s s2 meas_package hP h⟩⟩
  · refine ⟨_, by simp only [ProcessMeasurement, h0]; rfl, ?_⟩
    exact initialCovariance_isSymm
  · obtain ⟨N, s2, h⟩ := UpdateLidar_returns s meas_package
    exact ⟨N, fun fuel hf => ⟨s2, h fuel hf⟩⟩
  · obtain ⟨N, s2, h⟩ := UpdateRadar_returns m s meas_package
    exact ⟨N, fun fuel hf => ⟨s2, h fuel hf⟩⟩

/-- C17, witness: the tracking filter `UKF.tracking` over the real numbers, whose `P_` is the
symmetric prior, with the laser measurement `laserNext` and `delta_t = 0.1`. -/
theorem C17_symmetry_witness :
    (UKF.tracking : UKF ℝ).P_.IsSymm ∧
    ((initialCovariance : Matrix (Fin 5) (Fin 5) ℝ).IsSymm ∧
    (∀ fuel s0, s0.is_initialized_ = false →
      ∃ s1, ProcessMeasurement realNumerics fuel s0 laserNext = some s1 ∧ s1.P_.IsSymm) ∧
    ((∃ N, ∀ fuel, N ≤ fuel → ∃ s1, Prediction realNumerics fuel UKF.tracking 0.1 = some s1) ∧
      ∀ fuel s1, Prediction realNumerics fuel UKF.tracking 0.1 = some s1 → s1.P_.IsSymm) ∧
    ((∃ N, ∀ fuel, N ≤ fuel → ∃ s2, UpdateLidar fuel (UKF.tracking : UKF ℝ) laserNext = some s2) ∧
      ((UKF.tracking : UKF ℝ).P_.IsSymm →
        ∀ fuel s2, UpdateLidar fuel (UKF.tracking : UKF ℝ) laserNext = some s2 →
          s2.P_.IsSymm)) ∧
    ((∃ N, ∀ fuel, N ≤ fuel →
        ∃ s2, UpdateRadar realNumerics fuel UKF.tracking laserNext = some s2) ∧
      ((UKF.tracking : UKF ℝ).P_.IsSymm →
        ∀ fuel s2, UpdateRadar realNumerics fuel UKF.tracking laserNext = some s2 →
          s2.P_.IsSymm))) :=
  ⟨initialCovariance_isSymm, C17_symmetry realNumerics UKF.tracking laserNext 0.1⟩

/-- C18, counterexample: after the first measurement of the end-to-end scenario has
initialized a freshly constructed filter, the augmented covariance that the first
`Prediction` builds has the entry 0 at position (4, 4), the variance of the heading rate in
the prior, and is not positive definite. -/
theorem C18_prior_counterexample :
    ∃ s1, ProcessMeasurement realNumerics 0 (UKF.fresh : UKF ℝ) radarFirst = some s1 ∧
      augmentedCovariance s1.P_ s1.std_a_ s1.std_yawdd_ 4 4 = 0 ∧
      ¬ IsPosDef (augmentedCovariance s1.P_ s1.std_a_ s1.std_yawdd_) :=
  ⟨_, rfl, by
    show augmentedCovariance (initialCovariance : Matrix (Fin 5) (Fin 5) ℝ) _ _ 4 4 = 0
    rw [augmentedCovariance_initial]; simp [Matrix.vecHead, Matrix.vecTail],
    augmentedCovariance_initial_not_posDef _ _⟩

/-- C18, amended: in the first `Prediction` after the initialization of a constructed filter
the augmented covariance is `diag(0.6, 0.6, 6, 7.5, 0, 0.25, 0.525625)`.  It is symmetric and
positive semi-definite but not positive definite.  A lower-triangular factor `L` with
`L * Lᵀ = P_aug` exists all the same: the Cholesky recurrence over the real numbers returns
the diagonal matrix of the square roots, whose pivot `L(4, 4)` is 0. -/
theorem C18_first_augmented_covariance (u : UKF ℝ) (meas_package : MeasurementPackage ℝ)
    (fuel : ℕ) :
    ∃ (s1 : UKF ℝ) (A : Matrix (Fin 7) (Fin 7) ℝ),
      ProcessMeasurement realNumerics fuel (UKF.construct u) meas_package = some s1 ∧
      A = augmentedCovariance s1.P_ s1.std_a_ s1.std_yawdd_ ∧
      A = Matrix.diagonal ![0.6, 0.6, 6, 7.5, 0, 0.25, 0.525625] ∧
      A.IsSymm ∧ IsPosSemidef A ∧ ¬ IsPosDef A ∧
      (∀ i j : Fin 7, i < j → realNumerics.llt A i j = 0) ∧
      realNumerics.llt A * (realNumerics.llt A)ᵀ = A ∧
      realNumerics.llt A 4 4 = 0 := by
  have hA : augmentedCovariance (initialCovariance : Matrix (Fin 5) (Fin 5) ℝ) 0.5 0.725
      = Matrix.diagonal ![0.6, 0.6, 6, 7.5, 0, 0.25, 0.525625] := by
    rw [augmentedCovariance_initial]
    norm_num
  have hnn : ∀ i : Fin 7, (0 : ℝ) ≤ (![0.6, 0.6, 6, 7.5, 0, 0.25, 0.525625] : Fin 7 → ℝ) i := by
    simp only [Fin.forall_fin_succ]
    norm_num [Matrix.vecHead, Matrix.vecTail]
  have hL : realNumerics.llt (Matrix.diagonal ![0.6, 0.6, 6, 7.5, 0, 0.25, 0.525625])
      = Matrix.diagonal fun i =>
          Real.sqrt ((![0.6, 0.6, 6, 7.5, 0, 0.25, 0.525625] : Fin 7 → ℝ) i) :=
    cholesky_diagonal Real.sqrt _
  refine ⟨_, _, by simp only [ProcessMeasurement, UKF.construct]; rfl, rfl, hA, ?_, ?_, ?_, ?_,
    ?_, ?_⟩
  · show (augmentedCovariance (initialCovariance : Matrix (Fin 5) (Fin 5) ℝ) 0.5 0.725).IsSymm
    rw [hA]; exact Matrix.isSymm_diagonal _
  · show IsPosSemidef (augmentedCovariance (initialCovariance : Matrix (Fin 5) (Fin 5) ℝ)
      0.5 0.725)
    rw [hA]; exact diagonal_posSemidef _ hnn
  · exact augmentedCovariance_initial_not_posDef _ _
  · intro i j hij
    show realNumerics.llt (augmentedCovariance
      (initialCovariance : Matrix (Fin 5) (Fin 5) ℝ) 0.5 0.725) i j = 0
    rw [hA, hL]
    exact Matrix.diagonal_apply_ne _ (ne_of_lt hij)
  · show realNumerics.llt (augmentedCovariance
        (initialCovariance : Matrix (Fin 5) (Fin 5) ℝ) 0.5 0.725)
      * (realNumerics.llt (augmentedCovariance
        (initialCovariance : Matrix (Fin 5) (Fin 5) ℝ) 0.5 0.725))ᵀ
      = augmentedCovariance (initialCovariance : Matrix (Fin 5) (Fin 5) ℝ) 0.5 0.725
    rw [hA, hL, Matrix.diagonal_transpose, Matrix.diagonal_mul_diagonal]
    exact congrArg Matrix.diagonal (funext fun i => Real.mul_self_sqrt (hnn i))
  · show realNumerics.llt (augmentedCovariance
      (initialCovariance : Matrix (Fin 5) (Fin 5) ℝ) 0.5 0.725) 4 4 = 0
    rw [hA, hL]
    simp [Matrix.vecHead, Matrix.vecTail]

/-! ## The laser correction as a linear Kalman update -/

/-- C19: let `s` be a state just produced by `Prediction` (from any state `s0`, with any
`delta_t`) in which the y-residual `Xsig_pred_(1, i) - x_(1)` of every sigma point lies in
`[-M_PI, M_PI]`.  Then `UpdateLidar` returns (with enough fuel), and the matrices it computes
do not depend on the fuel: `Tc` is the first two columns of `P_` and `S` is the top-left
2 x 2 block of `P_` plus `diag(std_laspx_^2, std_laspy_^2)`.  With `H = [I2 0]` this reads
`z_pred = H * x_`, `Tc = P_ * Hᵀ` and `S = H * P_ * Hᵀ + R`, so that the gain `Tc * S⁻¹` and
the covariance `P_ - K * S * Kᵀ` are those of the linear Kalman update; the mean is
`x_ + K * z_diff`, where `z_diff` is the innovation `z - H * x_` after the normalization of
its entry 1 (which is `z - H * x_` itself when that entry lies in `[-M_PI, M_PI]`). -/
theorem C19_lidar_linear_update [Archimedean K] (m : Numerics K) (fuel0 : Nat) (s0 s : UKF K)
    (delta_t : K) (meas_package : MeasurementPackage K)
    (hpred : Prediction m fuel0 s0 delta_t = some s)
    (hy : ∀ i, -M_PI ≤ s.Xsig_pred_ 1 i - s.x_ 1 ∧ s.Xsig_pred_ 1 i - s.x_ 1 ≤ M_PI) :
    ∃ (N : ℕ) (S : Matrix (Fin 2) (Fin 2) K) (Tc : Matrix (Fin 5) (Fin 2) K)
      (z_diff : Fin 2 → K),
      (∀ fuel, N ≤ fuel → lidarS fuel s = some S ∧ lidarTc fuel s = some Tc ∧
        UpdateLidar fuel s meas_package = some { s with
          NIS_laser_ := (lidarZ meas_package - lidarZpred s) ⬝ᵥ
            (inverse S).mulVec (lidarZ meas_package - lidarZpred s)
          x_ := s.x_ + (Tc * inverse S).mulVec z_diff
          P_ := s.P_ - Tc * inverse S * S * (Tc * inverse S)ᵀ }) ∧
      (∀ r c, Tc r c = s.P_ r (Fin.castLE (by omega) c)) ∧
      (∀ a b, S a b
        = s.P_ (Fin.castLE (by omega) a) (Fin.castLE (by omega) b) + lidarR s a b) ∧
      lidarR s = Matrix.diagonal ![s.std_laspx_ * s.std_laspx_, s.std_laspy_ * s.std_laspy_] ∧
      lidarZpred s = (lidarH : Matrix (Fin 2) (Fin 5) K).mulVec s.x_ ∧
      Tc = s.P_ * (lidarH : Matrix (Fin 2) (Fin 5) K)ᵀ ∧
      S = lidarH * s.P_ * (lidarH : Matrix (Fin 2) (Fin 5) K)ᵀ + lidarR s ∧
      NormalizedAt 1 (lidarZ meas_package - (lidarH : Matrix (Fin 2) (Fin 5) K).mulVec s.x_)
        z_diff ∧
      ∀ fuel S1 Tc1, lidarS fuel s = some S1 → lidarTc fuel s = some Tc1 →
        S1 = S ∧ Tc1 = Tc := by
  obtain ⟨N, S, Tc, z_diff, hN, hz⟩ := UpdateLidar_terminates s meas_package
  obtain ⟨hTc, hS⟩ := lidar_after_prediction m fuel0 s0 s delta_t hpred hy N S Tc
    (hN N (le_refl _)).1 (hN N (le_refl _)).2.1
  have hzp : lidarZpred s = (lidarH : Matrix (Fin 2) (Fin 5) K).mulVec s.x_ := by
    funext k
    rw [(lidarH_select (0 : Matrix (Fin 5) (Fin 1) K) (0 : Matrix (Fin 1) (Fin 5) K) s.x_ k
      0).2.2]
    obtain ⟨P, -, hs⟩ := (Prediction_eq_some_iff m fuel0 s0 s delta_t).mp hpred
    rw [(lidarZpred_apply s k).1, hs]
    rfl
  refine ⟨N, S, Tc, z_diff, fun fuel hf => ⟨(hN fuel hf).1, (hN fuel hf).2.1, ?_⟩,
    hTc, hS, ?_, hzp, ?_, ?_, ?_, ?_⟩
  · exact (UpdateLidar_eq_some_iff fuel s _ meas_package).mpr
      ⟨S, Tc, z_diff, (hN fuel hf).1, (hN fuel hf).2.1, (hN fuel hf).2.2, rfl⟩
  · funext a b
    fin_cases a <;> fin_cases b <;> simp [lidarR, Matrix.vecHead, Matrix.vecTail]
  · funext r c
    rw [hTc, (lidarH_select (0 : Matrix (Fin 5) (Fin 5) K) s.P_ 0 c r).2.1]
  · funext a b
    rw [hS, Matrix.add_apply,
      (lidarH_select (0 : Matrix (Fin 5) (Fin 2) K) (lidarH * s.P_) 0 b a).2.1,
      (lidarH_select s.P_ (0 : Matrix (Fin 5) (Fin 5) K) 0 a _).1]
  · rw [← hzp]; exact hz
  · intro fuel S1 Tc1 h1 h2
    obtain ⟨hTc1, hS1⟩ := lidar_after_prediction m fuel0 s0 s delta_t hpred hy fuel S1 Tc1 h1 h2
    constructor
    · funext a b; rw [hS1, hS]
    · funext r c; rw [hTc1, hTc]

/-- C19, witness: the state that `Prediction` with `delta_t = 0` produces from the filter
`UKF.tracking` over the real numbers; the y-residuals of its sigma points are 0 and
`± sqrt 5 * sqrt 0.6`.  The measurement is `laserNext`. -/
theorem C19_lidar_linear_update_witness :
    ∃ (fuel0 : ℕ) (s : UKF ℝ),
      Prediction realNumerics fuel0 UKF.tracking 0 = some s ∧
      (∀ i, -M_PI ≤ s.Xsig_pred_ 1 i - s.x_ 1 ∧ s.Xsig_pred_ 1 i - s.x_ 1 ≤ M_PI) ∧
      ∃ (N : ℕ) (S : Matrix (Fin 2) (Fin 2) ℝ) (Tc : Matrix (Fin 5) (Fin 2) ℝ)
        (z_diff : Fin 2 → ℝ),
        (∀ fuel, N ≤ fuel → lidarS fuel s = some S ∧ lidarTc fuel s = some Tc ∧
          UpdateLidar fuel s laserNext = some { s with
            NIS_laser_ := (lidarZ laserNext - lidarZpred s) ⬝ᵥ
              (inverse S).mulVec (lidarZ laserNext - lidarZpred s)
            x_ := s.x_ + (Tc * inverse S).mulVec z_diff
            P_ := s.P_ - Tc * inverse S * S * (Tc * inverse S)ᵀ }) ∧
        (∀ r c, Tc r c = s.P_ r (Fin.castLE (by omega) c)) ∧
        (∀ a b, S a b
          = s.P_ (Fin.castLE (by omega) a) (Fin.castLE (by omega) b) + lidarR s a b) ∧
        lidarR s
          = Matrix.diagonal ![s.std_laspx_ * s.std_laspx_, s.std_laspy_ * s.std_laspy_] ∧
        lidarZpred s = (lidarH : Matrix (Fin 2) (Fin 5) ℝ).mulVec s.x_ ∧
        Tc = s.P_ * (lidarH : Matrix (Fin 2) (Fin 5) ℝ)ᵀ ∧
        S = lidarH * s.P_ * (lidarH : Matrix (Fin 2) (Fin 5) ℝ)ᵀ + lidarR s ∧
        NormalizedAt 1 (lidarZ laserNext - (lidarH : Matrix (Fin 2) (Fin 5) ℝ).mulVec s.x_)
          z_diff ∧
        ∀ fuel S1 Tc1, lidarS fuel s = some S1 → lidarTc fuel s = some Tc1 →
          S1 = S ∧ Tc1 = Tc := by
  obtain ⟨N, d, hN, -⟩ := Prediction_terminates realNumerics (UKF.tracking : UKF ℝ) 0
  exact ⟨N, _, hN N (le_refl _), tracking_y_residual,
    C19_lidar_linear_update realNumerics N UKF.tracking _ 0 laserNext (hN N (le_refl _))
      tracking_y_residual⟩

/-! ## The normalization loops in `double` arithmetic: termination and drift -/

/-- C20, counterexample: in `double` arithmetic the first normalization loop does not terminate
on the input `10^17`.  This number is a `double`; the doubles around it are 16 apart, so
that `10^17 - 2. * M_PI` is rounded to `10^17` again and the loop condition `a > M_PI` holds
in every pass: with no amount of fuel does the loop, or the pair of loops, return.  Where the
loops do return, the result need not differ from the input by an integer multiple of
`2. * M_PI`: on the input 71 they return `71 - 11 * (2. * M_PI) - 2^(-47)`, the first of the
eleven differences having been rounded. -/
theorem C20_double_loop_counterexample :
    roundDouble (10 ^ 17) = 10 ^ 17 ∧
    roundDouble (10 ^ 17 - roundDouble (2 * M_PI_double)) = 10 ^ 17 ∧
    (∀ fuel, whileAboveF fuel (10 ^ 17) = none) ∧
    (∀ fuel, normalizeAngleF fuel (10 ^ 17) = none) ∧
    normalizeAngleF 12 71 = some (132642382094591 / 70368744177664) ∧
    (132642382094591 / 70368744177664 : ℚ) = 71 - 11 * (2 * M_PI_double) - 1 / 2 ^ 47 ∧
    ∀ k : ℤ, (132642382094591 / 70368744177664 : ℚ) - 71 ≠ k * (2 * M_PI_double) :=
  ⟨roundDouble_huge.1, roundDouble_huge.2, whileAboveF_huge, fun fuel => by
    simp only [normalizeAngleF, whileAboveF_huge, Option.none_bind],
    normalizeAngleF_71, drift_71.1, drift_71.2⟩

/-- C20, amended: in `double` arithmetic (the product `2. * M_PI` and every difference or sum
rounded to the nearest `double`), for every input `a` with `|a| ≤ 2^53` the pair of
normalization loops terminates: from some amount of fuel on it returns the same value `b`.
This value satisfies `-M_PI ≤ b ≤ M_PI` for the `double` constant `M_PI`; it is `a` itself
when `a` already lies in `[-M_PI, M_PI]`; and it differs from `a + k * (2 * M_PI)`, where
`|k|` is the number of passes through a loop body, by at most `|k| * |a| / 2^53`. -/
theorem C20_double_loops_bounded (a : ℚ) (h : |a| ≤ 2 ^ 53) :
    ∃ (N : ℕ) (b : ℚ) (k : ℤ), (∀ fuel, N ≤ fuel → normalizeAngleF fuel a = some b) ∧
      -M_PI_double ≤ b ∧ b ≤ M_PI_double ∧
      (-M_PI_double ≤ a → a ≤ M_PI_double → b = a) ∧
      |b - (a + k * (2 * M_PI_double))| ≤ |(k : ℚ)| * (|a| / 2 ^ 53) ∧
      M_PI_double = 884279719003555 / 281474976710656 ∧
      roundDouble (2 * M_PI_double) = 2 * M_PI_double := by
  obtain ⟨N, b, k, h1, h2, h3, h4, h5⟩ := normalizeAngleF_spec a h
  refine ⟨N, b, k, h1, h2, h3, h4, h5, M_PI_double_eq.1, ?_⟩
  rw [M_PI_double_eq.2, M_PI_double_eq.1]
  norm_num

/-- C20 (amended), witness: the input 100, which the first loop lowers in 16 passes. -/
theorem C20_double_loops_bounded_witness :
    |(100 : ℚ)| ≤ 2 ^ 53 ∧
    ∃ (N : ℕ) (b : ℚ) (k : ℤ), (∀ fuel, N ≤ fuel → normalizeAngleF fuel 100 = some b) ∧
      -M_PI_double ≤ b ∧ b ≤ M_PI_double ∧
      (-M_PI_double ≤ (100 : ℚ) → (100 : ℚ) ≤ M_PI_double → b = 100) ∧
      |b - (100 + k * (2 * M_PI_double))| ≤ |(k : ℚ)| * (|(100 : ℚ)| / 2 ^ 53) ∧
      M_PI_double = 884279719003555 / 281474976710656 ∧
      roundDouble (2 * M_PI_double) = 2 * M_PI_double :=
  ⟨by norm_num [abs_of_pos], C20_double_loops_bounded 100 (by norm_num [abs_of_pos])⟩

end Claims

end Ukf
